import Mathlib

/-!
# refmt: wrapping and indenting strings

A shallow embedding of `refmt.go` (package `refmt`).

Go strings are byte sequences, so a string is a `List Nat` of byte values and
`len` is `List.length`.  The runes of a `Style` are kept as their code points
and `string(r)` is the UTF-8 encoding `runeString r`; a negative rune, which
`string` turns into `U+FFFD` like every value that is no code point, has no
counterpart here.  The input text is arbitrary bytes: where the Go library
walks a string rune by rune (the regular expression engine, `strings.Trim`),
the walk is embedded with the UTF-8 decoder of Go.

`SplitChar` goes into the two regular expressions unescaped.  What the parser
of package `regexp` makes of the expression is embedded for every
`SplitChar`: most characters stand for themselves, `. * + ? | ^ $` have
their meaning in the expression, and `\ ( ) [` give an expression that does
not parse, so that `regexp.MustCompile` panics.  The replacement templates are
expanded as `regexp.Expand` does it, so that a `WordSep` or `IndentChar` with a
meaning in a template (letters, digits, underscore, dollar sign) behaves as
in Go.  One thing is left out: `regexp.Expand` takes letters and digits beyond
ASCII into the name of a variable, by the Unicode tables; the embedding is
therefore exact for a `WordSep` below `0x80` and, when `SplitChar` is the
dollar sign, an `IndentChar` below `0x80`.  The theorems about what `Wrap` and
`Indent` return take the separators below `0x80`.

Go `int` is 64 bit; no index computed here can leave that range for a string
that fits in memory, so indices are unbounded numbers.

A call returns a string or panics (`Outcome`).  Loops run on fuel.  The
functions whose name ends in `Byte` are the same functions for separators of
one byte, with the needle as a byte; the proofs are done on them, and the
theorems `wrapLoop_byte`, `prepared_literal`, `Wrap_literal` and
`Indent_literal` show that they agree with the embedding of the code for such
separators.
-/

namespace Refmt

/-- A Go string: its bytes. -/
abbrev Str := List Nat

/-- The `Style` struct of `refmt.go`. -/
structure Style where
  IndentWidth : Int
  IndentChar : Nat
  MaxWidth : Int
  SplitChar : Nat
  WordSep : Nat
  BreakLongWords : Bool
deriving DecidableEq, Repr

/-- The constructor `NewStyle()`: 4 space indent, 76 character lines. -/
def NewStyle : Style := ⟨4, 32, 76, 10, 32, false⟩

/-- What a call does: it returns a string, or it panics at run time
(slice bounds out of range, negative repeat count, an expression that does
not parse), or the embedding's iteration budget was too small. -/
inductive Outcome where
  | done (out : Str)
  | panic
  | outOfFuel
deriving DecidableEq, Repr

/-! ## Go library functions used by the package -/

/-- The conversion `string(r)` of a rune: the UTF-8 encoding of the code point
`r`, and the encoding `EF BF BD` of `U+FFFD` for a value that is no code point
(a surrogate half, a value beyond `0x10FFFF`). -/
def runeString (r : Nat) : Str :=
  if r < 0x80 then [r]
  else if r < 0x800 then [0xC0 + r / 64, 0x80 + r % 64]
  else if (0xD800 ≤ r ∧ r ≤ 0xDFFF) ∨ 0x10FFFF < r then [0xEF, 0xBF, 0xBD]
  else if r < 0x10000 then [0xE0 + r / 4096, 0x80 + r / 64 % 64, 0x80 + r % 64]
  else [0xF0 + r / 262144, 0x80 + r / 4096 % 64, 0x80 + r / 64 % 64, 0x80 + r % 64]

/-- The rune that the text `string(r)` holds: `r`, or `U+FFFD` for a value that
is no code point. -/
def textRune (r : Nat) : Nat :=
  if (0xD800 ≤ r ∧ r ≤ 0xDFFF) ∨ 0x10FFFF < r then 0xFFFD else r

/-- Whether the text `s` begins with the text `p` (`strings.HasPrefix`). -/
def startsWith : Str → Str → Bool
  | _, [] => true
  | [], _ :: _ => false
  | x :: xs, y :: ys => decide (x = y) && startsWith xs ys

/-- The function `strings.Index(s, sep)`: the first position at which `sep` begins in
`s`, `none` for the result `-1`. -/
def index : Str → Str → Option Nat
  | [], sep => if startsWith [] sep then some 0 else none
  | x :: xs, sep => if startsWith (x :: xs) sep then some 0 else (index xs sep).map (· + 1)

/-- The function `strings.LastIndex(s, sep)`: the last position at which `sep` begins in
`s`, `none` for the result `-1`. -/
def lastIndex : Str → Str → Option Nat
  | [], sep => if startsWith [] sep then some 0 else none
  | x :: xs, sep =>
    match lastIndex xs sep with
    | some i => some (i + 1)
    | none => if startsWith (x :: xs) sep then some 0 else none

/-- The slice expression `s[a:b]`, which panics (`none`) unless
`a ≤ b ≤ len(s)`. -/
def slice (s : Str) (a b : Nat) : Option Str :=
  if a ≤ b ∧ b ≤ s.length then some ((s.drop a).take (b - a)) else none

/-- The slice expression `s[a:]`, which panics (`none`) unless `a ≤ len(s)`. -/
def sliceFrom (s : Str) (a : Nat) : Option Str :=
  if a ≤ s.length then some (s.drop a) else none

/-- The function `utf8.DecodeRuneInString`: the first rune of `s` and its width in bytes.
A byte that does not start a well-formed encoding is the rune `0xFFFD` of
width 1; the empty string gives width 0. -/
def decodeRune : Str → Nat × Nat
  | [] => (0xFFFD, 0)
  | s0 :: t =>
    if s0 < 0x80 then (s0, 1)
    else if s0 < 0xC2 ∨ 0xF4 < s0 then (0xFFFD, 1)
    else
      -- size and the accepted range of the second byte, from the first byte
      let sz : Nat := if s0 < 0xE0 then 2 else if s0 < 0xF0 then 3 else 4
      let lo : Nat := if s0 = 0xE0 then 0xA0 else if s0 = 0xF0 then 0x90 else 0x80
      let hi : Nat := if s0 = 0xED then 0x9F else if s0 = 0xF4 then 0x8F else 0xBF
      if t.length + 1 < sz then (0xFFFD, 1)
      else
        match t with
        | [] => (0xFFFD, 1)
        | s1 :: t1 =>
          if s1 < lo ∨ hi < s1 then (0xFFFD, 1)
          else if sz ≤ 2 then ((s0 % 32) * 64 + s1 % 64, 2)
          else
            match t1 with
            | [] => (0xFFFD, 1)
            | s2 :: t2 =>
              if s2 < 0x80 ∨ 0xBF < s2 then (0xFFFD, 1)
              else if sz ≤ 3 then ((s0 % 16) * 4096 + (s1 % 64) * 64 + s2 % 64, 3)
              else
                match t2 with
                | [] => (0xFFFD, 1)
                | s3 :: _ =>
                  if s3 < 0x80 ∨ 0xBF < s3 then (0xFFFD, 1)
                  else ((s0 % 8) * 262144 + (s1 % 64) * 4096 + (s2 % 64) * 64 + s3 % 64, 4)

/-- The function `utf8.RuneStart`: whether a byte can be the first byte of an encoded
rune, that is, is no continuation byte `10xxxxxx`. -/
def runeStart (b : Nat) : Bool :=
  decide (b < 0x80 ∨ 0xC0 ≤ b)

/-- The function `utf8.DecodeLastRuneInString`: the last rune of `s` and its width.  From
the last byte the function goes back, at most three bytes, to a byte that
starts a rune, and decodes from there; when that rune does not end with the
text, the last byte is the rune `0xFFFD` of width 1. -/
def decodeLastRune (s : Str) : Nat × Nat :=
  match s.getLast? with
  | none => (0xFFFD, 0)
  | some b =>
    if b < 0x80 then (b, 1)
    else
      let e := s.length
      let start : Nat :=
        if 2 ≤ e ∧ runeStart (s.getD (e - 2) 0) = true then e - 2
        else if 3 ≤ e ∧ runeStart (s.getD (e - 3) 0) = true then e - 3
        else if 4 ≤ e ∧ runeStart (s.getD (e - 4) 0) = true then e - 4
        else e - 4 - 1
      if start + (decodeRune (s.drop start)).2 = e then decodeRune (s.drop start)
      else (0xFFFD, 1)

/-- The runes of a text, on fuel (`for _, r := range s`). -/
def runes : Nat → Str → List Nat
  | 0, _ => []
  | _ + 1, [] => []
  | fuel + 1, b :: t =>
    (decodeRune (b :: t)).1 :: runes fuel ((b :: t).drop (decodeRune (b :: t)).2)

/-- The function `strings.Trim(s, cutset)` for a cutset of ASCII characters, where it works
on bytes: bytes of the cutset are removed from the right end, then from the
left end. -/
def trimASCII (s : Str) (cutset : List Nat) : Str :=
  (s.rdropWhile (fun b => decide (b ∈ cutset))).dropWhile (fun b => decide (b ∈ cutset))

/-- The function `trimLeftUnicode` of package `strings`: runes of the cutset are removed
from the left end. -/
def trimLeftUnicode (cut : List Nat) : Nat → Str → Str
  | 0, s => s
  | _ + 1, [] => []
  | fuel + 1, b :: t =>
    if (decodeRune (b :: t)).1 ∈ cut then
      trimLeftUnicode cut fuel ((b :: t).drop (decodeRune (b :: t)).2)
    else b :: t

/-- The function `trimRightUnicode` of package `strings`: runes of the cutset are removed
from the right end. -/
def trimRightUnicode (cut : List Nat) : Nat → Str → Str
  | 0, s => s
  | _ + 1, [] => []
  | fuel + 1, b :: t =>
    if (decodeLastRune (b :: t)).1 ∈ cut then
      trimRightUnicode cut fuel ((b :: t).take ((b :: t).length - (decodeLastRune (b :: t)).2))
    else b :: t

/-- The function `strings.Trim(s, cutset)`: with a cutset of ASCII characters it works on
bytes, otherwise rune by rune, first from the right end and then from the
left end. -/
def trim (s cutset : Str) : Str :=
  if cutset.all (fun b => decide (b < 0x80)) = true then trimASCII s cutset
  else
    trimLeftUnicode (runes cutset.length cutset) s.length
      (trimRightUnicode (runes cutset.length cutset) s.length s)

/-! ## The collapse expression of `Wrap` -/

/-- Whether a byte is an ASCII letter, digit or underscore: the ASCII characters
that `regexp.Expand` takes into the name of a `$name` variable. -/
def isNameByte (b : Nat) : Bool :=
  (48 ≤ b && b ≤ 57) || (65 ≤ b && b ≤ 90) || (97 ≤ b && b ≤ 122) || b = 95

/-- The text that one match of the collapse expression is replaced with.
The template is `fmt.Sprintf("$1%s$2", string(WordSep))`, expanded as by
`regexp.Expand`: a variable name is the longest run of letters, digits and
underscores after the `$`, so a separator of that kind turns `$1` into the
unknown variable `$1x`, which expands to nothing; `$$` is a literal dollar
sign, after which the `2` is literal too.  `g1` and `g2` are the texts of the
two groups, empty for a group that took no part in the match. -/
def expandTemplate (ws : Nat) (g1 g2 : Str) : Str :=
  if isNameByte ws then g2
  else if ws = 36 then g1 ++ [36, 50]
  else g1 ++ runeString ws ++ g2

/-- What the parser of package `regexp` makes of the collapse expression
`([^c])c([^c])`, with `c` the text `string(SplitChar)`. -/
inductive CollapseRe where
  /-- The character `c` stands for itself. -/
  | literal
  /-- With `.` as `c`, the middle of the expression is any character but a line feed. -/
  | anyChar
  /-- With `^` or `$` as `c`, the middle is an assertion (begin or end of the text)
  that cannot hold between two characters: the expression matches nowhere. -/
  | never
  /-- With `*` as `c`, the first group is repeated any number of times. -/
  | star
  /-- With `+` as `c`, the first group is repeated one or more times. -/
  | plus
  /-- With `?` as `c`, the first group is optional. -/
  | quest
  /-- With `|` as `c`, the expression is the first group or the second group. -/
  | alt
deriving DecidableEq, Repr

/-- The call `regexp.MustCompile(fmt.Sprintf("([^%[1]s])%[1]s([^%[1]s])", string(SplitChar)))`,
which panics (`none`) when the expression does not parse: with `\` the class
`[^\]` has no end, with `(` a group stays open, with `)` and `[` a `)` has no
opening.  The characters `]`, `{`, `}` and `-` stand for themselves where the
expression has them. -/
def collapseNL (sc : Nat) : Option CollapseRe :=
  if sc = 92 ∨ sc = 40 ∨ sc = 41 ∨ sc = 91 then none
  else if sc = 46 then some .anyChar
  else if sc = 94 ∨ sc = 36 then some .never
  else if sc = 42 then some .star
  else if sc = 43 then some .plus
  else if sc = 63 then some .quest
  else if sc = 124 then some .alt
  else some .literal

/-- A match of three runes in a row, the first with `p1`, the second with `p2`
and the third with `p3`, at the start of a text: the bytes of the first rune,
the bytes of the third rune, and the text after the match. -/
def matchThree (p1 p2 p3 : Nat → Bool) (s : Str) : Option (Str × Str × Str) :=
  match s with
  | [] => none
  | _ :: _ =>
    if p1 (decodeRune s).1 = true then
      match s.drop (decodeRune s).2 with
      | [] => none
      | b1 :: t1 =>
        if p2 (decodeRune (b1 :: t1)).1 = true then
          match (b1 :: t1).drop (decodeRune (b1 :: t1)).2 with
          | [] => none
          | b2 :: t2 =>
            if p3 (decodeRune (b2 :: t2)).1 = true then
              some (s.take (decodeRune s).2, (b2 :: t2).take (decodeRune (b2 :: t2)).2,
                (b2 :: t2).drop (decodeRune (b2 :: t2)).2)
            else none
        else none
    else none

/-- The end of the longest run of runes other than `c` at the start of `s`,
with `g1` and `g2` the bytes of the last two runes before `s`: the bytes of the
last but one rune of the run, of its last rune, and the text after the run. -/
def lastOfRun (c : Nat) : Nat → Str → Str → Str → Str × Str × Str
  | 0, g1, g2, s => (g1, g2, s)
  | _ + 1, g1, g2, [] => (g1, g2, [])
  | fuel + 1, g1, g2, b :: t =>
    if (decodeRune (b :: t)).1 = c then (g1, g2, b :: t)
    else
      lastOfRun c fuel g2 ((b :: t).take (decodeRune (b :: t)).2)
        ((b :: t).drop (decodeRune (b :: t)).2)

/-- The match of the collapse expression that starts at the start of a text,
if there is one: the texts of the two groups and the text after the match.
The engine prefers the longer repetition (`*`, `+`, `?` are greedy) and the
first alternative, and a group that is repeated holds the text of its last
repetition. -/
def matchCollapse (re : CollapseRe) (c : Nat) (s : Str) : Option (Str × Str × Str) :=
  match re with
  | .literal =>
    matchThree (fun r => decide (r ≠ c)) (fun r => decide (r = c)) (fun r => decide (r ≠ c)) s
  | .anyChar =>
    matchThree (fun r => decide (r ≠ c)) (fun r => decide (r ≠ 10)) (fun r => decide (r ≠ c)) s
  | .never => none
  | .star =>
    match s with
    | [] => none
    | _ :: _ =>
      if (decodeRune s).1 = c then none
      else some (lastOfRun c s.length [] (s.take (decodeRune s).2) (s.drop (decodeRune s).2))
  | .plus =>
    match s with
    | [] => none
    | _ :: _ =>
      if (decodeRune s).1 = c then none
      else
        match s.drop (decodeRune s).2 with
        | [] => none
        | b1 :: t1 =>
          if (decodeRune (b1 :: t1)).1 = c then none
          else
            some (lastOfRun c s.length (s.take (decodeRune s).2)
              ((b1 :: t1).take (decodeRune (b1 :: t1)).2)
              ((b1 :: t1).drop (decodeRune (b1 :: t1)).2))
  | .quest =>
    match s with
    | [] => none
    | _ :: _ =>
      if (decodeRune s).1 = c then none
      else
        match s.drop (decodeRune s).2 with
        | [] => some ([], s.take (decodeRune s).2, [])
        | b1 :: t1 =>
          if (decodeRune (b1 :: t1)).1 = c then some ([], s.take (decodeRune s).2, b1 :: t1)
          else
            some (s.take (decodeRune s).2, (b1 :: t1).take (decodeRune (b1 :: t1)).2,
              (b1 :: t1).drop (decodeRune (b1 :: t1)).2)
  | .alt =>
    match s with
    | [] => none
    | _ :: _ =>
      if (decodeRune s).1 = c then none
      else some (s.take (decodeRune s).2, [], s.drop (decodeRune s).2)

/-- The call `collapseNL.ReplaceAllString(output, template)`, on fuel.  The engine walks
the text rune by rune; at the leftmost position where the expression matches,
the match is replaced by the expanded template and the walk goes on after
the match, so matches do not overlap.  `c` is the rune of `string(SplitChar)`
and `ws` is `WordSep`. -/
def collapseAux (re : CollapseRe) (c ws : Nat) : Nat → Str → Str
  | 0, s => s
  | _ + 1, [] => []
  | fuel + 1, b :: t =>
    match matchCollapse re c (b :: t) with
    | some (g1, g2, rest) => expandTemplate ws g1 g2 ++ collapseAux re c ws fuel rest
    | none =>
      (b :: t).take (decodeRune (b :: t)).2
        ++ collapseAux re c ws fuel ((b :: t).drop (decodeRune (b :: t)).2)

/-- The collapse pass of `Wrap`; the walk needs at most one step per byte. -/
def collapse (re : CollapseRe) (c ws : Nat) (s : Str) : Str :=
  collapseAux re c ws s.length s

/-! ## `Style.Wrap` -/

/-- The closure `split(loc)`: `output[:loc] + string(SplitChar) + output[loc+1:]`,
which panics (`none`) unless `loc + 1 ≤ len(output)`. -/
def split (sc : Nat) (output : Str) (loc : Nat) : Option Str :=
  if loc + 1 ≤ output.length then
    some (output.take loc ++ runeString sc ++ output.drop (loc + 1))
  else none

/-- What one iteration of the scanning loop does: it goes on with a new
`output`, `seek` and `end`, or the call is over (`break`, or a panic). -/
inductive Step where
  | next (output : Str) (seek end_ : Nat)
  | stop (o : Outcome)
deriving DecidableEq, Repr

/-- The second half of the loop body, from `i := strings.LastIndex(...)` on:
the line that starts at `seek` is ended by a `split`, or the scan is over. -/
def breakLine (sc ws : Nat) (blw : Bool) (w : Nat) (output : Str) (seek end_ : Nat) : Step :=
  match slice output seek end_ with
  | none => .stop .panic
  | some win =>
    match lastIndex win (runeString ws) with
    | some i => -- normal case
      match split sc output (i + seek) with
      | none => .stop .panic
      | some out => .next out (i + seek + 1) (i + seek + 1 + w)
    | none => -- case when word exceeds line width
      if blw then
        match split sc output end_ with
        | none => .stop .panic
        | some out => .next out (end_ + 1) (end_ + 1 + w)
      else
        match sliceFrom output seek with
        | none => .stop .panic
        | some rest =>
          match index rest (runeString ws) with
          | some i =>
            match split sc output (i + seek) with
            | none => .stop .panic
            | some out => .next out (i + seek + 1) (i + seek + 1 + w)
          | none => .stop (.done output)

/-- The body of the scanning loop of `Wrap`, with `w` the non-negative
`MaxWidth`: if there is a `SplitChar` in the range, the range is advanced
beyond its first byte (`seek += e + 1; end = seek + MaxWidth`), then the line
is broken. -/
def wrapBody (sc ws : Nat) (blw : Bool) (w : Nat) (output : Str) (seek end_ : Nat) : Step :=
  match slice output seek end_ with
  | none => .stop .panic
  | some win =>
    match index win (runeString sc) with
    | some e => breakLine sc ws blw w output (seek + (e + 1)) (seek + (e + 1) + w)
    | none => breakLine sc ws blw w output seek end_

/-- The scanning loop of `Wrap`, `for end < len(output) { ... }`.  One unit of
fuel is one iteration. -/
def wrapLoop (sc ws : Nat) (blw : Bool) (w : Nat) : Nat → Str → Nat → Nat → Outcome
  | 0, _, _, _ => .outOfFuel
  | fuel + 1, output, seek, end_ =>
    if end_ < output.length then
      match wrapBody sc ws blw w output seek end_ with
      | .next out seek1 end1 => wrapLoop sc ws blw w fuel out seek1 end1
      | .stop o => o
    else .done output

/-- The first statement of `Wrap`: `strings.Trim(input, string(WordSep)+string(SplitChar))`. -/
def trimmed (s : Style) (input : Str) : Str :=
  trim input (runeString s.WordSep ++ runeString s.SplitChar)

/-- The text `Wrap` scans: the input trimmed of `WordSep` and `SplitChar`,
then the collapse pass; `none` when `regexp.MustCompile` panics. -/
def prepared (s : Style) (input : Str) : Option Str :=
  match collapseNL s.SplitChar with
  | none => none
  | some re => some (collapse re (textRune s.SplitChar) s.WordSep (trimmed s input))

/-- The method `Style.Wrap`.  With a negative `MaxWidth` the loop is entered for every
text (`end < 0 ≤ len(output)`) and its first slice `output[0:end]` panics.
With separators of one byte every iteration that goes on moves `seek`
forward by at least one, keeps the length of the text and needs
`seek + MaxWidth < len(output)`, so the fuel is never used up
(`Wrap_ends`).  With a `SplitChar` of `k` bytes (2 to 4) a `split` lengthens
the text by `k - 1`; from the second iteration on an iteration that goes on
moves `seek` forward by `k` at least unless the loop never ends, which
leaves at most `len(output) + 3` iterations to a loop that ends. -/
def Wrap (s : Style) (input : Str) : Outcome :=
  match prepared s input with
  | none => .panic
  | some output =>
    if s.MaxWidth < 0 then .panic
    else
      wrapLoop s.SplitChar s.WordSep s.BreakLongWords s.MaxWidth.toNat
        (output.length + 4) output 0 s.MaxWidth.toNat

/-! ## `Style.Indent` -/

/-- What the parser of package `regexp` makes of the expression of `Indent`,
which is the text `string(SplitChar)` alone. -/
inductive IndentRe where
  /-- The character stands for itself. -/
  | literal
  /-- The expression `.`: any character but a line feed. -/
  | anyChar
  /-- The expression `^`: the empty text at the begin of the text. -/
  | bol
  /-- The expression `$`: the empty text at the end of the text. -/
  | eol
  /-- The expression `|`: the empty text, at every position. -/
  | empty
deriving DecidableEq, Repr

/-- The call `regexp.MustCompile(fmt.Sprintf("%[1]s", string(SplitChar)))`, which panics
(`none`) when the expression does not parse: `\` (trailing backslash), `(`
and `[` (not closed), `)` (not opened), `*`, `+`, `?` (nothing to repeat). -/
def indentRe (sc : Nat) : Option IndentRe :=
  if sc = 92 ∨ sc = 40 ∨ sc = 41 ∨ sc = 91 ∨ sc = 42 ∨ sc = 43 ∨ sc = 63 then none
  else if sc = 46 then some .anyChar
  else if sc = 94 then some .bol
  else if sc = 36 then some .eol
  else if sc = 124 then some .empty
  else some .literal

/-- The call `indentRe.ReplaceAllString(src, repl)` for an expression that is one
character standing for itself, the rune `c`, with `repl` the replacement text
after expansion.  The engine walks the text rune by rune and replaces every
rune that is `c`. -/
def replaceAux (c : Nat) (repl : Str) : Nat → Str → Str
  | 0, s => s
  | _ + 1, [] => []
  | fuel + 1, b :: t =>
    let s := b :: t
    if (decodeRune s).1 = c then repl ++ replaceAux c repl fuel (s.drop (decodeRune s).2)
    else s.take (decodeRune s).2 ++ replaceAux c repl fuel (s.drop (decodeRune s).2)

/-- The call `indentRe.ReplaceAllString(src, repl)` for the expression `.`: every rune but
the line feed is replaced. -/
def replaceAny (repl : Str) : Nat → Str → Str
  | 0, s => s
  | _ + 1, [] => []
  | fuel + 1, b :: t =>
    let s := b :: t
    if (decodeRune s).1 = 10 then 10 :: replaceAny repl fuel t
    else repl ++ replaceAny repl fuel (s.drop (decodeRune s).2)

/-- The text after the first replacement of `indentRe.ReplaceAllString(src, repl)` for the
expression `|`, which matches the empty text at every position: the
replacement text is put after every rune (and once in front of the text). -/
def insertAll (repl : Str) : Nat → Str → Str
  | 0, s => s
  | _ + 1, [] => []
  | fuel + 1, b :: t =>
    let s := b :: t
    s.take (decodeRune s).2 ++ repl ++ insertAll repl fuel (s.drop (decodeRune s).2)

/-- The replacement text of `Indent`: the template `string(SplitChar) + indentStr`
expanded as by `regexp.Expand`, `n` being `IndentWidth`.  The expression has
no group.  A dollar sign as `IndentChar` makes every `$$` of the template one
literal dollar sign, and so is a last single `$`.  A dollar sign as
`SplitChar` is followed by the indent: letters, digits or underscores make it
a variable, which expands to nothing (`$0` is the match, the empty text);
before any other character it is a literal dollar sign. -/
def indentRepl (sc ic n : Nat) : Str :=
  if sc = 36 then
    if ic = 36 then List.replicate ((n + 2) / 2) 36
    else if n ≠ 0 ∧ isNameByte ic = true then []
    else 36 :: (List.replicate n (runeString ic)).flatten
  else if ic = 36 then runeString sc ++ List.replicate ((n + 1) / 2) 36
  else runeString sc ++ (List.replicate n (runeString ic)).flatten

/-- The call `indentRe.ReplaceAllString(src, template)`, with `repl` the template after
expansion, `c` the rune of `string(SplitChar)` and `n` the length of `src`. -/
def replaceIndent (re : IndentRe) (c : Nat) (repl : Str) (n : Nat) (src : Str) : Str :=
  match re with
  | .literal => replaceAux c repl n src
  | .anyChar => replaceAny repl n src
  | .bol => repl ++ src
  | .eol => src ++ repl
  | .empty => repl ++ insertAll repl n src

/-- The method `Style.Indent`.  `strings.Repeat` panics on a negative count, `regexp.MustCompile`
on an expression that does not parse, and the slice `output[:len(output)-1]`
when `output` is empty. -/
def Indent (s : Style) (input : Str) : Outcome :=
  if s.IndentWidth < 0 then .panic
  else
    let indentStr := (List.replicate s.IndentWidth.toNat (runeString s.IndentChar)).flatten
    -- Insert an indent at the beginning of the input
    let output := indentStr ++ input
    match indentRe s.SplitChar with
    | none => .panic
    | some re =>
      match output.length with
      | 0 => .panic
      | n + 1 =>
        .done (replaceIndent re (textRune s.SplitChar)
            (indentRepl s.SplitChar s.IndentChar s.IndentWidth.toNat) n (output.take n)
          ++ output.drop n)

/-- The bytes of an ASCII string literal. -/
def bytes (t : String) : Str := t.toList.map Char.toNat

/-! ## The functions for separators of one byte

For a `SplitChar` and a `WordSep` below `0x80` the text `string(r)` is the one
byte `r`, a needle is a byte, and a `split` puts one byte in the place of one
byte.  The functions of this section are the functions above in that form;
the proofs are done on them. -/

/-- The function `strings.IndexByte(s, c)`: the first position of the byte `c`, `none` for
the result `-1`. -/
def indexByte : Str → Nat → Option Nat
  | [], _ => none
  | x :: xs, c => if x = c then some 0 else (indexByte xs c).map (· + 1)

/-- The function `strings.LastIndexByte(s, c)`: the last position of the byte `c`, `none`
for the result `-1`. -/
def lastIndexByte : Str → Nat → Option Nat
  | [], _ => none
  | x :: xs, c =>
    match lastIndexByte xs c with
    | some i => some (i + 1)
    | none => if x = c then some 0 else none

/-- The collapse pass for a `SplitChar` of one byte that stands for itself in
the expression `([^c])c([^c])`: at the leftmost position where a rune other
than `c`, then the byte `c`, then a rune other than `c` follow each other, the
three runes are replaced and the walk goes on after them. -/
def collapseByteAux (sc ws : Nat) : Nat → Str → Str
  | 0, s => s
  | _ + 1, [] => []
  | fuel + 1, b :: t =>
    let s := b :: t
    let w1 := (decodeRune s).2
    let r1 := (decodeRune s).1
    let rest := s.drop w1
    match rest with
    | c :: rest2 =>
      if r1 ≠ sc ∧ c = sc ∧ rest2 ≠ [] ∧ (decodeRune rest2).1 ≠ sc then
        let w2 := (decodeRune rest2).2
        expandTemplate ws (s.take w1) (rest2.take w2) ++ collapseByteAux sc ws fuel (rest2.drop w2)
      else s.take w1 ++ collapseByteAux sc ws fuel rest
    | [] => s

/-- The collapse pass for a `SplitChar` of one byte that stands for itself. -/
def collapseByte (sc ws : Nat) (s : Str) : Str :=
  collapseByteAux sc ws s.length s

/-- The closure `split(loc)` for a `SplitChar` of one byte. -/
def splitByte (sc : Nat) (output : Str) (loc : Nat) : Option Str :=
  if loc + 1 ≤ output.length then some (output.take loc ++ [sc] ++ output.drop (loc + 1))
  else none

/-- The second half of the loop body for separators of one byte. -/
def breakLineByte (sc ws : Nat) (blw : Bool) (w : Nat) (output : Str) (seek end_ : Nat) : Step :=
  match slice output seek end_ with
  | none => .stop .panic
  | some win =>
    match lastIndexByte win ws with
    | some i => -- normal case
      match splitByte sc output (i + seek) with
      | none => .stop .panic
      | some out => .next out (i + seek + 1) (i + seek + 1 + w)
    | none => -- case when word exceeds line width
      if blw then
        match splitByte sc output end_ with
        | none => .stop .panic
        | some out => .next out (end_ + 1) (end_ + 1 + w)
      else
        match sliceFrom output seek with
        | none => .stop .panic
        | some rest =>
          match indexByte rest ws with
          | some i =>
            match splitByte sc output (i + seek) with
            | none => .stop .panic
            | some out => .next out (i + seek + 1) (i + seek + 1 + w)
          | none => .stop (.done output)

/-- The body of the scanning loop for separators of one byte. -/
def wrapBodyByte (sc ws : Nat) (blw : Bool) (w : Nat) (output : Str) (seek end_ : Nat) : Step :=
  match slice output seek end_ with
  | none => .stop .panic
  | some win =>
    match indexByte win sc with
    | some e => breakLineByte sc ws blw w output (seek + (e + 1)) (seek + (e + 1) + w)
    | none => breakLineByte sc ws blw w output seek end_

/-- The scanning loop for separators of one byte. -/
def wrapLoopByte (sc ws : Nat) (blw : Bool) (w : Nat) : Nat → Str → Nat → Nat → Outcome
  | 0, _, _, _ => .outOfFuel
  | fuel + 1, output, seek, end_ =>
    if end_ < output.length then
      match wrapBodyByte sc ws blw w output seek end_ with
      | .next out seek1 end1 => wrapLoopByte sc ws blw w fuel out seek1 end1
      | .stop o => o
    else .done output

/-- The text `Wrap` scans, for separators of one byte that stand for
themselves in the collapse expression. -/
def preparedByte (s : Style) (input : Str) : Str :=
  collapseByte s.SplitChar s.WordSep (trimASCII input [s.WordSep, s.SplitChar])

/-- The method `Style.Wrap` for separators of one byte that stand for themselves in the
collapse expression. -/
def WrapByte (s : Style) (input : Str) : Outcome :=
  if s.MaxWidth < 0 then .panic
  else
    wrapLoopByte s.SplitChar s.WordSep s.BreakLongWords s.MaxWidth.toNat
      ((preparedByte s input).length + 1) (preparedByte s input) 0 s.MaxWidth.toNat

/-- The replacement text of `Indent` for a `SplitChar` and an `IndentChar` of one
byte, the `SplitChar` not being the dollar sign. -/
def indentReplByte (sc ic n : Nat) : Str :=
  if ic = 36 then sc :: List.replicate ((n + 1) / 2) 36
  else sc :: List.replicate n ic

/-- The method `Style.Indent` for a `SplitChar` of one byte that stands for itself in the
expression and an `IndentChar` of one byte. -/
def IndentByte (s : Style) (input : Str) : Outcome :=
  if s.IndentWidth < 0 then .panic
  else
    let indentStr := List.replicate s.IndentWidth.toNat s.IndentChar
    let output := indentStr ++ input
    match output.length with
    | 0 => .panic
    | n + 1 =>
      .done (replaceAux s.SplitChar (indentReplByte s.SplitChar s.IndentChar s.IndentWidth.toNat) n
          (output.take n) ++ output.drop n)

/-! ## Lines and words of a text -/

/-- The pieces of a text between its separator bytes, empty pieces included:
the maximal runs of bytes that are not separators. -/
def pieces (P : Nat → Bool) : Str → List Str
  | [] => [[]]
  | x :: xs =>
    if P x then [] :: pieces P xs
    else
      match pieces P xs with
      | [] => [[x]]
      | l :: ls => (x :: l) :: ls

/-- The lines of a text: the maximal runs of bytes other than `SplitChar`. -/
def lines (sc : Nat) (t : Str) : List Str :=
  pieces (fun b => decide (b = sc)) t

/-- The words of a text: the maximal runs of bytes that are neither `WordSep`
nor `SplitChar`. -/
def words (ws sc : Nat) (t : Str) : List Str :=
  pieces (fun b => decide (b = ws) || decide (b = sc)) t

/-- Every run of non-separators in a text has length at most `W`; `bs` tells
for each byte of the text whether it is a separator. -/
def RunLE (W : Nat) (bs : List Bool) : Prop :=
  ∀ u, u <:+: bs → (∀ b ∈ u, b = false) → u.length ≤ W

/-- Whether a byte is one of the two separators of a style. -/
def isSep (ws sc : Nat) (b : Nat) : Bool :=
  decide (b = ws) || decide (b = sc)

/-- How a byte of the result relates to the byte it comes from: it is the
same byte, or a separator has taken the place of a separator. -/
def SameOrSep (ws sc : Nat) (a b : Nat) : Prop :=
  b = a ∨ (isSep ws sc a = true ∧ isSep ws sc b = true)

/-- A word separator of one byte that the replacement template takes as it
is: an ASCII character that is not a letter, digit or underscore (which would
lengthen the name of `$1`) and not the dollar sign. -/
def plainSep (ws : Nat) : Prop :=
  ws < 128 ∧ isNameByte ws = false ∧ ws ≠ 36

instance (ws : Nat) : Decidable (plainSep ws) := by
  unfold plainSep; infer_instance

/-- A `SplitChar` of one byte that stands for itself in a regular expression:
an ASCII character that is none of `\ . + * ? ( ) | [ ] { } ^ $`, the
characters that `regexp.QuoteMeta` escapes. -/
def literalSep (sc : Nat) : Prop :=
  sc < 128 ∧ sc ∉ [92, 46, 43, 42, 63, 40, 41, 124, 91, 93, 123, 125, 94, 36]

instance (sc : Nat) : Decidable (literalSep sc) := by
  unfold literalSep; infer_instance

/-- Every line of a text has length at most `W`. -/
def LinesLE (W sc : Nat) (t : Str) : Prop :=
  ∀ l ∈ lines sc t, l.length ≤ W

/-- A text that is empty or ends in `SplitChar`: what follows it starts a
line. -/
def Closed (sc : Nat) (d : Str) : Prop :=
  d = [] ∨ ∃ d1, d = d1 ++ [sc]

/-- A text that neither starts nor ends with a separator. -/
def NoSepEnds (ws sc : Nat) (t : Str) : Prop :=
  (∀ a, t.head? = some a → isSep ws sc a = false)
    ∧ (∀ a, t.getLast? = some a → isSep ws sc a = false)

/-- The visible text: every `SplitChar` replaced by `WordSep`. -/
def unsplit (ws sc : Nat) (t : Str) : Str :=
  t.map (fun b => if b = sc then ws else b)

/-- A decoded rune `r` (value and width) that is not ASCII: its value is from
`0x80` on and the bytes of `t` it takes after its first byte are from `0x80`
on. -/
def WideRune (t : Str) (r : Nat × Nat) : Prop :=
  128 ≤ r.1 ∧ ∃ p q, t = p ++ q ∧ r.2 = 1 + p.length ∧ ∀ x ∈ p, 128 ≤ x

/-- The texts of a list joined with the byte `sc` between them. -/
def joinWith (sc : Nat) : List Str → Str
  | [] => []
  | [l] => l
  | l :: l1 :: ls => l ++ sc :: joinWith sc (l1 :: ls)

/-- How `Indent` is to change a byte: a `SplitChar` gets the indent after
it. -/
def indentByte (sc : Nat) (ind : Str) (b : Nat) : Str :=
  if b = sc then sc :: ind else [b]

/-! ## `Underline` -/

/-- The index expression `s[i]`, which panics (`none`) unless `i < len(s)`. -/
def byteAt (s : Str) (i : Nat) : Option Nat :=
  s[i]?

/-- The conversion `string(b)` of a byte `b`: the UTF-8 encoding of the rune
with the value of the byte, one byte below `0x80` and two bytes from `0x80`
on. -/
def byteString (b : Nat) : Str :=
  if b < 128 then [b] else [192 + b / 64, 128 + b % 64]

/-- The function `Underline`.  The library call `fmt.Sprintf(format, v...)` is
the parameter `Sprintf`; the second call, `fmt.Sprintf("%s\n%s", a, b)` with
two strings, is `a`, a line feed and `b`; `strings.Repeat` is applied to a
count that is a length. -/
def Underline {α : Type} (Sprintf : Str → List α → Str) (ulinechar format : Str)
    (v : List α) : Outcome :=
  let result := Sprintf format v
  match byteAt ulinechar 0 with
  | none => .panic
  | some c => .done (result ++ [10] ++ (List.replicate result.length (byteString c)).flatten)

/-- The function `utf8.RuneCountInString`, on fuel: the number of runes of a
text, a byte that starts no well-formed encoding counting as one rune. -/
def runeCountAux : Nat → Str → Nat
  | 0, _ => 0
  | _ + 1, [] => 0
  | fuel + 1, b :: t => 1 + runeCountAux fuel ((b :: t).drop (decodeRune (b :: t)).2)

/-- The number of characters (code points) of a text. -/
def runeCount (s : Str) : Nat :=
  runeCountAux s.length s

/-- What the collapse pass may do to a text, byte by byte, `prev` being the
byte in front of the text: a byte is kept, or a `SplitChar` between two bytes
that are not `SplitChar` becomes a `WordSep`, the byte after it being kept. -/
inductive Collapsed (sc ws : Nat) : Option Nat → Str → Str → Prop where
  | nil (prev : Option Nat) : Collapsed sc ws prev [] []
  | keep (prev : Option Nat) (a : Nat) (s r : Str) :
      Collapsed sc ws (some a) s r → Collapsed sc ws prev (a :: s) (a :: r)
  | join (x b : Nat) (s r : Str) : x ≠ sc → b ≠ sc →
      Collapsed sc ws (some b) s r → Collapsed sc ws (some x) (sc :: b :: s) (ws :: b :: r)

/-- The left neighbour of the position `p` of a text with the byte `prev` in
front of it. -/
def leftOf (prev : Option Nat) (s : Str) : Nat → Option Nat
  | 0 => prev
  | p + 1 => s[p]?

/-- The text `l`, whose first byte has the index `k` in a word, with
`SplitChar` in the place of every byte whose index `i` in the word has
`(i + 1) mod (m + 1) = 0`. -/
def breakEvery (sc m : Nat) : Nat → Str → Str
  | _, [] => []
  | k, b :: l => (if (k + 1) % (m + 1) = 0 then sc else b) :: breakEvery sc m (k + 1) l

/-! ## Facts about the library functions

The lemmas up to `wrapLoop_word` are about the functions for separators of
one byte. -/

theorem index_some {s : Str} {c e : Nat} (h : indexByte s c = some e) :
    ∃ a b, s = a ++ c :: b ∧ a.length = e ∧ c ∉ a := by
  induction s generalizing e with
  | nil => simp [indexByte] at h
  | cons x xs ih =>
    by_cases hx : x = c
    · simp [indexByte, hx] at h
      exact ⟨[], xs, by simp [hx], by simp [h], by simp⟩
    · simp only [indexByte, hx, if_false, Option.map_eq_some'] at h
      obtain ⟨e', he', rfl⟩ := h
      obtain ⟨a, b, hs, hl, hn⟩ := ih he'
      refine ⟨x :: a, b, by simp [hs], by simp [hl], ?_⟩
      simp only [List.mem_cons, not_or]
      exact ⟨fun hc => hx hc.symm, hn⟩

theorem index_none {s : Str} {c : Nat} (h : indexByte s c = none) : c ∉ s := by
  induction s with
  | nil => simp
  | cons x xs ih =>
    by_cases hx : x = c
    · simp [indexByte, hx] at h
    · simp only [indexByte, hx, if_false, Option.map_eq_none'] at h
      simp only [List.mem_cons, not_or]
      exact ⟨fun hc => hx hc.symm, ih h⟩

theorem lastIndex_none {s : Str} {c : Nat} (h : lastIndexByte s c = none) : c ∉ s := by
  induction s with
  | nil => simp
  | cons x xs ih =>
    simp only [lastIndexByte] at h
    cases hl : lastIndexByte xs c with
    | some i => simp [hl] at h
    | none =>
      simp only [hl] at h
      by_cases hx : x = c
      · simp [hx] at h
      · simp only [List.mem_cons, not_or]
        exact ⟨fun hc => hx hc.symm, ih hl⟩

theorem lastIndex_some {s : Str} {c i : Nat} (h : lastIndexByte s c = some i) :
    ∃ a b, s = a ++ c :: b ∧ a.length = i ∧ c ∉ b := by
  induction s generalizing i with
  | nil => simp [lastIndexByte] at h
  | cons x xs ih =>
    simp only [lastIndexByte] at h
    cases hl : lastIndexByte xs c with
    | some j =>
      simp only [hl, Option.some.injEq] at h
      obtain ⟨a, b, hs, hlen, hn⟩ := ih hl
      exact ⟨x :: a, b, by simp [hs], by simp [hlen, ← h], hn⟩
    | none =>
      simp only [hl] at h
      by_cases hx : x = c
      · simp only [hx, if_true, Option.some.injEq] at h
        exact ⟨[], xs, by simp [hx], by simp [← h], lastIndex_none hl⟩
      · simp [hx] at h

theorem slice_some {s win : Str} {a b : Nat} (h : slice s a b = some win) :
    a ≤ b ∧ b ≤ s.length ∧ win = (s.drop a).take (b - a) := by
  unfold slice at h
  split at h
  · rename_i hc
    simp only [Option.some.injEq] at h
    exact ⟨hc.1, hc.2, h.symm⟩
  · simp at h

theorem split_some {sc : Nat} {s out : Str} {loc : Nat} (h : splitByte sc s loc = some out) :
    ∃ x, s = s.take loc ++ x :: s.drop (loc + 1) ∧ out = s.take loc ++ sc :: s.drop (loc + 1)
      ∧ loc < s.length := by
  unfold splitByte at h
  split at h
  · rename_i hc
    simp only [Option.some.injEq] at h
    have hlt : loc < s.length := by omega
    refine ⟨s[loc], ?_, by simp [← h], hlt⟩
    conv_lhs => rw [← List.take_append_drop loc s]
    congr 1
    exact List.drop_eq_getElem_cons hlt
  · simp at h

theorem split_eq (sc : Nat) (l : Str) (x : Nat) (q : Str) (loc : Nat) (hloc : loc = l.length) :
    splitByte sc (l ++ x :: q) loc = some (l ++ sc :: q) := by
  subst hloc
  unfold splitByte
  rw [if_pos (by simp)]
  simp [List.take_append_eq_append_take, List.drop_append_eq_append_drop]

theorem slice_append (d rr : Str) (w : Nat) {a b : Nat} (ha : a = d.length) (hb : b = d.length + w) :
    slice (d ++ rr) a b = if w ≤ rr.length then some (rr.take w) else none := by
  subst ha hb
  unfold slice
  by_cases h : w ≤ rr.length
  · rw [if_pos ⟨by omega, by simp; omega⟩, if_pos h]
    simp
  · rw [if_neg (by simp; omega), if_neg h]

/-- An iteration of the second half that goes on has replaced one byte by
`SplitChar`: a `WordSep` inside the window, or the byte at `end`
(`BreakLongWords`), or the first `WordSep` of the rest. -/
theorem breakLine_next {sc ws : Nat} {blw : Bool} {w : Nat} {d rr out : Str} {sk sk1 en1 : Nat}
    (hsk : sk = d.length)
    (h : breakLineByte sc ws blw w (d ++ rr) sk (sk + w) = .next out sk1 en1) :
    ∃ p x q, rr = p ++ x :: q ∧ out = d ++ p ++ sc :: q ∧ sk1 = d.length + p.length + 1
      ∧ en1 = sk1 + w ∧ w ≤ rr.length
      ∧ ((x = ws ∧ p.length < w ∧ ws ∉ (rr.take w).drop (p.length + 1))
        ∨ (blw = true ∧ p.length = w ∧ ws ∉ p)
        ∨ (blw = false ∧ x = ws ∧ w ≤ p.length ∧ ws ∉ p)) := by
  subst hsk
  unfold breakLineByte at h
  rw [slice_append d rr w rfl rfl] at h
  by_cases hw : w ≤ rr.length
  swap
  · simp [hw] at h
  simp only [hw, if_true] at h
  cases hli : lastIndexByte (rr.take w) ws with
  | some i =>
    obtain ⟨p, b, hwin, hpl, hnb⟩ := lastIndex_some hli
    have hrr : rr = p ++ ws :: (b ++ rr.drop w) := by
      conv_lhs => rw [← List.take_append_drop w rr, hwin]
      simp
    generalize b ++ rr.drop w = q at hrr
    have hlen : (rr.take w).length = w := by simp [hw]
    have hiw : i < w := by
      rw [hwin] at hlen; simp at hlen; omega
    have hsp : splitByte sc (d ++ rr) (i + d.length) = some (d ++ p ++ sc :: q) := by
      have := split_eq sc (d ++ p) ws q (i + d.length) (by simp; omega)
      rw [← this]; congr 1; rw [hrr]; simp
    simp only [hli, hsp, Step.next.injEq] at h
    obtain ⟨h1, h2, h3⟩ := h
    refine ⟨p, ws, q, hrr, h1.symm, by omega, by omega, hw, Or.inl ⟨rfl, by omega, ?_⟩⟩
    rw [hwin]
    have hd : List.drop (p.length + 1) (p ++ ws :: b) = b := by
      rw [List.drop_append]; simp
    rw [hd]; exact hnb
  | none =>
    have hnw := lastIndex_none hli
    simp only [hli] at h
    cases hb : blw with
    | true =>
      simp only [hb, if_true] at h
      cases hsp : splitByte sc (d ++ rr) (d.length + w) with
      | none => simp [hsp] at h
      | some o =>
        obtain ⟨x, hx, ho, hlt⟩ := split_some hsp
        simp only [hsp, Step.next.injEq] at h
        obtain ⟨h1, h2, h3⟩ := h
        have hlt2 : w < rr.length := by simp at hlt; omega
        have hrr : rr = rr.take w ++ rr[w] :: rr.drop (w + 1) := by
          conv_lhs => rw [← List.take_append_drop w rr]
          congr 1
          exact List.drop_eq_getElem_cons hlt2
        have hsp2 := split_eq sc (d ++ rr.take w) rr[w] (rr.drop (w + 1)) (d.length + w)
          (by simp; omega)
        have hcat : d ++ rr.take w ++ rr[w] :: rr.drop (w + 1) = d ++ rr := by
          rw [List.append_assoc, ← hrr]
        rw [hcat, hsp] at hsp2
        simp only [Option.some.injEq] at hsp2
        refine ⟨rr.take w, rr[w], rr.drop (w + 1), hrr, ?_, ?_, by omega, hw,
          Or.inr (Or.inl ⟨rfl, by simp; omega, hnw⟩)⟩
        · rw [← h1, hsp2]
        · simp; omega
    | false =>
      simp only [hb, Bool.false_eq_true, if_false] at h
      have hsf : sliceFrom (d ++ rr) d.length = some rr := by simp [sliceFrom]
      simp only [hsf] at h
      cases hix : indexByte rr ws with
      | none => simp [hix] at h
      | some i =>
        obtain ⟨p, q, hrr, hpl, hnp⟩ := index_some hix
        have hsp : splitByte sc (d ++ rr) (i + d.length) = some (d ++ p ++ sc :: q) := by
          have := split_eq sc (d ++ p) ws q (i + d.length) (by simp; omega)
          rw [← this]; congr 1; rw [hrr]; simp
        simp only [hix, hsp, Step.next.injEq] at h
        obtain ⟨h1, h2, h3⟩ := h
        have hwp : w ≤ p.length := by
          by_contra hlt
          apply hnw
          rw [hrr, List.take_append_eq_append_take]
          have : w - p.length = (w - p.length - 1) + 1 := by omega
          rw [this]
          simp
        exact ⟨p, ws, q, hrr, h1.symm, by omega, by omega, hw,
          Or.inr (Or.inr ⟨rfl, rfl, hwp, hnp⟩)⟩

/-- When the second half ends the scan with a result, the text is unchanged
and no `WordSep` is left from `seek` on. -/
theorem breakLine_stop {sc ws : Nat} {blw : Bool} {w : Nat} {d rr r : Str} {sk : Nat}
    (hsk : sk = d.length)
    (h : breakLineByte sc ws blw w (d ++ rr) sk (sk + w) = .stop (.done r)) :
    r = d ++ rr ∧ blw = false ∧ ws ∉ rr ∧ w ≤ rr.length := by
  subst hsk
  unfold breakLineByte at h
  rw [slice_append d rr w rfl rfl] at h
  by_cases hw : w ≤ rr.length
  swap
  · simp [hw] at h
  simp only [hw, if_true] at h
  cases hli : lastIndexByte (rr.take w) ws with
  | some i =>
    simp only [hli] at h
    split at h <;> simp at h
  | none =>
    simp only [hli] at h
    cases hb : blw with
    | true =>
      simp only [hb, if_true] at h
      split at h <;> simp at h
    | false =>
      simp only [hb, Bool.false_eq_true, if_false] at h
      have hsf : sliceFrom (d ++ rr) d.length = some rr := by simp [sliceFrom]
      simp only [hsf] at h
      cases hix : indexByte rr ws with
      | none =>
        simp only [hix, Step.stop.injEq, Outcome.done.injEq] at h
        exact ⟨h.symm, rfl, index_none hix, hw⟩
      | some i =>
        simp only [hix] at h
        split at h <;> simp at h

/-- The first half of the loop body: the part `a` of the text that the range
is advanced over is empty, or it is a line shorter than the width with the
`SplitChar` that ends it. -/
theorem wrapBody_eq (sc ws : Nat) (blw : Bool) {w : Nat} {d r : Str} {sk : Nat}
    (hsk : sk = d.length) (hw : w ≤ r.length) :
    ∃ a rr, r = a ++ rr
      ∧ ((a = [] ∧ sc ∉ r.take w) ∨ ∃ a0, a = a0 ++ [sc] ∧ a0.length < w ∧ sc ∉ a0)
      ∧ wrapBodyByte sc ws blw w (d ++ r) sk (sk + w)
        = breakLineByte sc ws blw w (d ++ a ++ rr) (d ++ a).length ((d ++ a).length + w) := by
  subst hsk
  unfold wrapBodyByte
  rw [slice_append d r w rfl rfl, if_pos hw]
  cases hix : indexByte (r.take w) sc with
  | none =>
    exact ⟨[], r, rfl, Or.inl ⟨rfl, index_none hix⟩, by simp [hix]⟩
  | some e =>
    obtain ⟨a0, b, hwin, hal, hna⟩ := index_some hix
    have hr : r = a0 ++ sc :: (b ++ r.drop w) := by
      conv_lhs => rw [← List.take_append_drop w r, hwin]
      simp
    generalize b ++ r.drop w = rr at hr
    have hlen : (r.take w).length = w := by simp [hw]
    have hew : e < w := by
      rw [hwin] at hlen; simp at hlen; omega
    refine ⟨a0 ++ [sc], rr, by rw [hr]; simp, Or.inr ⟨a0, rfl, by omega, hna⟩, ?_⟩
    have h1 : d ++ r = d ++ (a0 ++ [sc]) ++ rr := by rw [hr]; simp
    have h2 : (d ++ (a0 ++ [sc])).length = d.length + (e + 1) := by simp [hal]
    simp only [hix]
    rw [h2, ← h1]

theorem wrapBody_next {sc ws : Nat} {blw : Bool} {w : Nat} {d r out : Str} {sk sk1 en1 : Nat}
    (hsk : sk = d.length) (hw : w ≤ r.length)
    (h : wrapBodyByte sc ws blw w (d ++ r) sk (sk + w) = .next out sk1 en1) :
    ∃ a p x q, r = a ++ p ++ x :: q ∧ out = d ++ a ++ p ++ sc :: q
      ∧ sk1 = (d ++ a ++ p ++ [sc]).length ∧ en1 = sk1 + w
      ∧ ((a = [] ∧ sc ∉ r.take w) ∨ ∃ a0, a = a0 ++ [sc] ∧ a0.length < w ∧ sc ∉ a0)
      ∧ w ≤ (p ++ x :: q).length
      ∧ ((x = ws ∧ p.length < w ∧ ws ∉ ((p ++ x :: q).take w).drop (p.length + 1))
        ∨ (blw = true ∧ p.length = w ∧ ws ∉ p)
        ∨ (blw = false ∧ x = ws ∧ w ≤ p.length ∧ ws ∉ p)) := by
  obtain ⟨a, rr, hr, ha, heq⟩ := wrapBody_eq sc ws blw (d := d) hsk hw
  rw [heq] at h
  obtain ⟨p, x, q, hrr, hout, hsk1, hen1, hwr, hcase⟩ := breakLine_next rfl h
  refine ⟨a, p, x, q, by rw [hr, hrr]; simp, hout, ?_, hen1, ha, by rw [← hrr]; exact hwr, ?_⟩
  · rw [hsk1]; simp only [List.length_append, List.length_singleton]
  · rw [← hrr]; exact hcase

theorem wrapBody_stop {sc ws : Nat} {blw : Bool} {w : Nat} {d r res : Str} {sk : Nat}
    (hsk : sk = d.length) (hw : w ≤ r.length)
    (h : wrapBodyByte sc ws blw w (d ++ r) sk (sk + w) = .stop (.done res)) :
    res = d ++ r ∧ blw = false ∧ ∃ a rr, r = a ++ rr
      ∧ ((a = [] ∧ sc ∉ r.take w) ∨ ∃ a0, a = a0 ++ [sc] ∧ a0.length < w ∧ sc ∉ a0)
      ∧ ws ∉ rr ∧ w ≤ rr.length := by
  obtain ⟨a, rr, hr, ha, heq⟩ := wrapBody_eq sc ws blw (d := d) hsk hw
  rw [heq] at h
  obtain ⟨h1, h2, h3, h4⟩ := breakLine_stop rfl h
  exact ⟨by rw [h1, hr]; simp, h2, a, rr, hr, ha, h3, h4⟩

/-- Induction over the scanning loop: a property `I` of the text and of
`seek` that every iteration keeps, and that gives `Q` when the loop is left,
gives `Q` of the result. -/
theorem wrapLoop_induct (sc ws : Nat) (blw : Bool) (w : Nat) (I : Str → Str → Prop) (Q : Str → Prop)
    (hexit : ∀ d r, I d r → r.length ≤ w → Q (d ++ r))
    (hbreak : ∀ d a rr, I d (a ++ rr) → w ≤ rr.length → blw = false → ws ∉ rr →
      ((a = [] ∧ sc ∉ (a ++ rr).take w) ∨ ∃ a0, a = a0 ++ [sc] ∧ a0.length < w ∧ sc ∉ a0) →
      Q (d ++ a ++ rr))
    (hstep : ∀ d a p x q, I d (a ++ p ++ x :: q) →
      ((a = [] ∧ sc ∉ (a ++ p ++ x :: q).take w) ∨ ∃ a0, a = a0 ++ [sc] ∧ a0.length < w ∧ sc ∉ a0) →
      w ≤ (p ++ x :: q).length →
      ((x = ws ∧ p.length < w ∧ ws ∉ ((p ++ x :: q).take w).drop (p.length + 1))
        ∨ (blw = true ∧ p.length = w ∧ ws ∉ p)
        ∨ (blw = false ∧ x = ws ∧ w ≤ p.length ∧ ws ∉ p)) →
      I (d ++ a ++ p ++ [sc]) q) :
    ∀ (fuel : Nat) (d r : Str) (res : Str), I d r →
      wrapLoopByte sc ws blw w fuel (d ++ r) d.length (d.length + w) = .done res → Q res := by
  intro fuel
  induction fuel with
  | zero => intro d r res _ h; simp [wrapLoopByte] at h
  | succ n ih =>
    intro d r res hI h
    unfold wrapLoopByte at h
    by_cases hlt : d.length + w < (d ++ r).length
    · have hw : w ≤ r.length := by simp at hlt; omega
      rw [if_pos hlt] at h
      cases hb : wrapBodyByte sc ws blw w (d ++ r) d.length (d.length + w) with
      | next out sk1 en1 =>
        obtain ⟨a, p, x, q, hr, hout, hsk1, hen1, ha, hwr, hcase⟩ := wrapBody_next rfl hw hb
        simp only [hb] at h
        subst hr
        have hI2 := hstep d a p x q hI ha hwr hcase
        have hout2 : out = (d ++ a ++ p ++ [sc]) ++ q := by rw [hout]; simp
        rw [hout2, hen1, hsk1] at h
        exact ih _ _ _ hI2 h
      | stop o =>
        simp only [hb] at h
        subst h
        obtain ⟨h1, h2, a, rr, hr, ha, h3, h4⟩ := wrapBody_stop rfl hw hb
        subst hr
        rw [h1, ← List.append_assoc]
        exact hbreak d a rr hI h4 h2 h3 ha
    · rw [if_neg hlt] at h
      simp only [Outcome.done.injEq] at h
      subst h
      exact hexit d r hI (by simp at hlt; omega)

/-! ## Facts about lines and words -/

theorem pieces_ne_nil (P : Nat → Bool) (t : Str) : pieces P t ≠ [] := by
  cases t with
  | nil => simp [pieces]
  | cons x xs =>
    unfold pieces
    split
    · simp
    · split <;> simp

theorem pieces_append_sep (P : Nat → Bool) (a : Str) {x : Nat} (b : Str) (hx : P x = true) :
    pieces P (a ++ x :: b) = pieces P a ++ pieces P b := by
  induction a with
  | nil => simp [pieces, hx]
  | cons y a ih =>
    by_cases hy : P y = true
    · simp [pieces, hy, ih]
    · have e1 : pieces P (y :: a ++ x :: b)
          = match pieces P (a ++ x :: b) with
            | [] => [[y]]
            | l :: ls => (y :: l) :: ls := by
        simp only [List.cons_append]
        rw [pieces]; simp [hy]
      have e2 : pieces P (y :: a)
          = match pieces P a with
            | [] => [[y]]
            | l :: ls => (y :: l) :: ls := by
        rw [pieces]; simp [hy]
      rw [e1, e2, ih]
      cases hp : pieces P a with
      | nil => exact absurd hp (pieces_ne_nil P a)
      | cons l ls => simp

theorem pieces_snoc_sep (P : Nat → Bool) (a : Str) {x : Nat} (hx : P x = true) :
    pieces P (a ++ [x]) = pieces P a ++ [[]] := by
  rw [pieces_append_sep P a [] hx]; simp [pieces]

theorem pieces_head_initial {P : Nat → Bool} {t l0 : Str} {ls : List Str}
    (hp : pieces P t = l0 :: ls) : l0 <+: t := by
  induction t generalizing l0 ls with
  | nil => simp only [pieces, List.cons.injEq] at hp; simp [← hp.1]
  | cons z t iht =>
    by_cases hz : P z = true
    · simp only [pieces, hz, if_true, List.cons.injEq] at hp
      simp [← hp.1]
    · simp only [pieces, hz, if_false, Bool.false_eq_true] at hp
      cases hq : pieces P t with
      | nil => exact absurd hq (pieces_ne_nil P t)
      | cons l1 ls1 =>
        simp only [hq, List.cons.injEq] at hp
        rw [← hp.1]
        exact (List.prefix_cons_inj z).2 (iht hq)

theorem piece_part {P : Nat → Bool} {t l : Str} (h : l ∈ pieces P t) :
    l <:+: t ∧ ∀ x ∈ l, P x = false := by
  induction t generalizing l with
  | nil =>
    simp only [pieces, List.mem_singleton] at h
    subst h; simp
  | cons y t ih =>
    by_cases hy : P y = true
    · simp only [pieces, hy, if_true, List.mem_cons] at h
      rcases h with h | h
      · subst h; simp
      · obtain ⟨h1, h2⟩ := ih h
        exact ⟨h1.trans (List.suffix_cons y t).isInfix, h2⟩
    · simp only [pieces, hy, if_false, Bool.false_eq_true] at h
      cases hp : pieces P t with
      | nil => exact absurd hp (pieces_ne_nil P t)
      | cons l0 ls =>
        simp only [hp, List.mem_cons] at h
        have h0 := ih (l := l0) (by simp [hp])
        rcases h with h | h
        · subst h
          refine ⟨?_, ?_⟩
          · have hpre : l0 <+: t := pieces_head_initial hp
            exact ((List.prefix_cons_inj y).2 hpre).isInfix
          · intro x hx
            simp only [List.mem_cons] at hx
            rcases hx with hx | hx
            · subst hx; simpa using hy
            · exact h0.2 x hx
        · obtain ⟨h1, h2⟩ := ih (l := l) (by simp [hp, h])
          exact ⟨h1.trans (List.suffix_cons y t).isInfix, h2⟩

theorem RunLE.part {W : Nat} {bs bs1 : List Bool} (h : RunLE W bs) (hi : bs1 <:+: bs) :
    RunLE W bs1 :=
  fun u hu hf => h u (hu.trans hi) hf

theorem runLE_of_length {W : Nat} {bs : List Bool} (h : bs.length ≤ W) : RunLE W bs :=
  fun _ hu _ => le_trans hu.length_le h

theorem allLE_of_runLE {W : Nat} {P : Nat → Bool} {t : Str} (h : RunLE W (t.map P)) :
    ∀ l ∈ pieces P t, l.length ≤ W := by
  intro l hl
  obtain ⟨h1, h2⟩ := piece_part hl
  have := h (l.map P) (List.IsInfix.map P h1) (by
    intro b hb
    simp only [List.mem_map] at hb
    obtain ⟨x, hx, rfl⟩ := hb
    exact h2 x hx)
  simpa using this

theorem pieces_head_max {P : Nat → Bool} {t l0 : Str} {ls : List Str}
    (hp : pieces P t = l0 :: ls) {u : List Bool} (hu : u <+: t.map P)
    (hf : ∀ b ∈ u, b = false) : u.length ≤ l0.length := by
  induction t generalizing l0 ls u with
  | nil =>
    simp only [List.map_nil, List.prefix_nil] at hu
    simp [hu]
  | cons z t iht =>
    cases u with
    | nil => simp
    | cons b u =>
      simp only [List.map_cons] at hu
      obtain ⟨hb, hu1⟩ := List.cons_prefix_cons.1 hu
      have hz : P z = false := by
        rw [← hb]; exact hf b (by simp)
      simp only [pieces, hz, if_false, Bool.false_eq_true] at hp
      cases hq : pieces P t with
      | nil => exact absurd hq (pieces_ne_nil P t)
      | cons l1 ls1 =>
        simp only [hq, List.cons.injEq] at hp
        rw [← hp.1]
        have := iht hq hu1 (fun b hb => hf b (by simp [hb]))
        simp only [List.length_cons]
        omega

theorem runLE_of_allLE {W : Nat} {P : Nat → Bool} {t : Str}
    (h : ∀ l ∈ pieces P t, l.length ≤ W) : RunLE W (t.map P) := by
  induction t with
  | nil =>
    intro u hu _
    simp only [List.map_nil, List.infix_nil] at hu
    simp [hu]
  | cons y t ih =>
    have ht : ∀ l ∈ pieces P t, l.length ≤ W := by
      intro l hl
      by_cases hy : P y = true
      · exact h l (by simp [pieces, hy, hl])
      · cases hq : pieces P t with
        | nil => exact absurd hq (pieces_ne_nil P t)
        | cons l1 ls1 =>
          rw [hq] at hl
          simp only [List.mem_cons] at hl
          rcases hl with hl | hl
          · have := h (y :: l1) (by simp [pieces, hy, hq])
            rw [hl]; simp only [List.length_cons] at this; omega
          · exact h l (by simp [pieces, hy, hq, hl])
    intro u hu hf
    simp only [List.map_cons] at hu
    rcases List.infix_cons_iff.1 hu with hpre | hin
    · cases u with
      | nil => simp
      | cons b u =>
        obtain ⟨hb, hu1⟩ := List.cons_prefix_cons.1 hpre
        have hy : P y = false := by
          rw [← hb]; exact hf b (by simp)
        cases hq : pieces P t with
        | nil => exact absurd hq (pieces_ne_nil P t)
        | cons l1 ls1 =>
          have h1 := h (y :: l1) (by simp [pieces, hy, hq])
          have h2 := pieces_head_max hq hu1 (fun b hb => hf b (by simp [hb]))
          simp only [List.length_cons] at h1 ⊢
          omega
    · exact ih ht u hin hf

/-! ## The collapse pass -/

theorem sameOrSep_refl (ws sc : Nat) (l : Str) : List.Forall₂ (SameOrSep ws sc) l l :=
  List.forall₂_same.2 (fun _ _ => Or.inl rfl)

theorem expandTemplate_plain {ws : Nat} (h : plainSep ws) (g1 g2 : Str) :
    expandTemplate ws g1 g2 = g1 ++ ws :: g2 := by
  unfold expandTemplate runeString
  rw [if_neg (by simp [h.2.1]), if_neg h.2.2, if_pos h.1]
  simp

/-- With a plain word separator the collapse pass only puts `WordSep` in the
place of some `SplitChar` bytes. -/
theorem collapseAux_rel {sc ws : Nat} (h : plainSep ws) (fuel : Nat) (s : Str) :
    List.Forall₂ (fun a b => b = a ∨ (a = sc ∧ b = ws)) s (collapseByteAux sc ws fuel s) := by
  have hrefl : ∀ l : Str, List.Forall₂ (fun a b => b = a ∨ (a = sc ∧ b = ws)) l l :=
    fun l => List.forall₂_same.2 (fun _ _ => Or.inl rfl)
  induction fuel generalizing s with
  | zero => simp [collapseByteAux]
  | succ n ih =>
    cases s with
    | nil => simp [collapseByteAux]
    | cons b t =>
      unfold collapseByteAux
      simp only
      generalize (decodeRune (b :: t)).2 = w1
      generalize (decodeRune (b :: t)).1 = r1
      generalize hs : b :: t = s
      cases hrest : s.drop w1 with
      | nil => simp
      | cons c rest2 =>
        simp only
        have hsplit : s = s.take w1 ++ c :: rest2 := by
          rw [← hrest, List.take_append_drop]
        have happ : ∀ (l1 l2 l3 : Str), List.Forall₂ (fun a b => b = a ∨ (a = sc ∧ b = ws)) l2 l3 →
            List.Forall₂ (fun a b => b = a ∨ (a = sc ∧ b = ws)) (l1 ++ l2) (l1 ++ l3) :=
          fun l1 l2 l3 h23 => List.rel_append (hrefl l1) h23
        split
        · rename_i hc
          rw [expandTemplate_plain h]
          generalize (decodeRune rest2).2 = w2
          have h2 : List.Forall₂ (fun a b => b = a ∨ (a = sc ∧ b = ws)) rest2
              (rest2.take w2 ++ collapseByteAux sc ws n (rest2.drop w2)) := by
            have := happ (rest2.take w2) _ _ (ih (rest2.drop w2))
            rwa [List.take_append_drop] at this
          have h3 := happ (s.take w1) _ _ (List.Forall₂.cons (Or.inr ⟨hc.2.1, rfl⟩) h2)
          rw [← hsplit] at h3
          simpa using h3
        · have h3 := happ (s.take w1) _ _ (ih (c :: rest2))
          rwa [← hsplit] at h3

theorem collapse_rel (sc : Nat) {ws : Nat} (h : plainSep ws) (s : Str) :
    List.Forall₂ (fun a b => b = a ∨ (a = sc ∧ b = ws)) s (collapseByte sc ws s) :=
  collapseAux_rel h _ s

theorem collapse_sameOrSep {sc ws : Nat} (h : plainSep ws) (s : Str) :
    List.Forall₂ (SameOrSep ws sc) s (collapseByte sc ws s) := by
  refine (collapse_rel sc h s).imp ?_
  intro a b hab
  rcases hab with hab | ⟨h1, h2⟩
  · exact Or.inl hab
  · exact Or.inr ⟨by simp [isSep, h1], by simp [isSep, h2]⟩

/-! ## The width of the lines -/

theorem linesLE_of_length {W sc : Nat} {t : Str} (h : t.length ≤ W) : LinesLE W sc t :=
  allLE_of_runLE (runLE_of_length (by simpa using h))

theorem linesLE_snoc {W sc : Nat} {t : Str} (h : LinesLE W sc t) : LinesLE W sc (t ++ [sc]) := by
  intro l hl
  unfold lines at hl
  rw [pieces_snoc_sep _ _ (by simp)] at hl
  simp only [List.mem_append, List.mem_singleton] at hl
  rcases hl with hl | hl
  · exact h l hl
  · simp [hl]

theorem linesLE_append {W sc : Nat} {d r : Str} (hc : Closed sc d) (hd : LinesLE W sc d)
    (hr : LinesLE W sc r) : LinesLE W sc (d ++ r) := by
  rcases hc with hc | ⟨d1, hc⟩
  · subst hc; simpa using hr
  · subst hc
    intro l hl
    unfold lines at hl
    rw [List.append_assoc, List.singleton_append, pieces_append_sep _ _ _ (by simp)] at hl
    simp only [List.mem_append] at hl
    rcases hl with hl | hl
    · apply hd l
      unfold lines
      rw [pieces_snoc_sep _ _ (by simp)]
      simp [hl]
    · exact hr l hl

theorem closed_append {sc : Nat} {d a : Str} (hd : Closed sc d) (ha : Closed sc a) :
    Closed sc (d ++ a) := by
  rcases ha with ha | ⟨a1, ha⟩
  · subst ha; simpa using hd
  · subst ha; exact Or.inr ⟨d ++ a1, by simp⟩

/-- A text without `WordSep` whose words are short has short lines. -/
theorem linesLE_of_words {W ws sc : Nat} {p : Str} (h : RunLE W (p.map (isSep ws sc)))
    (hn : ws ∉ p) : LinesLE W sc p := by
  apply allLE_of_runLE
  have : p.map (fun b => decide (b = sc)) = p.map (isSep ws sc) := by
    apply List.map_congr_left
    intro x hx
    have : x ≠ ws := fun hc => hn (hc ▸ hx)
    simp [isSep, this]
  rw [this]; exact h

/-- The part of the text that the range is advanced over is made of short
lines and ends a line. -/
theorem advance_ok {W sc : Nat} {a : Str} {X : Prop}
    (ha : (a = [] ∧ X) ∨ ∃ a0, a = a0 ++ [sc] ∧ a0.length < W ∧ sc ∉ a0) :
    Closed sc a ∧ LinesLE W sc a := by
  rcases ha with ⟨ha, _⟩ | ⟨a0, ha, hl, _⟩
  · subst ha; exact ⟨Or.inl rfl, linesLE_of_length (by simp)⟩
  · subst ha; exact ⟨Or.inr ⟨a0, rfl⟩, linesLE_snoc (linesLE_of_length (by omega))⟩

/-- The scanning loop leaves no line longer than the width, if it may break
long words or if there is no long word. -/
theorem wrapLoop_lines {sc : Nat} (ws : Nat) {blw : Bool} {w fuel : Nat} {t res : Str}
    (hwords : blw = false → RunLE w (t.map (isSep ws sc)))
    (h : wrapLoopByte sc ws blw w fuel t 0 w = .done res) : LinesLE w sc res := by
  have key := wrapLoop_induct sc ws blw w
    (fun d r => Closed sc d ∧ LinesLE w sc d ∧ (blw = false → RunLE w (r.map (isSep ws sc))))
    (fun res => LinesLE w sc res) ?_ ?_ ?_ fuel [] t res
    ⟨Or.inl rfl, linesLE_of_length (by simp), hwords⟩ (by simpa using h)
  · exact key
  · rintro d r ⟨hc, hd, _⟩ hlen
    exact linesLE_append hc hd (linesLE_of_length hlen)
  · rintro d a rr ⟨hc, hd, hwd⟩ _ hb hn ha
    obtain ⟨hca, hla⟩ := advance_ok (W := w) ha
    rw [List.append_assoc]
    refine linesLE_append hc hd (linesLE_append hca hla (linesLE_of_words ?_ hn))
    exact (hwd hb).part (List.IsInfix.map _ (List.suffix_append a rr).isInfix)
  · rintro d a p x q ⟨hc, hd, hwd⟩ ha _ hcase
    obtain ⟨hca, hla⟩ := advance_ok (W := w) ha
    have hinf : p <:+: a ++ p ++ x :: q := List.infix_append a p (x :: q)
    have hp : LinesLE w sc p := by
      rcases hcase with ⟨_, h2, _⟩ | ⟨_, h2, _⟩ | ⟨hb, _, _, hn⟩
      · exact linesLE_of_length (by omega)
      · exact linesLE_of_length (by omega)
      · exact linesLE_of_words ((hwd hb).part (List.IsInfix.map _ hinf)) hn
    refine ⟨Or.inr ⟨d ++ a ++ p, rfl⟩, ?_, ?_⟩
    · rw [List.append_assoc, List.append_assoc]
      refine linesLE_append hc hd ?_
      rw [← List.append_assoc]
      exact linesLE_snoc (linesLE_append hca hla hp)
    · intro hb
      refine (hwd hb).part (List.IsInfix.map _ ?_)
      exact ⟨a ++ p ++ [x], [], by simp⟩

/-! ## From the loop to `Wrap` -/

theorem trim_part (s : Str) (cutset : List Nat) : trimASCII s cutset <:+: s := by
  unfold trimASCII
  exact (List.dropWhile_suffix _).isInfix.trans ( List.rdropWhile_prefix _ _).isInfix

theorem sameOrSep_map {ws sc : Nat} {a b : Str} (h : List.Forall₂ (SameOrSep ws sc) a b) :
    b.map (isSep ws sc) = a.map (isSep ws sc) := by
  induction h with
  | nil => rfl
  | cons hab _ ih =>
    simp only [List.map_cons, ih, List.cons.injEq, and_true]
    rcases hab with hab | ⟨h1, h2⟩
    · rw [hab]
    · rw [h1, h2]

/-- A call of `Wrap` that returns has a non-negative `MaxWidth`, and its
result is the result of the scanning loop on the prepared text. -/
theorem Wrap_done {s : Style} {input r : Str} (h : WrapByte s input = .done r) :
    0 ≤ s.MaxWidth ∧ wrapLoopByte s.SplitChar s.WordSep s.BreakLongWords s.MaxWidth.toNat
      ((preparedByte s input).length + 1) (preparedByte s input) 0 s.MaxWidth.toNat = .done r := by
  unfold WrapByte at h
  by_cases hneg : s.MaxWidth < 0
  · simp [hneg] at h
  · rw [if_neg hneg] at h
    exact ⟨by omega, h⟩

/-- With a plain word separator the prepared text has the words of the input
or parts of them. -/
theorem prepared_words {s : Style} {W : Nat} {input : Str} (hplain : plainSep s.WordSep)
    (h : RunLE W (input.map (isSep s.WordSep s.SplitChar))) :
    RunLE W ((preparedByte s input).map (isSep s.WordSep s.SplitChar)) := by
  unfold preparedByte
  rw [sameOrSep_map (collapse_sameOrSep hplain _)]
  exact h.part (List.IsInfix.map _ (trim_part _ _))

theorem length_le_toNat {n : Nat} {m : Int} (h : (n : Int) ≤ m) : n ≤ m.toNat := by omega

theorem length_le_of_toNat {n : Nat} {m : Int} (hm : 0 ≤ m) (h : n ≤ m.toNat) : (n : Int) ≤ m := by
  omega

/-! ## What the loop changes -/

theorem forall₂_replace {R : Nat → Nat → Prop} {t l q : Str} {x y : Nat}
    (h : List.Forall₂ R t (l ++ x :: q)) (hxy : ∀ a, R a x → R a y) :
    List.Forall₂ R t (l ++ y :: q) := by
  induction l generalizing t with
  | nil =>
    cases h with
    | cons hax hrest => exact List.Forall₂.cons (hxy _ hax) hrest
  | cons z l ih =>
    cases h with
    | cons haz hrest => exact List.Forall₂.cons haz (ih hrest)

theorem forall₂_comp {R1 R2 R3 : Nat → Nat → Prop} (hcomp : ∀ a b c, R1 a b → R2 b c → R3 a c)
    {t u v : Str} (h1 : List.Forall₂ R1 t u) (h2 : List.Forall₂ R2 u v) : List.Forall₂ R3 t v := by
  induction h1 generalizing v with
  | nil => cases h2; exact List.Forall₂.nil
  | cons hab _ ih =>
    cases h2 with
    | cons hbc hrest => exact List.Forall₂.cons (hcomp _ _ _ hab hbc) (ih hrest)

/-- The scanning loop keeps the length of the text. -/
theorem wrapLoop_length {sc ws : Nat} {blw : Bool} {w fuel : Nat} {t res : Str}
    (h : wrapLoopByte sc ws blw w fuel t 0 w = .done res) : res.length = t.length := by
  have key := wrapLoop_induct sc ws blw w
    (fun d r => (d ++ r).length = t.length)
    (fun res => res.length = t.length) ?_ ?_ ?_ fuel [] t res rfl (by simpa using h)
  · exact key
  · intro d r hI _; exact hI
  · intro d a rr hI _ _ _ _; rw [List.append_assoc]; exact hI
  · intro d a p x q hI _ _ _
    rw [← hI]; simp only [List.length_append, List.length_cons, List.length_nil]; omega

/-- Without `BreakLongWords` the scanning loop only puts `SplitChar` in the
place of some `WordSep` bytes. -/
theorem wrapLoop_rel {sc ws : Nat} {w fuel : Nat} {t res : Str}
    (h : wrapLoopByte sc ws false w fuel t 0 w = .done res) :
    List.Forall₂ (fun a b => b = a ∨ (a = ws ∧ b = sc)) t res := by
  have key := wrapLoop_induct sc ws false w
    (fun d r => List.Forall₂ (fun a b => b = a ∨ (a = ws ∧ b = sc)) t (d ++ r))
    (fun res => List.Forall₂ (fun a b => b = a ∨ (a = ws ∧ b = sc)) t res) ?_ ?_ ?_ fuel [] t res
    (List.forall₂_same.2 (fun _ _ => Or.inl rfl)) (by simpa using h)
  · exact key
  · intro d r hI _; exact hI
  · intro d a rr hI _ _ _ _; rw [List.append_assoc]; exact hI
  · intro d a p x q hI _ _ hcase
    have hx : x = ws := by
      rcases hcase with ⟨h1, _⟩ | ⟨h1, _⟩ | ⟨_, h1, _⟩
      · exact h1
      · cases h1
      · exact h1
    subst hx
    have h1 : d ++ (a ++ p ++ x :: q) = (d ++ a ++ p) ++ x :: q := by simp
    have h2 : d ++ a ++ p ++ [sc] ++ q = (d ++ a ++ p) ++ sc :: q := by simp
    rw [h1] at hI
    rw [h2]
    refine forall₂_replace hI ?_
    intro a0 ha0
    rcases ha0 with ha0 | ⟨ha0, _⟩
    · exact Or.inr ⟨ha0.symm, rfl⟩
    · exact Or.inr ⟨ha0, rfl⟩

/-- With a plain word separator and without `BreakLongWords`, every byte of
the result of `Wrap` is the byte of the trimmed input at its place, or both
are separators. -/
theorem Wrap_sameOrSep {s : Style} {input r : Str} (hplain : plainSep s.WordSep)
    (hblw : s.BreakLongWords = false) (h : WrapByte s input = .done r) :
    List.Forall₂ (SameOrSep s.WordSep s.SplitChar)
      (trimASCII input [s.WordSep, s.SplitChar]) r := by
  obtain ⟨_, hloop⟩ := Wrap_done h
  rw [hblw] at hloop
  refine forall₂_comp ?_ (collapse_rel s.SplitChar hplain _) (wrapLoop_rel hloop)
  intro a b c hab hbc
  rcases hab with hab | ⟨h1, h2⟩ <;> rcases hbc with hbc | ⟨h3, h4⟩
  · exact Or.inl (by rw [hbc, hab])
  · subst hab; exact Or.inr ⟨by simp [isSep, h3], by simp [isSep, h4]⟩
  · exact Or.inr ⟨by simp [isSep, h1], by simp [isSep, hbc, h2]⟩
  · exact Or.inr ⟨by simp [isSep, h1], by simp [isSep, h4]⟩

/-- With a plain word separator `Wrap` keeps the length of the trimmed
input. -/
theorem Wrap_length {s : Style} {input r : Str} (hplain : plainSep s.WordSep)
    (h : WrapByte s input = .done r) : r.length = (trimASCII input [s.WordSep, s.SplitChar]).length := by
  obtain ⟨_, hloop⟩ := Wrap_done h
  rw [wrapLoop_length hloop]
  exact ((collapse_rel s.SplitChar hplain _).length_eq).symm

/-! ## Trimmed texts -/

theorem mem_cutset (ws sc a : Nat) : decide (a ∈ [ws, sc]) = isSep ws sc a := by
  simp [isSep]

theorem trim_noSepEnds (ws sc : Nat) (input : Str) : NoSepEnds ws sc (trimASCII input [ws, sc]) := by
  unfold trimASCII
  generalize hu : List.rdropWhile (fun b => decide (b ∈ [ws, sc])) input = u
  constructor
  · intro a ha
    have hne : List.dropWhile (fun b => decide (b ∈ [ws, sc])) u ≠ [] := by
      intro hc; rw [hc] at ha; simp at ha
    have := List.head_dropWhile_not (fun b => decide (b ∈ [ws, sc])) u hne
    rw [List.head?_eq_head hne] at ha
    simp only [Option.some.injEq] at ha
    rw [ha, mem_cutset] at this
    exact this
  · intro a ha
    have hne : List.dropWhile (fun b => decide (b ∈ [ws, sc])) u ≠ [] := by
      intro hc; rw [hc] at ha; simp at ha
    have hsuf := List.dropWhile_suffix (l := u) (fun b => decide (b ∈ [ws, sc]))
    have hune : u ≠ [] := fun hc => hne (by rw [hc]; rfl)
    have hlast := hsuf.getLast hne
    rw [List.getLast?_eq_getLast _ hne] at ha
    simp only [Option.some.injEq] at ha
    have hnot := List.rdropWhile_last_not (fun b => decide (b ∈ [ws, sc])) input (hu ▸ hune)
    simp only [hu] at hnot
    rw [← hlast, ha, mem_cutset] at hnot
    simpa using hnot

theorem sameOrSep_head {ws sc : Nat} {t r : Str} (h : List.Forall₂ (SameOrSep ws sc) t r)
    (ht : ∀ a, t.head? = some a → isSep ws sc a = false) :
    ∀ b, r.head? = some b → isSep ws sc b = false := by
  intro b hb
  cases h with
  | nil => simp at hb
  | @cons a0 b0 l1 l2 hab _ =>
    simp only [List.head?_cons, Option.some.injEq] at hb
    have ha := ht a0 rfl
    rcases hab with hab | ⟨h1, _⟩
    · rw [← hb, hab]; exact ha
    · rw [ha] at h1; cases h1

theorem sameOrSep_noSepEnds {ws sc : Nat} {t r : Str} (h : List.Forall₂ (SameOrSep ws sc) t r)
    (ht : NoSepEnds ws sc t) : NoSepEnds ws sc r := by
  refine ⟨sameOrSep_head h ht.1, ?_⟩
  have hrev := List.rel_reverse h
  have := sameOrSep_head hrev (by
    intro a ha; rw [List.head?_reverse] at ha; exact ht.2 a ha)
  intro b hb
  exact this b (by rw [List.head?_reverse]; exact hb)

theorem trim_eq_self {ws sc : Nat} {t : Str} (h : NoSepEnds ws sc t) : trimASCII t [ws, sc] = t := by
  unfold trimASCII
  have h1 : List.rdropWhile (fun b => decide (b ∈ [ws, sc])) t = t := by
    rw [List.rdropWhile_eq_self_iff]
    intro hl
    have := h.2 _ (List.getLast?_eq_getLast _ hl)
    rw [mem_cutset, this]; simp
  rw [h1, List.dropWhile_eq_self_iff]
  intro hl
  have hne : t ≠ [] := List.length_pos.1 hl
  have := h.1 (t.get ⟨0, hl⟩) (by
    cases t with
    | nil => exact absurd rfl hne
    | cons x xs => simp)
  rw [mem_cutset, this]; simp

theorem sameOrSep_unsplit {ws sc : Nat} {t r : Str} (h : List.Forall₂ (SameOrSep ws sc) t r) :
    unsplit ws sc r = unsplit ws sc t := by
  unfold unsplit
  induction h with
  | nil => rfl
  | cons hab _ ih =>
    simp only [List.map_cons, ih, List.cons.injEq, and_true]
    rcases hab with hab | ⟨h1, h2⟩
    · rw [hab]
    · have e : ∀ x, isSep ws sc x = true → (if x = sc then ws else x) = ws := by
        intro x hx
        by_cases hxs : x = sc
        · simp [hxs]
        · have : x = ws := by simpa [isSep, hxs] using hx
          simp [hxs, this]
      rw [e _ h1, e _ h2]

/-! ## The UTF-8 decoder -/

theorem wideRune_bad (t : Str) : WideRune t (0xFFFD, 1) :=
  ⟨by norm_num, [], t, rfl, rfl, by simp⟩

theorem decodeRune_wide {b : Nat} (t : Str) (h0 : ¬ b < 0x80) : WideRune t (decodeRune (b :: t)) := by
  unfold decodeRune
  simp only [h0, if_false]
  by_cases h1 : b < 194 ∨ 244 < b
  · rw [if_pos h1]; exact wideRune_bad t
  rw [if_neg h1]
  generalize hsz : (if b < 224 then 2 else if b < 240 then 3 else 4) = sz
  generalize hlo : (if b = 224 then 160 else if b = 240 then 144 else 128) = lo
  generalize hhi : (if b = 237 then 159 else if b = 244 then 143 else 191) = hi
  by_cases h2 : t.length + 1 < sz
  · rw [if_pos h2]; exact wideRune_bad t
  rw [if_neg h2]
  rcases t with _ | ⟨s1, t1⟩
  · exact wideRune_bad _
  simp only
  by_cases h3 : s1 < lo ∨ hi < s1
  · rw [if_pos h3]; exact wideRune_bad _
  rw [if_neg h3]
  have hs1 : 128 ≤ s1 := by split_ifs at hlo <;> omega
  by_cases h4 : sz ≤ 2
  · rw [if_pos h4]
    refine ⟨?_, [s1], t1, rfl, rfl, by simpa using hs1⟩
    show 128 ≤ b % 32 * 64 + s1 % 64
    split_ifs at hsz <;> omega
  rw [if_neg h4]
  rcases t1 with _ | ⟨s2, t2⟩
  · exact wideRune_bad _
  simp only
  by_cases h5 : s2 < 128 ∨ 191 < s2
  · rw [if_pos h5]; exact wideRune_bad _
  rw [if_neg h5]
  by_cases h6 : sz ≤ 3
  · rw [if_pos h6]
    refine ⟨?_, [s1, s2], t2, rfl, rfl, ?_⟩
    · show 128 ≤ b % 16 * 4096 + s1 % 64 * 64 + s2 % 64
      split_ifs at hsz hlo hhi <;> omega
    · intro x hx
      simp only [List.mem_cons, List.mem_singleton, List.not_mem_nil, or_false] at hx
      rcases hx with hx | hx <;> subst hx <;> omega
  rw [if_neg h6]
  rcases t2 with _ | ⟨s3, t3⟩
  · exact wideRune_bad _
  simp only
  by_cases h7 : s3 < 128 ∨ 191 < s3
  · rw [if_pos h7]; exact wideRune_bad _
  rw [if_neg h7]
  refine ⟨?_, [s1, s2, s3], t3, rfl, rfl, ?_⟩
  · show 128 ≤ b % 8 * 262144 + s1 % 64 * 4096 + s2 % 64 * 64 + s3 % 64
    split_ifs at hsz hlo hhi <;> omega
  · intro x hx
    simp only [List.mem_cons, List.mem_singleton, List.not_mem_nil, or_false] at hx
    rcases hx with hx | hx | hx <;> subst hx <;> omega

theorem decodeRune_ascii {b : Nat} (t : Str) (h0 : b < 0x80) : decodeRune (b :: t) = (b, 1) := by
  simp [decodeRune, h0]

/-- The first rune of a non-empty text: it takes the first byte and a part
`p` of the rest, made of bytes from `0x80` on; its value is the first byte or
is, like the first byte, from `0x80` on. -/
theorem decodeRune_shape (b : Nat) (t : Str) :
    ∃ p q, t = p ++ q ∧ (decodeRune (b :: t)).2 = 1 + p.length ∧ (∀ x ∈ p, 128 ≤ x)
      ∧ ((decodeRune (b :: t)).1 = b ∨ (128 ≤ b ∧ 128 ≤ (decodeRune (b :: t)).1)) := by
  by_cases h0 : b < 0x80
  · rw [decodeRune_ascii t h0]
    exact ⟨[], t, rfl, rfl, by simp, Or.inl rfl⟩
  · obtain ⟨h1, p, q, h2, h3, h4⟩ := decodeRune_wide t h0
    exact ⟨p, q, h2, h3, h4, Or.inr ⟨by omega, h1⟩⟩

theorem decodeRune_ne {sc b : Nat} (t : Str) (hsc : sc < 128) (hb : b ≠ sc) :
    (decodeRune (b :: t)).1 ≠ sc := by
  obtain ⟨_, _, _, _, _, h⟩ := decodeRune_shape b t
  rcases h with h | ⟨_, h⟩
  · rw [h]; exact hb
  · omega

/-- One step of the walk of the collapse pass, with the first rune taken
apart. -/
theorem collapseAux_cons (sc ws n b : Nat) (t : Str) :
    ∃ p q, t = p ++ q ∧ (∀ x ∈ p, 128 ≤ x)
      ∧ collapseByteAux sc ws (n + 1) (b :: t)
        = match q with
          | [] => b :: t
          | c :: rest2 =>
            if (decodeRune (b :: t)).1 ≠ sc ∧ c = sc ∧ rest2 ≠ [] ∧ (decodeRune rest2).1 ≠ sc then
              expandTemplate ws (b :: p) (rest2.take (decodeRune rest2).2)
                ++ collapseByteAux sc ws n (rest2.drop (decodeRune rest2).2)
            else b :: p ++ collapseByteAux sc ws n q := by
  obtain ⟨p, q, h1, h2, h3, _⟩ := decodeRune_shape b t
  refine ⟨p, q, h1, h3, ?_⟩
  have htake : (b :: t).take (decodeRune (b :: t)).2 = b :: p := by
    rw [h2, h1]; simp [Nat.add_comm 1]
  have hdrop : (b :: t).drop (decodeRune (b :: t)).2 = q := by
    rw [h2, h1]; simp [Nat.add_comm 1]
  rw [collapseByteAux]
  simp only [htake, hdrop]
  cases q with
  | nil => rfl
  | cons c rest2 => rfl

/-! ## The collapse pass on short texts -/

theorem decodeRune_width_pos (b : Nat) (t : Str) : 1 ≤ (decodeRune (b :: t)).2 := by
  obtain ⟨p, q, _, h, _⟩ := decodeRune_shape b t
  omega

theorem expandTemplate_length_le {ws : Nat} (hws : ws < 128) (g1 g2 : Str) (h : g2 ≠ []) :
    (expandTemplate ws g1 g2).length ≤ g1.length + 1 + g2.length := by
  have : 1 ≤ g2.length := List.length_pos.2 h
  unfold expandTemplate runeString
  rw [if_pos hws]
  split_ifs <;> simp <;> omega

/-- With a word separator of one byte the collapse pass never makes a text
longer. -/
theorem collapseAux_length_le (sc : Nat) {ws : Nat} (hws : ws < 128) (n : Nat) (s : Str) :
    (collapseByteAux sc ws n s).length ≤ s.length := by
  induction n generalizing s with
  | zero => simp [collapseByteAux]
  | succ n ih =>
    cases s with
    | nil => simp [collapseByteAux]
    | cons b t =>
      obtain ⟨p, q, h1, _, h2⟩ := collapseAux_cons sc ws n b t
      rw [h2]
      cases q with
      | nil => simp
      | cons c rest2 =>
        simp only
        split_ifs with hc
        · obtain ⟨b2, t2, hr⟩ := List.exists_cons_of_ne_nil hc.2.2.1
          have hw := decodeRune_width_pos b2 t2
          rw [← hr] at hw
          have hne : rest2.take (decodeRune rest2).2 ≠ [] := by
            rw [hr]; rw [hr] at hw
            intro hnil
            have := congrArg List.length hnil
            simp at this
            omega
          have h3 := expandTemplate_length_le hws (b :: p) _ hne
          have h4 := ih (rest2.drop (decodeRune rest2).2)
          have h5 : rest2.length
              = (rest2.take (decodeRune rest2).2).length
                + (rest2.drop (decodeRune rest2).2).length := by
            rw [← List.length_append, List.take_append_drop]
          rw [h1]
          simp only [List.length_append, List.length_cons] at h3 h4 ⊢
          omega
        · have h4 := ih (c :: rest2)
          rw [h1]
          simp only [List.length_append, List.length_cons] at h4 ⊢
          omega

/-- The collapse pass leaves a text without `SplitChar` as it is. -/
theorem collapseAux_no_split (sc ws n : Nat) (s : Str) (h : sc ∉ s) :
    collapseByteAux sc ws n s = s := by
  induction n generalizing s with
  | zero => simp [collapseByteAux]
  | succ n ih =>
    cases s with
    | nil => simp [collapseByteAux]
    | cons b t =>
      obtain ⟨p, q, h1, _, h2⟩ := collapseAux_cons sc ws n b t
      rw [h2]
      cases q with
      | nil => rfl
      | cons c rest2 =>
        simp only
        have hc : c ≠ sc := by
          intro hc; apply h; rw [h1, ← hc]; simp
        rw [if_neg (by simp [hc])]
        rw [ih _ (by intro hm; apply h; rw [h1]; simp [hm]), h1]
        simp

/-- With a plain word separator and an ASCII `SplitChar`, the collapse pass
joins two texts without `SplitChar` that one `SplitChar` separates. -/
theorem collapseAux_join {sc ws : Nat} (hplain : plainSep ws) (hsc : sc < 128) (v : Str)
    (hv : v ≠ []) (hnv : sc ∉ v) :
    ∀ (n : Nat) (u : Str), u ≠ [] → sc ∉ u → u.length ≤ n →
      collapseByteAux sc ws n (u ++ sc :: v) = u ++ ws :: v := by
  intro n
  induction n with
  | zero =>
    intro u hu _ hlen
    exact absurd (List.length_eq_zero.1 (Nat.le_zero.1 hlen)) hu
  | succ n ih =>
    intro u hu hnu hlen
    obtain ⟨b, u1, rfl⟩ := List.exists_cons_of_ne_nil hu
    have hb : b ≠ sc := fun hc => hnu (by simp [hc])
    have hnu1 : sc ∉ u1 := fun hc => hnu (by simp [hc])
    obtain ⟨p, q, h1, hp, h2⟩ := collapseAux_cons sc ws n b (u1 ++ sc :: v)
    rw [List.cons_append, h2]
    have hnp : sc ∉ p := fun hc => by have := hp sc hc; omega
    -- the rune ends inside `u1`
    obtain ⟨u2, hu1, hq⟩ : ∃ u2, u1 = p ++ u2 ∧ q = u2 ++ sc :: v := by
      rcases List.append_eq_append_iff.1 h1 with ⟨a, ha1, ha2⟩ | ⟨c, hc1, hc2⟩
      · cases a with
        | nil =>
          simp only [List.append_nil] at ha1
          simp only [List.nil_append] at ha2
          exact ⟨[], by simp [ha1], by simp [ha2]⟩
        | cons a0 a1 =>
          simp only [List.cons_append, List.cons.injEq] at ha2
          exact absurd (by rw [ha1, ha2.1]; simp) hnp
      · exact ⟨c, hc1, by rw [hc2]⟩
    subst hq
    cases u2 with
    | nil =>
      simp only [List.nil_append]
      obtain ⟨b2, v2, rfl⟩ := List.exists_cons_of_ne_nil hv
      have hb2 : b2 ≠ sc := fun hc => hnv (by simp [hc])
      have h3 := decodeRune_ne (u1 ++ sc :: b2 :: v2) hsc hb
      have h4 := decodeRune_ne v2 hsc hb2
      split_ifs with hcnd
      · rw [expandTemplate_plain hplain, collapseAux_no_split]
        · simp only [List.append_nil] at hu1
          rw [hu1]
          simp only [List.cons_append, List.append_assoc, List.take_append_drop]
        · intro hm
          exact hnv (List.mem_of_mem_drop hm)
      · have hcnd2 : ¬(decodeRune (b :: (u1 ++ sc :: b2 :: v2))).1 = sc →
            (decodeRune (b2 :: v2)).1 = sc := by simpa using hcnd
        exact absurd (hcnd2 h3) h4
    | cons c u3 =>
      simp only [List.cons_append]
      have hc : c ≠ sc := fun hc => hnu1 (by rw [hu1, ← hc]; simp)
      rw [if_neg (by simp [hc])]
      have := ih (c :: u3) (by simp) (fun hm => hnu1 (by rw [hu1]; simp [hm]))
        (by rw [hu1] at hlen; simp at hlen ⊢; omega)
      rw [List.cons_append] at this
      rw [this, hu1]
      simp

/-! ## The replacement pass of `Indent` -/

theorem indentRepl_plain {sc ic : Nat} (n : Nat) (h : ic ≠ 36) :
    indentReplByte sc ic n = sc :: List.replicate n ic := by
  simp [indentReplByte, h]

/-- For an ASCII `SplitChar` the replacement pass replaces the bytes that are
`SplitChar`, one by one. -/
theorem replaceAux_eq {sc : Nat} (hsc : sc < 128) (repl : Str) :
    ∀ (n : Nat) (s : Str), s.length ≤ n →
      replaceAux sc repl n s = s.flatMap (fun b => if b = sc then repl else [b]) := by
  intro n
  induction n with
  | zero =>
    intro s hs
    have : s = [] := List.length_eq_zero.1 (Nat.le_zero.1 hs)
    subst this; rfl
  | succ n ih =>
    intro s hs
    cases s with
    | nil => rfl
    | cons b t =>
      obtain ⟨p, q, h1, h2, h3, h4⟩ := decodeRune_shape b t
      have htake : (b :: t).take (decodeRune (b :: t)).2 = b :: p := by
        rw [h2, h1]; simp [Nat.add_comm 1]
      have hdrop : (b :: t).drop (decodeRune (b :: t)).2 = q := by
        rw [h2, h1]; simp [Nat.add_comm 1]
      have hq : q.length ≤ n := by
        rw [h1] at hs; simp at hs; omega
      have hp : p.flatMap (fun b => if b = sc then repl else [b]) = p := by
        clear h1 h2 htake
        induction p with
        | nil => rfl
        | cons x p ihp =>
          have hx : x ≠ sc := by have := h3 x (by simp); omega
          simp only [List.flatMap_cons, hx, if_false, List.singleton_append, List.cons.injEq,
            true_and]
          exact ihp (fun y hy => h3 y (by simp [hy]))
      rw [replaceAux]
      simp only [htake, hdrop, ih q hq]
      by_cases hb : b = sc
      · subst hb
        have hr := decodeRune_ascii t hsc
        have hp0 : p = [] := by
          rw [hr] at h2
          simp only at h2
          exact List.length_eq_zero.1 (by omega)
        subst hp0
        rw [hr, h1]
        simp
      · rw [if_neg (decodeRune_ne t hsc hb), h1]
        simp only [List.flatMap_cons, hb, if_false, List.flatMap_append, hp, List.singleton_append,
          List.cons_append, List.nil_append]

/-- The result of `Indent` on a non-empty input `body ++ [last]`, for an
ASCII `SplitChar` and an `IndentChar` that is neither `SplitChar` nor the
dollar sign. -/
theorem Indent_eq {s : Style} (hw : 0 ≤ s.IndentWidth) (hsc : s.SplitChar < 128)
    (hne : s.IndentChar ≠ s.SplitChar) (hd : s.IndentChar ≠ 36) (body : Str) (last : Nat) :
    IndentByte s (body ++ [last])
      = .done (List.replicate s.IndentWidth.toNat s.IndentChar
          ++ body.flatMap (indentByte s.SplitChar (List.replicate s.IndentWidth.toNat s.IndentChar))
          ++ [last]) := by
  unfold IndentByte
  rw [if_neg (by omega)]
  simp only
  generalize hind : List.replicate s.IndentWidth.toNat s.IndentChar = ind
  have hlen : (ind ++ (body ++ [last])).length = (ind ++ body).length + 1 := by simp; omega
  rw [hlen]
  simp only
  have h1 : (ind ++ (body ++ [last])).take (ind ++ body).length = ind ++ body := by
    rw [← List.append_assoc, List.take_left]
  have h2 : (ind ++ (body ++ [last])).drop (ind ++ body).length = [last] := by
    rw [← List.append_assoc, List.drop_left]
  rw [h1, h2, replaceAux_eq hsc _ _ _ (le_refl _), indentRepl_plain _ hd, hind]
  have h3 : ind.flatMap (fun b => if b = s.SplitChar then s.SplitChar :: ind else [b]) = ind := by
    have hall : ∀ x ∈ ind, x ≠ s.SplitChar := by
      intro x hx
      rw [← hind] at hx
      rw [List.eq_of_mem_replicate hx]; exact hne
    clear hlen h1 h2
    generalize ind = l at hall ⊢
    generalize hrr : s.SplitChar :: _ = rr
    clear hrr hind
    induction l with
    | nil => rfl
    | cons x l ihl =>
      simp only [List.flatMap_cons, hall x (by simp), if_false, List.singleton_append,
        List.cons.injEq, true_and]
      exact ihl (fun y hy => hall y (by simp [hy]))
  rw [List.flatMap_append, h3]
  rfl

/-! ## The lines of an indented text -/

theorem pieces_cons_sep (P : Nat → Bool) (c : Nat) (xs : Str) (h : P c = true) :
    pieces P (c :: xs) = [] :: pieces P xs := by
  rw [pieces]; simp [h]

theorem pieces_cons_other (P : Nat → Bool) (c : Nat) {xs l : Str} {ls : List Str}
    (h : P c = false) (hp : pieces P xs = l :: ls) : pieces P (c :: xs) = (c :: l) :: ls := by
  rw [pieces]; simp [h, hp]

theorem pieces_append_other (P : Nat → Bool) (a : Str) {y l : Str} {ls : List Str}
    (ha : ∀ c ∈ a, P c = false) (hp : pieces P y = l :: ls) :
    pieces P (a ++ y) = (a ++ l) :: ls := by
  induction a with
  | nil => simpa using hp
  | cons c a ih =>
    rw [List.cons_append,
      pieces_cons_other P c (ha c (by simp)) (ih (fun x hx => ha x (by simp [hx])))]
    rfl

theorem joinWith_cons_cons (sc c : Nat) (l : Str) (ls : List Str) :
    joinWith sc ((c :: l) :: ls) = c :: joinWith sc (l :: ls) := by
  cases ls <;> rfl

/-- Joining the lines of a text gives the text back. -/
theorem joinWith_lines (sc : Nat) (x : Str) : joinWith sc (lines sc x) = x := by
  unfold lines
  induction x with
  | nil => rfl
  | cons c xs ih =>
    obtain ⟨l, ls, hp⟩ := List.exists_cons_of_ne_nil (pieces_ne_nil (fun b => decide (b = sc)) xs)
    by_cases hc : c = sc
    · rw [pieces_cons_sep _ c xs (by simp [hc]), hp]
      rw [hp] at ih
      show [] ++ sc :: joinWith sc (l :: ls) = c :: xs
      rw [ih, hc]; rfl
    · rw [pieces_cons_other _ c (by simp [hc]) hp, joinWith_cons_cons]
      rw [hp] at ih
      rw [ih]

theorem lines_flatMap {sc : Nat} {ind : Str} (hind : sc ∉ ind) (x : Str) {l : Str}
    {ls : List Str} (hp : lines sc x = l :: ls) :
    lines sc (x.flatMap (indentByte sc ind)) = l :: ls.map (fun t => ind ++ t) := by
  unfold lines at hp ⊢
  induction x generalizing l ls with
  | nil =>
    simp only [pieces, List.cons.injEq] at hp
    rw [← hp.1, ← hp.2]; rfl
  | cons c xs ih =>
    obtain ⟨l1, ls1, hp1⟩ :=
      List.exists_cons_of_ne_nil (pieces_ne_nil (fun b => decide (b = sc)) xs)
    have ih1 := ih hp1
    have hnone : ∀ b ∈ ind, (fun b => decide (b = sc)) b = false := by
      intro b hb
      have : b ≠ sc := fun hc => hind (hc ▸ hb)
      simp [this]
    by_cases hc : c = sc
    · rw [pieces_cons_sep _ c xs (by simp [hc]), hp1] at hp
      simp only [List.cons.injEq] at hp
      rw [← hp.1, ← hp.2]
      simp only [List.flatMap_cons, indentByte, hc, if_true, List.cons_append, List.map_cons]
      rw [pieces_cons_sep _ sc _ (by simp), pieces_append_other _ ind hnone ih1]
    · rw [pieces_cons_other _ c (by simp [hc]) hp1] at hp
      simp only [List.cons.injEq] at hp
      rw [← hp.1, ← hp.2]
      simp only [List.flatMap_cons, indentByte, hc, if_false, List.singleton_append]
      rw [pieces_cons_other _ c (by simp [hc]) ih1]

/-- The lines of an indented text are the lines of the text, each with the
indent in front. -/
theorem lines_indented {sc : Nat} {ind : Str} (hind : sc ∉ ind) (x : Str) :
    lines sc (ind ++ x.flatMap (indentByte sc ind)) = (lines sc x).map (fun t => ind ++ t) := by
  obtain ⟨l, ls, hp⟩ := List.exists_cons_of_ne_nil (pieces_ne_nil (fun b => decide (b = sc)) x)
  have hp2 : lines sc x = l :: ls := hp
  have h1 := lines_flatMap hind x hp2
  rw [hp2]
  unfold lines at h1 ⊢
  rw [pieces_append_other _ ind ?_ h1]
  · rfl
  · intro b hb
    have : b ≠ sc := fun hc => hind (hc ▸ hb)
    simp [this]

theorem flatMap_snoc_other {sc : Nat} (ind body : Str) {last : Nat} (h : last ≠ sc) :
    (body ++ [last]).flatMap (indentByte sc ind) = body.flatMap (indentByte sc ind) ++ [last] := by
  simp [List.flatMap_append, indentByte, h]

theorem replicate_no_split {sc ic : Nat} (n : Nat) (h : ic ≠ sc) : sc ∉ List.replicate n ic := by
  intro hm
  exact h (List.eq_of_mem_replicate hm).symm

/-! ## The fuel is enough -/

/-- More fuel than the text has bytes does not change the collapse pass: the
walk takes at least one byte in every step. -/
theorem collapseAux_fuel (sc ws : Nat) :
    ∀ (n : Nat) (s : Str), s.length ≤ n → collapseByteAux sc ws (n + 1) s = collapseByteAux sc ws n s := by
  intro n
  induction n with
  | zero =>
    intro s hs
    have : s = [] := List.length_eq_zero.1 (Nat.le_zero.1 hs)
    subst this; rfl
  | succ n ih =>
    intro s hs
    cases s with
    | nil => rfl
    | cons b t =>
      have hw := decodeRune_width_pos b t
      conv_lhs => rw [collapseByteAux]
      conv_rhs => rw [collapseByteAux]
      simp only
      generalize (decodeRune (b :: t)).2 = w1 at hw
      cases hrest : (b :: t).drop w1 with
      | nil => rfl
      | cons c rest2 =>
        have hlen : (c :: rest2).length ≤ n := by
          rw [← hrest]
          simp only [List.length_drop, List.length_cons] at hs ⊢
          omega
        simp only
        split_ifs with hc
        · rw [ih _ (by
            simp only [List.length_drop, List.length_cons] at hlen ⊢
            omega)]
        · rw [ih _ hlen]

/-- More fuel than the text has bytes does not change the replacement pass. -/
theorem replaceAux_fuel (sc : Nat) (repl : Str) :
    ∀ (n : Nat) (s : Str), s.length ≤ n → replaceAux sc repl (n + 1) s = replaceAux sc repl n s := by
  intro n
  induction n with
  | zero =>
    intro s hs
    have : s = [] := List.length_eq_zero.1 (Nat.le_zero.1 hs)
    subst this; rfl
  | succ n ih =>
    intro s hs
    cases s with
    | nil => rfl
    | cons b t =>
      have hw := decodeRune_width_pos b t
      conv_lhs => rw [replaceAux]
      conv_rhs => rw [replaceAux]
      have hlen : ((b :: t).drop (decodeRune (b :: t)).2).length ≤ n := by
        simp only [List.length_drop, List.length_cons] at hs ⊢
        omega
      rw [ih _ hlen]

theorem breakLine_stop_fuel (sc ws : Nat) (blw : Bool) (w : Nat) (out : Str) (sk en : Nat) :
    breakLineByte sc ws blw w out sk en ≠ .stop .outOfFuel := by
  unfold breakLineByte
  repeat' split
  all_goals simp

theorem wrapBody_stop_fuel (sc ws : Nat) (blw : Bool) (w : Nat) (out : Str) (sk en : Nat) :
    wrapBodyByte sc ws blw w out sk en ≠ .stop .outOfFuel := by
  unfold wrapBodyByte
  split
  · simp
  · split <;> exact breakLine_stop_fuel _ _ _ _ _ _ _

/-- The scanning loop ends within its fuel when the fuel is more than the
number of bytes from `seek` on: every iteration that goes on moves `seek`
forward and keeps the length of the text. -/
theorem wrapLoop_fuel (sc ws : Nat) (blw : Bool) (w : Nat) :
    ∀ (fuel : Nat) (d r : Str), r.length < fuel →
      wrapLoopByte sc ws blw w fuel (d ++ r) d.length (d.length + w) ≠ .outOfFuel := by
  intro fuel
  induction fuel with
  | zero => intro d r h; exact absurd h (Nat.not_lt_zero _)
  | succ n ih =>
    intro d r hfuel
    unfold wrapLoopByte
    by_cases hlt : d.length + w < (d ++ r).length
    · have hw : w ≤ r.length := by simp at hlt; omega
      rw [if_pos hlt]
      cases hb : wrapBodyByte sc ws blw w (d ++ r) d.length (d.length + w) with
      | next out sk1 en1 =>
        obtain ⟨a, p, x, q, hr, hout, hsk1, hen1, _, _, _⟩ := wrapBody_next rfl hw hb
        simp only
        have hout2 : out = (d ++ a ++ p ++ [sc]) ++ q := by rw [hout]; simp
        rw [hout2, hen1, hsk1]
        apply ih
        have := congrArg List.length hr
        simp only [List.length_append, List.length_cons] at this
        omega
      | stop o =>
        simp only
        intro ho
        rw [ho] at hb
        exact wrapBody_stop_fuel _ _ _ _ _ _ _ hb
    · rw [if_neg hlt]; simp

/-- No call of `WrapByte` runs out of fuel: it returns or it panics. -/
theorem Wrap_fuel (s : Style) (input : Str) : WrapByte s input ≠ .outOfFuel := by
  unfold WrapByte
  split_ifs
  · simp
  · have := wrapLoop_fuel s.SplitChar s.WordSep s.BreakLongWords s.MaxWidth.toNat
      ((preparedByte s input).length + 1) [] (preparedByte s input) (Nat.lt_succ_self _)
    simpa using this

/-! ## Iterations that cannot panic -/

theorem split_isSome (sc : Nat) (out : Str) (loc : Nat) (h : loc < out.length) :
    ∃ o, splitByte sc out loc = some o := by
  unfold splitByte
  rw [if_pos (by omega)]
  exact ⟨_, rfl⟩

/-- The second half of the loop body does not panic when `end` is inside the
text. -/
theorem breakLine_no_panic (sc ws : Nat) (blw : Bool) (w : Nat) (d rr : Str)
    (hw : w < rr.length) :
    breakLineByte sc ws blw w (d ++ rr) d.length (d.length + w) ≠ .stop .panic := by
  unfold breakLineByte
  rw [slice_append d rr w rfl rfl, if_pos (by omega)]
  simp only
  cases hli : lastIndexByte (rr.take w) ws with
  | some i =>
    obtain ⟨a, b, hwin, hal, _⟩ := lastIndex_some hli
    have hlen : (rr.take w).length = w := by simp; omega
    have hiw : i < w := by rw [hwin] at hlen; simp at hlen; omega
    obtain ⟨o, ho⟩ := split_isSome sc (d ++ rr) (i + d.length) (by simp; omega)
    simp [ho]
  | none =>
    simp only
    cases blw with
    | true =>
      obtain ⟨o, ho⟩ := split_isSome sc (d ++ rr) (d.length + w) (by simp; omega)
      simp [ho]
    | false =>
      have hsf : sliceFrom (d ++ rr) d.length = some rr := by simp [sliceFrom]
      simp only [Bool.false_eq_true, if_false, hsf]
      cases hix : indexByte rr ws with
      | none => simp
      | some i =>
        obtain ⟨a, b, hr, hal, _⟩ := index_some hix
        have hil : i < rr.length := by rw [hr]; simp; omega
        obtain ⟨o, ho⟩ := split_isSome sc (d ++ rr) (i + d.length) (by simp; omega)
        simp [ho]

/-- An iteration whose window holds no `SplitChar` does not panic. -/
theorem wrapBody_no_panic (sc ws : Nat) (blw : Bool) (w : Nat) (d r : Str)
    (hw : w < r.length) (hwin : sc ∉ r.take w) :
    wrapBodyByte sc ws blw w (d ++ r) d.length (d.length + w) ≠ .stop .panic := by
  obtain ⟨a, rr, hr, ha, heq⟩ := wrapBody_eq sc ws blw (w := w) (d := d) (r := r) rfl (by omega)
  rcases ha with ⟨ha, _⟩ | ⟨a0, ha, hl, _⟩
  · subst ha
    simp only [List.nil_append] at hr
    subst hr
    rw [heq]
    simpa using breakLine_no_panic sc ws blw w d r hw
  · exfalso
    apply hwin
    rw [hr, ha, List.take_append_eq_append_take, List.take_of_length_le (by simp; omega)]
    simp

/-- The scanning loop does not panic when no window can hold a `SplitChar`:
`J` is a property of the rest of the text that excludes it and that the rest
keeps. -/
theorem wrapLoop_no_panic (sc ws : Nat) (blw : Bool) (w : Nat) (J : Str → Prop)
    (hJ : ∀ r, J r → sc ∉ r.take w) (hsuf : ∀ pre q, J (pre ++ q) → J q) :
    ∀ (fuel : Nat) (d r : Str), J r →
      wrapLoopByte sc ws blw w fuel (d ++ r) d.length (d.length + w) ≠ .panic := by
  intro fuel
  induction fuel with
  | zero => intro d r _; simp [wrapLoopByte]
  | succ n ih =>
    intro d r hr
    unfold wrapLoopByte
    by_cases hlt : d.length + w < (d ++ r).length
    · have hw : w < r.length := by simp at hlt; omega
      rw [if_pos hlt]
      cases hb : wrapBodyByte sc ws blw w (d ++ r) d.length (d.length + w) with
      | next out sk1 en1 =>
        obtain ⟨a, p, x, q, hrr, hout, hsk1, hen1, _, _, _⟩ := wrapBody_next rfl (by omega) hb
        simp only
        have hout2 : out = (d ++ a ++ p ++ [sc]) ++ q := by rw [hout]; simp
        rw [hout2, hen1, hsk1]
        apply ih
        apply hsuf (a ++ p ++ [x]) q
        rw [hrr] at hr
        simpa using hr
      | stop o =>
        simp only
        intro ho
        rw [ho] at hb
        exact wrapBody_no_panic sc ws blw w d r hw (hJ r hr) hb
    · rw [if_neg hlt]; simp

/-! ## Which breaks the collapse pass takes away -/

theorem collapsed_refl (sc ws : Nat) (s : Str) : ∀ prev, Collapsed sc ws prev s s := by
  induction s with
  | nil => exact fun prev => Collapsed.nil prev
  | cons a s ih => exact fun prev => Collapsed.keep prev a s s (ih _)

theorem collapsed_append (sc ws : Nat) (l : Str) {s r : Str}
    (h : ∀ prev, Collapsed sc ws prev s r) : ∀ prev, Collapsed sc ws prev (l ++ s) (l ++ r) := by
  induction l with
  | nil => exact h
  | cons a l ih => exact fun prev => Collapsed.keep prev a _ _ (ih _)

theorem collapsed_snoc (sc ws : Nat) (l : Str) (x : Nat) {s r : Str}
    (h : Collapsed sc ws (some x) s r) :
    ∀ prev, Collapsed sc ws prev (l ++ x :: s) (l ++ x :: r) := by
  induction l with
  | nil => exact fun prev => Collapsed.keep prev x _ _ h
  | cons a l ih => exact fun prev => Collapsed.keep prev a _ _ (ih _)

/-- The last byte of a rune other than an ASCII `SplitChar` is not
`SplitChar`. -/
theorem rune_last_ne {sc b : Nat} {t p q : Str} (hsc : sc < 128)
    (hr : (decodeRune (b :: t)).1 ≠ sc) (hp : ∀ x ∈ p, 128 ≤ x) (_ht : t = p ++ q) :
    ∃ l x, b :: p = l ++ [x] ∧ x ≠ sc := by
  have hb : b ≠ sc := by
    intro hb
    apply hr
    rw [hb, decodeRune_ascii t hsc]
  refine ⟨(b :: p).dropLast, (b :: p).getLast (by simp),
    (List.dropLast_append_getLast (by simp)).symm, ?_⟩
  cases p with
  | nil => simpa using hb
  | cons y p1 =>
    have hmem : (b :: y :: p1).getLast (by simp) ∈ y :: p1 := by
      rw [List.getLast_cons (by simp)]
      exact List.getLast_mem _
    have := hp _ hmem
    omega

/-- With a plain word separator and an ASCII `SplitChar`, the collapse pass
stays within `Collapsed`. -/
theorem collapseAux_collapsed {sc ws : Nat} (hplain : plainSep ws) (hsc : sc < 128) :
    ∀ (n : Nat) (s : Str) (prev : Option Nat), Collapsed sc ws prev s (collapseByteAux sc ws n s) := by
  intro n
  induction n with
  | zero => intro s prev; exact collapsed_refl sc ws s prev
  | succ n ih =>
    intro s prev
    cases s with
    | nil => exact Collapsed.nil prev
    | cons b t =>
      obtain ⟨p, q, h1, hp, h2⟩ := collapseAux_cons sc ws n b t
      rw [h2]
      cases q with
      | nil => exact collapsed_refl sc ws _ prev
      | cons c rest2 =>
        simp only
        split_ifs with hc
        · obtain ⟨hr1, hcsc, hne, hr2⟩ := hc
          obtain ⟨b2, t2, rfl⟩ := List.exists_cons_of_ne_nil hne
          obtain ⟨p2, q2, e1, e2, _, _⟩ := decodeRune_shape b2 t2
          have hb2 : b2 ≠ sc := by
            intro hb
            apply hr2
            rw [hb, decodeRune_ascii t2 hsc]
          have htake : (b2 :: t2).take (decodeRune (b2 :: t2)).2 = b2 :: p2 := by
            rw [e2, e1]; simp [Nat.add_comm 1]
          have hdrop : (b2 :: t2).drop (decodeRune (b2 :: t2)).2 = q2 := by
            rw [e2, e1]; simp [Nat.add_comm 1]
          obtain ⟨l, x, hlx, hx⟩ := rune_last_ne hsc hr1 hp h1
          rw [expandTemplate_plain hplain, htake, hdrop, h1, hcsc, e1, hlx]
          have hjoin : Collapsed sc ws (some x) (sc :: b2 :: (p2 ++ q2))
              (ws :: b2 :: (p2 ++ collapseByteAux sc ws n q2)) :=
            Collapsed.join x b2 _ _ hx hb2 (collapsed_append sc ws p2 (ih q2) _)
          have := collapsed_snoc sc ws l x hjoin prev
          have ein : b :: (p ++ sc :: b2 :: (p2 ++ q2)) = l ++ x :: sc :: b2 :: (p2 ++ q2) := by
            rw [← List.cons_append, hlx]; simp
          rw [ein]
          simpa using this
        · rw [h1]
          have := collapsed_append sc ws (b :: p) (ih (c :: rest2)) prev
          simpa using this

/-- Inside `Collapsed` a `SplitChar` with a `SplitChar` to its left or to its
right stays where it is. -/
theorem collapsed_keeps {sc ws : Nat} {prev : Option Nat} {s r : Str}
    (h : Collapsed sc ws prev s r) :
    ∀ p, s[p]? = some sc → (leftOf prev s p = some sc ∨ s[p + 1]? = some sc) →
      r[p]? = some sc := by
  induction h with
  | nil prev => intro p hp; simp at hp
  | keep prev a s r _ ih =>
    intro p hp hnb
    cases p with
    | zero => simpa using hp
    | succ q =>
      simp only [List.getElem?_cons_succ] at hp hnb ⊢
      apply ih q hp
      cases q with
      | zero => simpa [leftOf] using hnb
      | succ q1 => simpa [leftOf] using hnb
  | join x b s r hx hb _ ih =>
    intro p hp hnb
    cases p with
    | zero =>
      exfalso
      simp only [leftOf, List.getElem?_cons_succ, List.getElem?_cons_zero, Option.some.injEq] at hnb
      rcases hnb with hnb | hnb
      · exact hx hnb
      · exact hb hnb
    | succ q =>
      cases q with
      | zero =>
        exfalso
        simp only [List.getElem?_cons_succ, List.getElem?_cons_zero, Option.some.injEq] at hp
        exact hb hp
      | succ q1 =>
        simp only [List.getElem?_cons_succ] at hp hnb ⊢
        apply ih q1 hp
        cases q1 with
        | zero => simpa [leftOf] using hnb
        | succ q2 => simpa [leftOf] using hnb

/-! ## The collapse pass on ASCII text -/

theorem collapseAux_nil (sc ws n : Nat) : collapseByteAux sc ws n [] = [] := by
  cases n <;> rfl

/-- One step of the collapse pass on ASCII text, with a plain word
separator: runes are bytes. -/
theorem collapseAux_ascii {sc ws : Nat} (hplain : plainSep ws) (n b : Nat) (t : Str)
    (hb : b < 128) (ht : ∀ x ∈ t, x < 128) :
    collapseByteAux sc ws (n + 1) (b :: t)
      = match t with
        | c :: b2 :: t2 =>
          if b ≠ sc ∧ c = sc ∧ b2 ≠ sc then b :: ws :: b2 :: collapseByteAux sc ws n t2
          else b :: collapseByteAux sc ws n t
        | _ => b :: collapseByteAux sc ws n t := by
  obtain ⟨p, q, h1, hp, h2⟩ := collapseAux_cons sc ws n b t
  have hp0 : p = [] := by
    cases p with
    | nil => rfl
    | cons y p1 =>
      have h128 := hp y (by simp)
      have := ht y (by rw [h1]; simp)
      omega
  subst hp0
  simp only [List.nil_append] at h1
  subst h1
  rw [h2, decodeRune_ascii t hb]
  cases t with
  | nil => simp [collapseAux_nil]
  | cons c rest2 =>
    cases rest2 with
    | nil => simp
    | cons b2 t2 =>
      have hb2 : b2 < 128 := ht b2 (by simp)
      simp only [decodeRune_ascii t2 hb2, expandTemplate_plain hplain]
      by_cases hc : b ≠ sc ∧ c = sc ∧ b2 ≠ sc
      · rw [if_pos ⟨hc.1, hc.2.1, by simp, hc.2.2⟩, if_pos hc]
        simp
      · rw [if_neg (fun h => hc ⟨h.1, h.2.1, h.2.2.2⟩), if_neg hc]
        simp

/-- On ASCII text the collapse pass replaces a `SplitChar` between two bytes
that are not `SplitChar` when the byte two places to its left is not a
`SplitChar` either. -/
theorem collapseAux_unwraps {sc ws : Nat} (hplain : plainSep ws) :
    ∀ (n : Nat) (s : Str), s.length ≤ n → (∀ x ∈ s, x < 128) →
      ∀ (p a b : Nat), s[p]? = some a → a ≠ sc → s[p + 1]? = some sc → s[p + 2]? = some b →
        b ≠ sc → (∀ q, p = q + 1 → s[q]? ≠ some sc) →
        (collapseByteAux sc ws n s)[p + 1]? = some ws := by
  intro n
  induction n with
  | zero =>
    intro s hs _ p a b ha
    have : s = [] := List.length_eq_zero.1 (Nat.le_zero.1 hs)
    subst this
    simp at ha
  | succ n ih =>
    intro s hs hascii p a b ha hane hsc hb hbne hleft
    cases s with
    | nil => simp at ha
    | cons b0 t =>
      rw [collapseAux_ascii hplain n b0 t (hascii b0 (by simp))
        (fun x hx => hascii x (by simp [hx]))]
      have htl : t.length ≤ n := by simp at hs; omega
      have hta : ∀ x ∈ t, x < 128 := fun x hx => hascii x (by simp [hx])
      -- the step without a match at the front
      have hskip : ∀ q, p = q + 1 → (b0 :: collapseByteAux sc ws n t)[p + 1]? = some ws := by
        intro q hq
        subst hq
        simp only [List.getElem?_cons_succ] at ha hsc hb ⊢
        refine ih t htl hta q a b ha hane hsc hb hbne ?_
        intro q1 hq1
        subst hq1
        have := hleft (q1 + 1) rfl
        simpa using this
      cases t with
      | nil => simp at hsc
      | cons c rest2 =>
        cases rest2 with
        | nil => simp at hb
        | cons b2 t2 =>
          simp only
          by_cases hc : b0 ≠ sc ∧ c = sc ∧ b2 ≠ sc
          · rw [if_pos hc]
            cases p with
            | zero => simp
            | succ p1 =>
              cases p1 with
              | zero =>
                exfalso
                simp only [List.getElem?_cons_succ, List.getElem?_cons_zero,
                  Option.some.injEq] at hsc
                exact hc.2.2 hsc
              | succ p2 =>
                cases p2 with
                | zero =>
                  exfalso
                  have := hleft 1 rfl
                  simp only [List.getElem?_cons_succ, List.getElem?_cons_zero] at this
                  exact this (by rw [hc.2.1])
                | succ p3 =>
                  simp only [List.getElem?_cons_succ] at ha hsc hb ⊢
                  refine ih t2 (by simp at htl; omega)
                    (fun x hx => hta x (by simp [hx])) p3 a b ha hane hsc hb hbne ?_
                  intro q1 hq1
                  subst hq1
                  have := hleft (q1 + 1 + 1 + 1) rfl
                  simpa using this
          · rw [if_neg hc]
            cases p with
            | zero =>
              exfalso
              apply hc
              simp only [List.getElem?_cons_succ, List.getElem?_cons_zero,
                Option.some.injEq] at ha hsc hb
              exact ⟨ha ▸ hane, hsc, hb ▸ hbne⟩
            | succ p1 => exact hskip p1 rfl

/-! ## A word without separators -/

theorem breakEvery_length (sc m : Nat) : ∀ (k : Nat) (l : Str),
    (breakEvery sc m k l).length = l.length := by
  intro k l
  induction l generalizing k with
  | nil => rfl
  | cons b l ih => simp [breakEvery, ih]

theorem breakEvery_append (sc m : Nat) : ∀ (k : Nat) (l1 l2 : Str),
    breakEvery sc m k (l1 ++ l2) = breakEvery sc m k l1 ++ breakEvery sc m (k + l1.length) l2 := by
  intro k l1
  induction l1 generalizing k with
  | nil => intro l2; simp [breakEvery]
  | cons b l ih =>
    intro l2
    simp only [List.cons_append, breakEvery, List.length_cons, List.cons.injEq, true_and]
    have := ih (k + 1) l2
    rw [show k + 1 + l.length = k + (l.length + 1) by omega] at this
    exact this

theorem breakEvery_getElem? (sc m : Nat) : ∀ (k : Nat) (l : Str) (i b : Nat),
    l[i]? = some b →
      (breakEvery sc m k l)[i]? = some (if (k + i + 1) % (m + 1) = 0 then sc else b) := by
  intro k l
  induction l generalizing k with
  | nil => intro i b h; simp at h
  | cons b0 l ih =>
    intro i b h
    cases i with
    | zero =>
      simp only [List.getElem?_cons_zero, Option.some.injEq] at h
      simp [breakEvery, h]
    | succ i =>
      simp only [List.getElem?_cons_succ] at h
      have := ih (k + 1) i b h
      rw [show k + 1 + i + 1 = k + (i + 1) + 1 by omega] at this
      simp only [breakEvery, List.getElem?_cons_succ, this]

/-- No byte is replaced in a part of the word that lies between two break
positions. -/
theorem breakEvery_short (sc m : Nat) (k : Nat) (hk : k % (m + 1) = 0) :
    ∀ (l : Str) (j : Nat), j + l.length ≤ m → breakEvery sc m (k + j) l = l := by
  intro l
  induction l with
  | nil => intro j _; rfl
  | cons b l ih =>
    intro j hj
    simp only [List.length_cons] at hj
    have hmod : (k + j + 1) % (m + 1) ≠ 0 := by
      have h1 : (k + j + 1) % (m + 1) = (j + 1) % (m + 1) := by
        rw [Nat.add_assoc, Nat.add_mod, hk, Nat.zero_add, Nat.mod_mod]
      rw [h1, Nat.mod_eq_of_lt (by omega)]
      omega
    simp only [breakEvery, hmod, if_false, List.cons.injEq, true_and]
    have := ih (j + 1) (by omega)
    rwa [← Nat.add_assoc] at this

/-- A text without separators is its own prepared text. -/
theorem prepared_word {s : Style} {w : Str} (hw : ∀ b ∈ w, b ≠ s.WordSep ∧ b ≠ s.SplitChar) :
    preparedByte s w = w := by
  unfold preparedByte collapseByte
  have ht : trimASCII w [s.WordSep, s.SplitChar] = w := by
    apply trim_eq_self
    constructor
    · intro a ha
      have := hw a (List.mem_of_mem_head? ha)
      simp [isSep, this.1, this.2]
    · intro a ha
      have := hw a (List.mem_of_getLast?_eq_some ha)
      simp [isSep, this.1, this.2]
  rw [ht]
  exact collapseAux_no_split _ _ _ _ (fun hm => (hw _ hm).2 rfl)

/-- With `BreakLongWords` the scanning loop breaks a text without separators
after every `MaxWidth` bytes. -/
theorem wrapLoop_word {sc ws m fuel : Nat} {w res : Str} (hsc : sc ∉ w) (hws : ws ∉ w)
    (h : wrapLoopByte sc ws true m fuel w 0 m = .done res) : res = breakEvery sc m 0 w := by
  have key := wrapLoop_induct sc ws true m
    (fun d r => ∃ k, k % (m + 1) = 0 ∧ k ≤ w.length ∧ d = breakEvery sc m 0 (w.take k)
      ∧ r = w.drop k)
    (fun res => res = breakEvery sc m 0 w) ?_ ?_ ?_ fuel [] w res
    ⟨0, by simp, by simp, by simp [breakEvery], by simp⟩ (by simpa using h)
  · exact key
  · rintro d r ⟨k, hk, hkl, hd, hr⟩ hlen
    conv_rhs => rw [← List.take_append_drop k w, breakEvery_append]
    rw [hd, hr]
    congr 1
    have := breakEvery_short sc m k hk (w.drop k) 0 (by rw [← hr]; omega)
    rw [List.length_take, Nat.min_eq_left hkl, Nat.zero_add]
    rw [Nat.add_zero] at this
    exact this.symm
  · intro d a rr _ _ hb _ _
    cases hb
  · rintro d a p x q ⟨k, hk, hkl, hd, hr⟩ ha _ hcase
    have hsub : ∀ y ∈ a ++ p ++ x :: q, y ∈ w := by
      intro y hy
      rw [hr] at hy
      exact List.mem_of_mem_drop hy
    have ha0 : a = [] := by
      rcases ha with ⟨ha, _⟩ | ⟨a0, ha, _, _⟩
      · exact ha
      · exact absurd (hsub sc (by rw [ha]; simp)) hsc
    subst ha0
    simp only [List.nil_append, List.append_nil] at hr hsub ⊢
    have hpl : p.length = m := by
      rcases hcase with ⟨hx, _⟩ | ⟨_, hpl, _⟩ | ⟨hb, _⟩
      · exact absurd (hsub x (by simp)) (hx ▸ hws)
      · exact hpl
      · cases hb
    have hlen : (w.drop k).length = m + 1 + q.length := by
      rw [← hr]; simp [hpl]; omega
    have hkl2 : k + (m + 1) ≤ w.length := by
      rw [List.length_drop] at hlen; omega
    refine ⟨k + (m + 1), ?_, hkl2, ?_, ?_⟩
    · rw [Nat.add_mod, hk, Nat.mod_self]; simp
    · have htake : w.take (k + (m + 1)) = w.take k ++ (p ++ [x]) := by
        rw [List.take_add, ← hr]
        congr 1
        rw [show p ++ x :: q = (p ++ [x]) ++ q by simp, List.take_left' (by simp [hpl])]
      rw [htake, breakEvery_append, breakEvery_append, ← hd, List.length_take,
        Nat.min_eq_left hkl, Nat.zero_add]
      have h1 := breakEvery_short sc m k hk p 0 (by omega)
      rw [Nat.add_zero] at h1
      have h2 : breakEvery sc m (k + p.length) [x] = [sc] := by
        have : (k + p.length + 1) % (m + 1) = 0 := by
          rw [hpl, Nat.add_assoc, Nat.add_mod, hk, Nat.mod_self]; simp
        simp [breakEvery, this]
      rw [h1, h2]
      simp
    · have e1 : w.drop (k + (m + 1)) = (w.drop k).drop (m + 1) := (List.drop_drop _ _ _).symm
      have e2 : p ++ x :: q = (p ++ [x]) ++ q := by simp
      rw [e1, ← hr, e2, List.drop_left' (by simp [hpl])]

/-! ## Separators of one byte: the two forms of the functions agree -/

theorem runeString_ascii {c : Nat} (h : c < 128) : runeString c = [c] := by
  unfold runeString
  rw [if_pos h]

theorem textRune_ascii {c : Nat} (h : c < 128) : textRune c = c := by
  unfold textRune
  rw [if_neg (by omega)]

theorem startsWith_single (x : Nat) (xs : Str) (c : Nat) :
    startsWith (x :: xs) [c] = decide (x = c) := by
  simp [startsWith]

theorem index_byte (c : Nat) : ∀ s : Str, index s [c] = indexByte s c := by
  intro s
  induction s with
  | nil => simp [index, indexByte, startsWith]
  | cons x xs ih =>
    unfold index indexByte
    rw [startsWith_single, ih]
    by_cases hx : x = c <;> simp [hx]

theorem lastIndex_byte (c : Nat) : ∀ s : Str, lastIndex s [c] = lastIndexByte s c := by
  intro s
  induction s with
  | nil => simp [lastIndex, lastIndexByte, startsWith]
  | cons x xs ih =>
    unfold lastIndex lastIndexByte
    rw [startsWith_single, ih]
    by_cases hx : x = c <;> simp [hx]

theorem split_byte {sc : Nat} (hsc : sc < 128) (out : Str) (loc : Nat) :
    split sc out loc = splitByte sc out loc := by
  unfold split splitByte
  rw [runeString_ascii hsc]

theorem breakLine_byte {sc ws : Nat} (hsc : sc < 128) (hws : ws < 128) (blw : Bool) (w : Nat)
    (out : Str) (sk en : Nat) :
    breakLine sc ws blw w out sk en = breakLineByte sc ws blw w out sk en := by
  unfold breakLine breakLineByte
  simp only [runeString_ascii hws, index_byte, lastIndex_byte, split_byte hsc]

theorem wrapBody_byte {sc ws : Nat} (hsc : sc < 128) (hws : ws < 128) (blw : Bool) (w : Nat)
    (out : Str) (sk en : Nat) :
    wrapBody sc ws blw w out sk en = wrapBodyByte sc ws blw w out sk en := by
  unfold wrapBody wrapBodyByte
  simp only [runeString_ascii hsc, index_byte, breakLine_byte hsc hws]

/-- For separators of one byte the scanning loop of `Wrap` is the loop on
bytes. -/
theorem wrapLoop_byte {sc ws : Nat} (hsc : sc < 128) (hws : ws < 128) (blw : Bool) (w : Nat) :
    ∀ (fuel : Nat) (out : Str) (sk en : Nat),
      wrapLoop sc ws blw w fuel out sk en = wrapLoopByte sc ws blw w fuel out sk en := by
  intro fuel
  induction fuel with
  | zero => intro out sk en; rfl
  | succ n ih =>
    intro out sk en
    unfold wrapLoop wrapLoopByte
    rw [wrapBody_byte hsc hws]
    split_ifs
    · cases wrapBodyByte sc ws blw w out sk en with
      | next o s1 e1 => exact ih o s1 e1
      | stop o => rfl
    · rfl

/-- For separators of one byte `strings.Trim` works on bytes. -/
theorem trimmed_ascii {s : Style} (hsc : s.SplitChar < 128) (hws : s.WordSep < 128)
    (input : Str) : trimmed s input = trimASCII input [s.WordSep, s.SplitChar] := by
  unfold trimmed trim
  rw [runeString_ascii hsc, runeString_ascii hws]
  rw [if_pos (by simp [hsc, hws])]
  rfl

theorem collapseAux_nil_fuel (re : CollapseRe) (c ws n : Nat) : collapseAux re c ws n [] = [] := by
  cases n <;> rfl

/-- For a `SplitChar` of one byte that stands for itself, the collapse pass is
the pass on the byte. -/
theorem collapseAux_literal {sc : Nat} (hsc : sc < 128) (ws : Nat) :
    ∀ (n : Nat) (s : Str), collapseAux .literal sc ws n s = collapseByteAux sc ws n s := by
  intro n
  induction n with
  | zero => intro s; rfl
  | succ n ih =>
    intro s
    cases s with
    | nil => rfl
    | cons b t =>
      unfold collapseAux collapseByteAux
      simp only [matchCollapse, matchThree]
      by_cases h1 : (decodeRune (b :: t)).1 = sc
      · simp only [h1, ne_eq, not_true_eq_false, decide_False, Bool.false_eq_true, if_false,
          false_and]
        cases hrest : List.drop (decodeRune (b :: t)).2 (b :: t) with
        | nil =>
          simp only [collapseAux_nil_fuel, List.append_nil]
          conv_rhs => rw [← List.take_append_drop (decodeRune (b :: t)).2 (b :: t), hrest]
          simp
        | cons c rest2 => simp only [ih]
      · simp only [h1, ne_eq, not_false_eq_true, decide_True, if_true, true_and]
        cases hrest : List.drop (decodeRune (b :: t)).2 (b :: t) with
        | nil =>
          simp only [collapseAux_nil_fuel, List.append_nil]
          conv_rhs => rw [← List.take_append_drop (decodeRune (b :: t)).2 (b :: t), hrest]
          simp
        | cons c rest2 =>
          simp only
          by_cases hc : c = sc
          · subst hc
            simp only [decodeRune_ascii rest2 hsc, decide_True, if_true, List.drop_succ_cons,
              List.drop_zero, true_and]
            cases rest2 with
            | nil => simp [ih]
            | cons b2 t2 =>
              by_cases h3 : (decodeRune (b2 :: t2)).1 = c
              · simp [h3, ih]
              · simp [h3, ih]
          · have := decodeRune_ne rest2 hsc hc
            simp [this, hc, ih]

theorem literalSep_lt {sc : Nat} (h : literalSep sc) : sc < 128 := h.1

theorem collapseNL_literal {sc : Nat} (h : literalSep sc) : collapseNL sc = some .literal := by
  obtain ⟨_, h2⟩ := h
  simp only [List.mem_cons, List.mem_singleton, List.not_mem_nil, or_false, not_or] at h2
  obtain ⟨h92, h46, h43, h42, h63, h40, h41, h124, h91, _, _, _, h94, h36⟩ := h2
  unfold collapseNL
  simp [h92, h46, h43, h42, h63, h40, h41, h124, h91, h94, h36]

theorem indentRe_literal {sc : Nat} (h : literalSep sc) : indentRe sc = some .literal := by
  obtain ⟨_, h2⟩ := h
  simp only [List.mem_cons, List.mem_singleton, List.not_mem_nil, or_false, not_or] at h2
  obtain ⟨h92, h46, h43, h42, h63, h40, h41, h124, h91, _, _, _, h94, h36⟩ := h2
  unfold indentRe
  simp [h92, h46, h43, h42, h63, h40, h41, h124, h91, h94, h36]

/-- For separators of one byte, the `SplitChar` standing for itself, the text
that `Wrap` scans is the text of the functions on bytes. -/
theorem prepared_literal {s : Style} (hlit : literalSep s.SplitChar) (hws : s.WordSep < 128)
    (input : Str) : prepared s input = some (preparedByte s input) := by
  unfold prepared preparedByte collapse collapseByte
  rw [collapseNL_literal hlit, trimmed_ascii hlit.1 hws, textRune_ascii hlit.1]
  simp only [collapseAux_literal hlit.1]

theorem wrapLoopByte_more (sc ws : Nat) (blw : Bool) (w : Nat) :
    ∀ (fuel : Nat) (out : Str) (sk en : Nat),
      wrapLoopByte sc ws blw w fuel out sk en ≠ .outOfFuel →
      ∀ k, wrapLoopByte sc ws blw w (fuel + k) out sk en
        = wrapLoopByte sc ws blw w fuel out sk en := by
  intro fuel
  induction fuel with
  | zero => intro out sk en h; exact absurd rfl h
  | succ n ih =>
    intro out sk en h k
    rw [show n + 1 + k = (n + k) + 1 by omega]
    rw [wrapLoopByte, wrapLoopByte] at *
    by_cases hlt : en < out.length
    · simp only [if_pos hlt] at h ⊢
      cases hb : wrapBodyByte sc ws blw w out sk en with
      | next o s1 e1 =>
        rw [hb] at h
        exact ih o s1 e1 h k
      | stop o => rfl
    · simp only [if_neg hlt]

/-- The loop of `Wrap`, started on a text `p` with separators of one byte, does
not use up its fuel, and more fuel does not change what it does. -/
theorem wrapLoopByte_start (sc ws : Nat) (blw : Bool) (w : Nat) (p : Str) (k : Nat) :
    wrapLoopByte sc ws blw w (p.length + 1 + k) p 0 w
        = wrapLoopByte sc ws blw w (p.length + 1) p 0 w
      ∧ wrapLoopByte sc ws blw w (p.length + 1) p 0 w ≠ .outOfFuel := by
  have h := wrapLoop_fuel sc ws blw w (p.length + 1) [] p (Nat.lt_succ_self _)
  simp only [List.nil_append, List.length_nil, Nat.zero_add] at h
  exact ⟨wrapLoopByte_more sc ws blw w _ p 0 w h k, h⟩

/-- What `Wrap` is for separators of one byte: a panic of `regexp.MustCompile` or of
the first slice, or the scanning loop on bytes. -/
theorem Wrap_ascii {s : Style} (hsc : s.SplitChar < 128) (hws : s.WordSep < 128) (input : Str) :
    Wrap s input
      = match prepared s input with
        | none => .panic
        | some p =>
          if s.MaxWidth < 0 then .panic
          else
            wrapLoopByte s.SplitChar s.WordSep s.BreakLongWords s.MaxWidth.toNat
              (p.length + 1) p 0 s.MaxWidth.toNat := by
  unfold Wrap
  cases prepared s input with
  | none => rfl
  | some p =>
    simp only
    split_ifs
    · rfl
    · rw [wrapLoop_byte hsc hws]
      exact (wrapLoopByte_start _ _ _ _ p 3).1

/-- For separators of one byte, the `SplitChar` standing for itself, `Wrap` is
the method on bytes. -/
theorem Wrap_literal {s : Style} (hlit : literalSep s.SplitChar) (hws : s.WordSep < 128)
    (input : Str) : Wrap s input = WrapByte s input := by
  rw [Wrap_ascii hlit.1 hws, prepared_literal hlit hws]
  rfl

/-- With separators of one byte a call of `Wrap` returns or panics: the loop
ends. -/
theorem Wrap_ends {s : Style} (hsc : s.SplitChar < 128) (hws : s.WordSep < 128) (input : Str) :
    Wrap s input ≠ .outOfFuel := by
  rw [Wrap_ascii hsc hws]
  cases prepared s input with
  | none => simp
  | some p =>
    simp only
    split_ifs
    · simp
    · exact (wrapLoopByte_start _ _ _ _ p 0).2

/-- What a returned result of `Wrap` is, for separators of one byte. -/
theorem Wrap_done_ascii {s : Style} (hsc : s.SplitChar < 128) (hws : s.WordSep < 128)
    {input r : Str} (h : Wrap s input = .done r) :
    ∃ p, prepared s input = some p ∧ 0 ≤ s.MaxWidth
      ∧ wrapLoopByte s.SplitChar s.WordSep s.BreakLongWords s.MaxWidth.toNat
          (p.length + 1) p 0 s.MaxWidth.toNat = .done r := by
  rw [Wrap_ascii hsc hws] at h
  cases hp : prepared s input with
  | none => simp [hp] at h
  | some p =>
    simp only [hp] at h
    by_cases hneg : s.MaxWidth < 0
    · simp [hneg] at h
    · rw [if_neg hneg] at h
      exact ⟨p, rfl, by omega, h⟩

theorem flatten_replicate_singleton (n c : Nat) :
    (List.replicate n [c]).flatten = List.replicate n c := by
  induction n with
  | zero => rfl
  | succ n ih => simp [List.replicate_succ, ih]

/-- For a `SplitChar` of one byte that stands for itself and an `IndentChar` of
one byte, `Indent` is the method on bytes. -/
theorem Indent_literal {s : Style} (hlit : literalSep s.SplitChar) (hic : s.IndentChar < 128)
    (input : Str) : Indent s input = IndentByte s input := by
  have h36 : s.SplitChar ≠ 36 := by
    intro h
    have := hlit.2
    rw [h] at this
    simp at this
  unfold Indent IndentByte
  simp only [indentRe_literal hlit, textRune_ascii hlit.1, runeString_ascii hic,
    flatten_replicate_singleton, replaceIndent, indentRepl, indentReplByte, if_neg h36,
    runeString_ascii hlit.1, List.singleton_append]

/-- When the prepared text is not longer than a non-negative `MaxWidth`, the
scanning loop is not entered and the prepared text is returned. -/
theorem Wrap_fits {s : Style} {input : Str} (hW : 0 ≤ s.MaxWidth)
    (hfit : ((preparedByte s input).length : Int) ≤ s.MaxWidth) :
    WrapByte s input = .done (preparedByte s input) := by
  unfold WrapByte
  rw [if_neg (by omega)]
  unfold wrapLoopByte
  rw [if_neg (by omega)]

theorem trim_all_sep {ws sc : Nat} {input : Str} (h : ∀ b ∈ input, b = ws ∨ b = sc) :
    trimASCII input [ws, sc] = [] := by
  unfold trimASCII
  have : List.rdropWhile (fun b => decide (b ∈ [ws, sc])) input = [] := by
    rw [List.rdropWhile_eq_nil_iff]
    intro x hx
    simpa using h x hx
  rw [this]; rfl

theorem trim_words {ws sc : Nat} {u v : Str} (hu : u ≠ []) (hv : v ≠ [])
    (hnu : ∀ b ∈ u, b ≠ ws ∧ b ≠ sc) (hnv : ∀ b ∈ v, b ≠ ws ∧ b ≠ sc) :
    trimASCII (u ++ sc :: v) [ws, sc] = u ++ sc :: v := by
  apply trim_eq_self
  obtain ⟨b, u1, rfl⟩ := List.exists_cons_of_ne_nil hu
  constructor
  · intro a ha
    simp only [List.cons_append, List.head?_cons, Option.some.injEq] at ha
    have := hnu b (by simp)
    simp [isSep, ← ha, this.1, this.2]
  · intro a ha
    have hl : (b :: u1 ++ sc :: v).getLast? = v.getLast? := by
      rw [show b :: u1 ++ sc :: v = (b :: u1 ++ [sc]) ++ v by simp]
      rw [List.getLast?_append_of_ne_nil _ hv]
    rw [hl] at ha
    have := hnv a (List.mem_of_getLast?_eq_some ha)
    simp [isSep, this.1, this.2]

/-- Text that fits, for separators of one byte, the `SplitChar` standing for
itself: `Wrap` returns the trimmed text with the collapse pass applied. -/
theorem Wrap_fits_literal {s : Style} {input : Str} (hlit : literalSep s.SplitChar)
    (hws : s.WordSep < 128) (hfit : ((trimmed s input).length : Int) ≤ s.MaxWidth) :
    Wrap s input = .done (preparedByte s input) := by
  rw [Wrap_literal hlit hws]
  rw [trimmed_ascii hlit.1 hws] at hfit
  have hW : 0 ≤ s.MaxWidth := le_trans (Int.ofNat_nonneg _) hfit
  have := collapseAux_length_le s.SplitChar hws
    (trimASCII input [s.WordSep, s.SplitChar]).length (trimASCII input [s.WordSep, s.SplitChar])
  exact Wrap_fits hW (by unfold preparedByte collapseByte; omega)

/-! ## `Indent` on bytes -/

theorem indentByte_every_line (s : Style) (hw : 0 ≤ s.IndentWidth) (hsc : s.SplitChar < 128)
    (hne : s.IndentChar ≠ s.SplitChar) (hd : s.IndentChar ≠ 36) :
    (∀ (input : Str) (h : input ≠ []),
        IndentByte s input
          = .done (List.replicate s.IndentWidth.toNat s.IndentChar
              ++ input.dropLast.flatMap
                  (indentByte s.SplitChar (List.replicate s.IndentWidth.toNat s.IndentChar))
              ++ [input.getLast h]))
      ∧ (∀ (input : Str) (h : input ≠ []), input.getLast h ≠ s.SplitChar →
        IndentByte s input
          = .done (joinWith s.SplitChar ((lines s.SplitChar input).map
              (fun l => List.replicate s.IndentWidth.toNat s.IndentChar ++ l))))
      ∧ (∀ (input : Str) (h : input ≠ []) (r : Str), input.getLast h ≠ s.SplitChar →
        IndentByte s input = .done r → IndentByte s (input ++ [s.SplitChar]) = .done (r ++ [s.SplitChar])) := by
  have hfirst : ∀ (input : Str) (h : input ≠ []),
      IndentByte s input
        = .done (List.replicate s.IndentWidth.toNat s.IndentChar
            ++ input.dropLast.flatMap
                (indentByte s.SplitChar (List.replicate s.IndentWidth.toNat s.IndentChar))
            ++ [input.getLast h]) := by
    intro input h
    have := Indent_eq hw hsc hne hd input.dropLast (input.getLast h)
    rwa [List.dropLast_append_getLast h] at this
  have hflat : ∀ (input : Str) (h : input ≠ []), input.getLast h ≠ s.SplitChar →
      IndentByte s input
        = .done (List.replicate s.IndentWidth.toNat s.IndentChar
            ++ input.flatMap
                (indentByte s.SplitChar (List.replicate s.IndentWidth.toNat s.IndentChar))) := by
    intro input h hlast
    rw [hfirst input h]
    conv_rhs => rw [← List.dropLast_append_getLast h, flatMap_snoc_other _ _ hlast]
    simp
  refine ⟨hfirst, ?_, ?_⟩
  · intro input h hlast
    rw [hflat input h hlast, ← lines_indented (replicate_no_split _ hne), joinWith_lines]
  · intro input h r hlast hr
    rw [hflat input h hlast] at hr
    simp only [Outcome.done.injEq] at hr
    rw [Indent_eq hw hsc hne hd input s.SplitChar, ← hr]

theorem indentByte_round_trip (s : Style) (hw : 0 ≤ s.IndentWidth) (hsc : s.SplitChar < 128)
    (hne : s.IndentChar ≠ s.SplitChar) (hd : s.IndentChar ≠ 36) (input : Str)
    (hin : input ≠ []) :
    ∃ r, IndentByte s input = .done r
      ∧ (∀ l ∈ (lines s.SplitChar r).dropLast,
          List.replicate s.IndentWidth.toNat s.IndentChar <+: l)
      ∧ (input.getLast hin ≠ s.SplitChar →
          ∀ l ∈ lines s.SplitChar r, List.replicate s.IndentWidth.toNat s.IndentChar <+: l)
      ∧ joinWith s.SplitChar ((lines s.SplitChar r).map (List.drop s.IndentWidth.toNat)) = input := by
  generalize hind : List.replicate s.IndentWidth.toNat s.IndentChar = ind
  have hlenind : ind.length = s.IndentWidth.toNat := by rw [← hind]; simp
  have hnot : s.SplitChar ∉ ind := by rw [← hind]; exact replicate_no_split _ hne
  have hdrop : ∀ L : List Str,
      (L.map (fun t => ind ++ t)).map (List.drop s.IndentWidth.toNat) = L := by
    intro L
    rw [List.map_map]
    conv_rhs => rw [← List.map_id L]
    apply List.map_congr_left
    intro t _
    simp [← hlenind]
  have hpre : ∀ (L : List Str), ∀ l ∈ L.map (fun t => ind ++ t), ind <+: l := by
    intro L l hl
    simp only [List.mem_map] at hl
    obtain ⟨t, _, rfl⟩ := hl
    exact List.prefix_append ind t
  have heq := Indent_eq hw hsc hne hd input.dropLast (input.getLast hin)
  rw [List.dropLast_append_getLast hin, hind] at heq
  by_cases hlast : input.getLast hin = s.SplitChar
  · -- the result ends with the final `SplitChar`: its last line is empty
    have hlines : lines s.SplitChar
        (ind ++ input.dropLast.flatMap (indentByte s.SplitChar ind) ++ [input.getLast hin])
          = (lines s.SplitChar input.dropLast).map (fun t => ind ++ t) ++ [[]] := by
      rw [hlast]
      unfold lines
      rw [pieces_snoc_sep _ _ (by simp)]
      have := lines_indented hnot input.dropLast
      unfold lines at this
      rw [this]
    have hinput : lines s.SplitChar input = lines s.SplitChar input.dropLast ++ [[]] := by
      conv_lhs => rw [← List.dropLast_append_getLast hin, hlast]
      unfold lines
      rw [pieces_snoc_sep _ _ (by simp)]
    refine ⟨_, heq, ?_, fun h => absurd hlast h, ?_⟩
    · rw [hlines, List.dropLast_concat]
      exact hpre _
    · rw [hlines, List.map_append, hdrop]
      have : List.map (List.drop s.IndentWidth.toNat) [([] : Str)] = [[]] := by simp
      rw [this, ← hinput, joinWith_lines]
  · have hflat : ind ++ input.dropLast.flatMap (indentByte s.SplitChar ind) ++ [input.getLast hin]
        = ind ++ input.flatMap (indentByte s.SplitChar ind) := by
      conv_rhs => rw [← List.dropLast_append_getLast hin, flatMap_snoc_other _ _ hlast]
      simp
    rw [hflat] at heq
    have hlines := lines_indented hnot input
    refine ⟨_, heq, ?_, ?_, ?_⟩
    · rw [hlines]
      intro l hl
      exact hpre _ l (List.mem_of_mem_dropLast hl)
    · intro _
      rw [hlines]
      exact hpre _
    · rw [hlines, hdrop, joinWith_lines]

/-! ## The collapse pass and a long word, on bytes -/

/-- On bytes a call returns or panics. -/
theorem Wrap_cases (s : Style) (input : Str) :
    WrapByte s input = .panic ∨ ∃ r, WrapByte s input = .done r := by
  have := Wrap_fuel s input
  cases h : WrapByte s input with
  | done r => exact Or.inr ⟨r, rfl⟩
  | panic => exact Or.inl rfl
  | outOfFuel => exact absurd h this

theorem collapseByte_keeps_breaks (s : Style) (input : Str) (hplain : plainSep s.WordSep)
    (hsc : s.SplitChar < 128)
    (hfit : ((trimASCII input [s.WordSep, s.SplitChar]).length : Int) ≤ s.MaxWidth) :
    ∃ r, WrapByte s input = .done r
      ∧ ∀ p : Nat, (trimASCII input [s.WordSep, s.SplitChar])[p]? = some s.SplitChar →
          ((∃ q, p = q + 1 ∧ (trimASCII input [s.WordSep, s.SplitChar])[q]? = some s.SplitChar)
            ∨ (trimASCII input [s.WordSep, s.SplitChar])[p + 1]? = some s.SplitChar) →
          r[p]? = some s.SplitChar := by
  have hW : 0 ≤ s.MaxWidth := le_trans (Int.ofNat_nonneg _) hfit
  have hlen := collapseAux_length_le s.SplitChar hplain.1
    (trimASCII input [s.WordSep, s.SplitChar]).length (trimASCII input [s.WordSep, s.SplitChar])
  refine ⟨preparedByte s input, Wrap_fits hW (by unfold preparedByte collapseByte; omega), ?_⟩
  intro p hp hnb
  have hcol := collapseAux_collapsed hplain hsc (trimASCII input [s.WordSep, s.SplitChar]).length
    (trimASCII input [s.WordSep, s.SplitChar]) none
  refine collapsed_keeps hcol p hp ?_
  rcases hnb with ⟨q, rfl, hq⟩ | hnb
  · exact Or.inl hq
  · exact Or.inr hnb

theorem collapseByte_unwraps (s : Style) (input : Str) (hplain : plainSep s.WordSep)
    (hascii : ∀ x ∈ trimASCII input [s.WordSep, s.SplitChar], x < 128)
    (hfit : ((trimASCII input [s.WordSep, s.SplitChar]).length : Int) ≤ s.MaxWidth) :
    ∃ r, WrapByte s input = .done r
      ∧ ∀ p a b : Nat, (trimASCII input [s.WordSep, s.SplitChar])[p]? = some a → a ≠ s.SplitChar →
          (trimASCII input [s.WordSep, s.SplitChar])[p + 1]? = some s.SplitChar →
          (trimASCII input [s.WordSep, s.SplitChar])[p + 2]? = some b → b ≠ s.SplitChar →
          (∀ q, p = q + 1 → (trimASCII input [s.WordSep, s.SplitChar])[q]? ≠ some s.SplitChar) →
          r[p + 1]? = some s.WordSep := by
  have hW : 0 ≤ s.MaxWidth := le_trans (Int.ofNat_nonneg _) hfit
  have hlen := collapseAux_length_le s.SplitChar hplain.1
    (trimASCII input [s.WordSep, s.SplitChar]).length (trimASCII input [s.WordSep, s.SplitChar])
  refine ⟨preparedByte s input, Wrap_fits hW (by unfold preparedByte collapseByte; omega), ?_⟩
  intro p a b ha hane hsc hb hbne hleft
  exact collapseAux_unwraps hplain _ _ (le_refl _) hascii p a b ha hane hsc hb hbne hleft

theorem wrapByte_breaks_long_word (s : Style) (w : Str) (hm : 0 < s.MaxWidth)
    (hblw : s.BreakLongWords = true) (hw : ∀ b ∈ w, b ≠ s.WordSep ∧ b ≠ s.SplitChar) :
    ∃ r, WrapByte s w = .done r ∧ r.length = w.length
      ∧ ∀ i b : Nat, w[i]? = some b →
          r[i]? = some (if (i + 1) % (s.MaxWidth.toNat + 1) = 0 then s.SplitChar else b) := by
  have hsc : s.SplitChar ∉ w := fun hmem => (hw _ hmem).2 rfl
  have hws : s.WordSep ∉ w := fun hmem => (hw _ hmem).1 rfl
  have hprep := prepared_word hw
  have hval : ∀ r, WrapByte s w = .done r → r = breakEvery s.SplitChar s.MaxWidth.toNat 0 w := by
    intro r hr
    obtain ⟨_, hloop⟩ := Wrap_done hr
    rw [hprep, hblw] at hloop
    exact wrapLoop_word hsc hws hloop
  rcases Wrap_cases s w with hp | ⟨r, hr⟩
  · exfalso
    unfold WrapByte at hp
    rw [if_neg (by omega), hprep] at hp
    have := wrapLoop_no_panic s.SplitChar s.WordSep s.BreakLongWords s.MaxWidth.toNat
      (fun r => s.SplitChar ∉ r) (fun r hr hmem => hr (List.mem_of_mem_take hmem))
      (fun pre q hpq hmem => hpq (List.mem_append_right pre hmem)) (w.length + 1) [] w hsc
    exact this (by simpa using hp)
  · refine ⟨r, hr, ?_, ?_⟩
    · rw [hval r hr, breakEvery_length]
    · intro i b hi
      rw [hval r hr]
      have := breakEvery_getElem? s.SplitChar s.MaxWidth.toNat 0 w i b hi
      rwa [Nat.zero_add] at this

/-! ## C1, C2: the width of the lines of the result -/

/-- C1: `Wrap` with `BreakLongWords = false` returns a line longer than
`MaxWidth` although every word of the input fits.  The replacement template
`"$1" + WordSep + "$2"` is expanded with `WordSep` unescaped.  With the
underscore as `WordSep` it reads `${1_}$2`: the collapse pass deletes the end
of a line instead of putting a word separator there, the words `aaa` and
`bbb` run together, and the result `aabbb` is one line of five bytes where
`MaxWidth` is three.  With the dollar sign as `WordSep` the pass turns `b\n$`
into `b$2`, and the word `cd` of `ab\n$cd` becomes the word `2cd`, a line of
three bytes where `MaxWidth` is two.  With a space as `WordSep` the same call
comes out as the claim has it:
`Wrap("the quick brown fox jumps") = "the quick\nbrown fox\njumps"`. -/
theorem wrap_runs_words_together :
    ((0 : Int) < (Style.mk 2 32 3 10 95 false).MaxWidth
      ∧ (Style.mk 2 32 3 10 95 false).WordSep ≠ (Style.mk 2 32 3 10 95 false).SplitChar
      ∧ (∀ wd ∈ words 95 10 (bytes "aaa\nbbb"), wd.length ≤ 3)
      ∧ Wrap (Style.mk 2 32 3 10 95 false) (bytes "aaa\nbbb") = .done (bytes "aabbb")
      ∧ ¬ (∀ l ∈ lines 10 (bytes "aabbb"), l.length ≤ 3))
    ∧ ((∀ wd ∈ words 36 10 (bytes "ab\n$cd"), wd.length ≤ 2)
      ∧ Wrap (Style.mk 2 32 2 10 36 false) (bytes "ab\n$cd") = .done (bytes "ab\n2cd")
      ∧ ¬ (∀ l ∈ lines 10 (bytes "ab\n2cd"), l.length ≤ 2))
    ∧ Wrap (Style.mk 2 32 10 10 32 false) (bytes "the quick brown fox jumps")
        = .done (bytes "the quick\nbrown fox\njumps") := by
  decide

/-- Where the separators are taken as they are, the lines are bounded: the
`SplitChar` is one byte and stands for itself in the collapse expression,
the word separator is plain (an ASCII character, not a letter, digit,
underscore or dollar sign) and every word of the input has length at most
`MaxWidth`; then whenever `Wrap` returns a result, every line of it, the last
included, has length at most `MaxWidth`. -/
theorem wrap_lines_plain (s : Style) (input r : Str)
    (hlit : literalSep s.SplitChar) (hplain : plainSep s.WordSep)
    (hwords : ∀ wd ∈ words s.WordSep s.SplitChar input, (wd.length : Int) ≤ s.MaxWidth)
    (h : Wrap s input = .done r) :
    ∀ l ∈ lines s.SplitChar r, (l.length : Int) ≤ s.MaxWidth := by
  rw [Wrap_literal hlit hplain.1] at h
  obtain ⟨hpos, hloop⟩ := Wrap_done h
  have hrun : RunLE s.MaxWidth.toNat (input.map (isSep s.WordSep s.SplitChar)) :=
    runLE_of_allLE (fun wd hwd => length_le_toNat (hwords wd hwd))
  have := wrapLoop_lines s.WordSep (fun _ => prepared_words hplain hrun) hloop
  exact fun l hl => length_le_of_toNat hpos (this l hl)

/-- C2: with `BreakLongWords = true` and separators of one byte (code points
below `0x80`), whenever `Wrap` returns a result, every line of the result has
length at most `MaxWidth`: every line that is followed by a `SplitChar`, and
the last line as well.  The bound comes from the scanning loop alone; it
holds whatever the collapse pass has made of the text, so also for a
`SplitChar` with a meaning in the collapse expression, and no condition on
`MaxWidth` is needed. -/
theorem wrap_lines_break_long (s : Style) (input r : Str)
    (hsc : s.SplitChar < 128) (hws : s.WordSep < 128)
    (hblw : s.BreakLongWords = true) (h : Wrap s input = .done r) :
    ∀ l ∈ lines s.SplitChar r, (l.length : Int) ≤ s.MaxWidth := by
  obtain ⟨p, _, hpos, hloop⟩ := Wrap_done_ascii hsc hws h
  have := wrapLoop_lines s.WordSep (fun hb => by rw [hblw] at hb; cases hb) hloop
  exact fun l hl => length_le_of_toNat hpos (this l hl)

/-- C2 at `MaxWidth = 3`: `Wrap("abcdefghij") = "abc\nefg\nij"`, whose lines
have at most three bytes. -/
theorem wrap_lines_break_long_witness :
    Wrap (Style.mk 2 32 3 10 32 true) (bytes "abcdefghij") = .done (bytes "abc\nefg\nij")
      ∧ ∀ l ∈ lines 10 (bytes "abc\nefg\nij"), (l.length : Int) ≤ 3 :=
  ⟨by decide,
   wrap_lines_break_long (Style.mk 2 32 3 10 32 true) (bytes "abcdefghij")
    (bytes "abc\nefg\nij") (by decide) (by decide) rfl (by decide)⟩

/-! ## C3, C4, C5: what `Wrap` keeps, and where it panics -/

theorem forall₂_getElem? {R : Nat → Nat → Prop} {t r : Str} (h : List.Forall₂ R t r)
    {p a b : Nat} (ha : t[p]? = some a) (hb : r[p]? = some b) : R a b := by
  induction h generalizing p with
  | nil => simp at ha
  | cons hab _ ih =>
    cases p with
    | zero =>
      simp only [List.getElem?_cons_zero, Option.some.injEq] at ha hb
      rw [← ha, ← hb]; exact hab
    | succ n =>
      simp only [List.getElem?_cons_succ] at ha hb
      exact ih ha hb

/-- C3: `Wrap` with `BreakLongWords = false` alters words.  The replacement
template `"$1" + WordSep + "$2"` is expanded with `WordSep` unescaped.  With
the underscore as `WordSep` the collapse pass deletes a byte of a word and
the end of the line after it, so the result `b` of `a\nb` is shorter than the
trimmed input and its first byte is not the first byte of the trimmed input.
With the dollar sign as `WordSep` the result of `a\nb` is `a$2`: the word `b`
has become `2`.  `SplitChar` goes unescaped into the collapse expression as
well: with `.` as `SplitChar` the expression `([^.]).([^.])` matches any
three characters, and the word `aéb` (`é` is `0xC3 0xA9`), which holds no
separator, comes back as `a b`. -/
theorem wrap_alters_word :
    ((0 : Int) < (Style.mk 4 32 76 10 95 false).MaxWidth
      ∧ (Style.mk 4 32 76 10 95 false).WordSep ≠ (Style.mk 4 32 76 10 95 false).SplitChar
      ∧ trimmed (Style.mk 4 32 76 10 95 false) (bytes "a\nb") = bytes "a\nb"
      ∧ Wrap (Style.mk 4 32 76 10 95 false) (bytes "a\nb") = .done (bytes "b")
      ∧ (bytes "b").length ≠ (bytes "a\nb").length
      ∧ (bytes "a\nb")[0]? = some 97 ∧ (bytes "b")[0]? = some 98)
    ∧ (trimmed (Style.mk 4 32 76 10 36 false) (bytes "a\nb") = bytes "a\nb"
      ∧ Wrap (Style.mk 4 32 76 10 36 false) (bytes "a\nb") = .done (bytes "a$2")
      ∧ (bytes "a\nb")[2]? = some 98 ∧ (bytes "a$2")[2]? = some 50)
    ∧ (trimmed (Style.mk 4 32 76 46 32 false) [97, 0xC3, 0xA9, 98] = [97, 0xC3, 0xA9, 98]
      ∧ Wrap (Style.mk 4 32 76 46 32 false) [97, 0xC3, 0xA9, 98] = .done (bytes "a b")
      ∧ ([97, 0xC3, 0xA9, 98] : Str)[1]? = some 0xC3 ∧ (bytes "a b")[1]? = some 32) := by
  decide

/-- Where the separators are taken as they are, words are kept: with
`BreakLongWords = false`, a `SplitChar` of one byte that stands for itself in
the collapse expression and a plain word separator, whenever `Wrap(s)` returns
a result `r`, with `t` the input trimmed of `WordSep` and `SplitChar`, `r` has
the length of `t`, and at every index `p`: if `t[p]` is neither `WordSep` nor
`SplitChar` then `r[p] = t[p]`, and if `r[p]` is `SplitChar` then `t[p]` is
`WordSep` or `SplitChar`. -/
theorem wrap_keeps_words_plain (s : Style) (input r : Str)
    (hlit : literalSep s.SplitChar) (hplain : plainSep s.WordSep)
    (hblw : s.BreakLongWords = false) (h : Wrap s input = .done r) :
    r.length = (trimmed s input).length
      ∧ ∀ p a b : Nat, (trimmed s input)[p]? = some a → r[p]? = some b →
          ((a ≠ s.WordSep ∧ a ≠ s.SplitChar → b = a)
            ∧ (b = s.SplitChar → a = s.WordSep ∨ a = s.SplitChar)) := by
  rw [Wrap_literal hlit hplain.1] at h
  rw [trimmed_ascii hlit.1 hplain.1]
  have hrel := Wrap_sameOrSep hplain hblw h
  refine ⟨hrel.length_eq.symm, ?_⟩
  intro p a b ha hb
  have hab := forall₂_getElem? hrel ha hb
  rcases hab with hab | ⟨h1, _⟩
  · subst hab
    exact ⟨fun _ => rfl, fun hsc => Or.inr hsc⟩
  · have hsep : a = s.WordSep ∨ a = s.SplitChar := by simpa [isSep] using h1
    refine ⟨fun hne => ?_, fun _ => hsep⟩
    rcases hsep with hsep | hsep
    · exact absurd hsep hne.1
    · exact absurd hsep hne.2

/-- C4: `Wrap` slices out of bounds.  In `aaaa\n\nbbbbb` with `MaxWidth = 10` the
first window `output[0:10]` holds a `SplitChar` at index 4; `seek` becomes 5
and `end` becomes 15, past the 11 bytes of the text, and `output[5:15]`
panics, for either value of `BreakLongWords`. -/
theorem wrap_panics_after_advance :
    Wrap (Style.mk 4 32 10 10 32 false) (bytes "aaaa\n\nbbbbb") = .panic
      ∧ Wrap (Style.mk 4 32 10 10 32 true) (bytes "aaaa\n\nbbbbb") = .panic
      ∧ prepared (Style.mk 4 32 10 10 32 false) (bytes "aaaa\n\nbbbbb")
          = some (bytes "aaaa\n\nbbbbb")
      ∧ index ((bytes "aaaa\n\nbbbbb").take 10) (runeString 10) = some 4
      ∧ slice (bytes "aaaa\n\nbbbbb") 5 15 = none := by
  decide

/-- C5: `Wrap` changes the length of the text.  The replacement template
`"$1" + WordSep + "$2"` is expanded with `WordSep` unescaped.  With the digit
`0` as `WordSep` it names a group 10, which does not exist: the collapse pass
replaces the three bytes `b\nc` of `ab\ncd` by `c`, and the result `acd` has
three bytes where the trimmed input has five.  With the dollar sign as
`WordSep` the rune after the `SplitChar` is replaced by the one byte `2`: the
four bytes of `a\né` (`é` is `0xC3 0xA9`) give the three bytes `a$2`.
`SplitChar` goes unescaped into the collapse expression: with `.` as
`SplitChar` the four bytes of `aéb`, which holds no separator, give the three
bytes `a b`.  And a break puts all of `string(SplitChar)` in the place of one
byte: with `é` as `SplitChar` and `BreakLongWords`, the ten bytes of
`abcdefghij` at `MaxWidth = 3` give thirteen bytes. -/
theorem wrap_changes_length :
    (trimmed (Style.mk 4 32 76 10 48 false) (bytes "ab\ncd") = bytes "ab\ncd"
      ∧ Wrap (Style.mk 4 32 76 10 48 false) (bytes "ab\ncd") = .done (bytes "acd")
      ∧ (bytes "acd").length ≠ (bytes "ab\ncd").length)
    ∧ (trimmed (Style.mk 4 32 76 10 36 false) [97, 10, 0xC3, 0xA9] = [97, 10, 0xC3, 0xA9]
      ∧ Wrap (Style.mk 4 32 76 10 36 false) [97, 10, 0xC3, 0xA9] = .done (bytes "a$2")
      ∧ (bytes "a$2").length ≠ ([97, 10, 0xC3, 0xA9] : Str).length)
    ∧ (trimmed (Style.mk 4 32 76 46 32 false) [97, 0xC3, 0xA9, 98] = [97, 0xC3, 0xA9, 98]
      ∧ Wrap (Style.mk 4 32 76 46 32 false) [97, 0xC3, 0xA9, 98] = .done (bytes "a b")
      ∧ (bytes "a b").length ≠ ([97, 0xC3, 0xA9, 98] : Str).length)
    ∧ (trimmed (Style.mk 4 32 3 0xE9 32 true) (bytes "abcdefghij") = bytes "abcdefghij"
      ∧ Wrap (Style.mk 4 32 3 0xE9 32 true) (bytes "abcdefghij")
          = .done [97, 98, 99, 0xC3, 0xA9, 101, 102, 0xC3, 0xA9, 104, 105, 0xC3, 0xA9]
      ∧ (bytes "abcdefghij").length = 10
      ∧ ([97, 98, 99, 0xC3, 0xA9, 101, 102, 0xC3, 0xA9, 104, 105, 0xC3, 0xA9] : Str).length
          = 13) := by
  decide

/-- Where the separators are taken as they are, the length is kept: for a
`SplitChar` of one byte that stands for itself in the collapse expression and
a plain word separator, whenever `Wrap` returns a result, its length is the
length of the input trimmed of `WordSep` and `SplitChar`. -/
theorem wrap_length_plain (s : Style) (input r : Str) (hlit : literalSep s.SplitChar)
    (hplain : plainSep s.WordSep) (h : Wrap s input = .done r) :
    r.length = (trimmed s input).length := by
  rw [Wrap_literal hlit hplain.1] at h
  rw [trimmed_ascii hlit.1 hplain.1]
  exact Wrap_length hplain h

/-! ## C6: wrapping a wrapped text -/

/-- C6, as stated, fails.  With `BreakLongWords = true` and `MaxWidth = 3`,
`Wrap("abcd")` is `abc\n` (the `d` is overwritten by the break), and wrapping
that again trims the break away and gives `abc`: the visible texts `abc ` and
`abc` differ.  A separator with a meaning in the collapse expression or in
the replacement template makes every call change the text: with the
underscore as `WordSep`, `Wrap("a\nb\nc")` is `b\nc` and `Wrap("b\nc")` is `c`;
with the dollar sign, `Wrap("a\nb\nc")` is `a$2\nc` and `Wrap("a$2\nc")` is
`a$2$2`; with `.` as `SplitChar`, `Wrap("ab.cd")` is `ab cd` and `Wrap("ab cd")`
is `a  cd`. -/
theorem rewrap_counterexample :
    (Wrap (Style.mk 4 32 3 10 32 true) (bytes "abcd") = .done (bytes "abc\n")
      ∧ Wrap (Style.mk 4 32 3 10 32 true) (bytes "abc\n") = .done (bytes "abc")
      ∧ unsplit 32 10 (bytes "abc") ≠ unsplit 32 10 (bytes "abc\n"))
    ∧ (Wrap (Style.mk 4 32 76 10 95 false) (bytes "a\nb\nc") = .done (bytes "b\nc")
      ∧ Wrap (Style.mk 4 32 76 10 95 false) (bytes "b\nc") = .done (bytes "c")
      ∧ unsplit 95 10 (bytes "c") ≠ unsplit 95 10 (bytes "b\nc"))
    ∧ (Wrap (Style.mk 4 32 76 10 36 false) (bytes "a\nb\nc") = .done (bytes "a$2\nc")
      ∧ Wrap (Style.mk 4 32 76 10 36 false) (bytes "a$2\nc") = .done (bytes "a$2$2")
      ∧ unsplit 36 10 (bytes "a$2$2") ≠ unsplit 36 10 (bytes "a$2\nc"))
    ∧ (Wrap (Style.mk 4 32 76 46 32 false) (bytes "ab.cd") = .done (bytes "ab cd")
      ∧ Wrap (Style.mk 4 32 76 46 32 false) (bytes "ab cd") = .done (bytes "a  cd")
      ∧ unsplit 32 46 (bytes "a  cd") ≠ unsplit 32 46 (bytes "ab cd")) := by
  decide

/-- C6, amended: `BreakLongWords = false`, the `SplitChar` is one byte and
stands for itself in the collapse expression (an ASCII character that is
none of `\ . + * ? ( ) | [ ] { } ^ $`), and the word separator is plain (an
ASCII character, not a letter, digit, underscore or dollar sign).  For every
input `s` for which both calls return, `Wrap(Wrap(s))` and `Wrap(s)` are equal
once every `SplitChar` in each of them is replaced by `WordSep`. -/
theorem rewrap_same_text (s : Style) (input r1 r2 : Str)
    (hlit : literalSep s.SplitChar) (hplain : plainSep s.WordSep)
    (hblw : s.BreakLongWords = false)
    (h1 : Wrap s input = .done r1) (h2 : Wrap s r1 = .done r2) :
    unsplit s.WordSep s.SplitChar r2 = unsplit s.WordSep s.SplitChar r1 := by
  rw [Wrap_literal hlit hplain.1] at h1 h2
  have hr1 := Wrap_sameOrSep hplain hblw h1
  have hends := sameOrSep_noSepEnds hr1 (trim_noSepEnds _ _ input)
  have hr2 := Wrap_sameOrSep hplain hblw h2
  rw [trim_eq_self hends] at hr2
  exact sameOrSep_unsplit hr2

/-- The amended C6 for the default style: `Wrap("a\nb\nc")` is `a b\nc` (the
collapse pass is one pass without overlap), wrapping that again gives `a b c`,
and both are the visible text `a b c`. -/
theorem rewrap_same_text_witness :
    Wrap NewStyle (bytes "a\nb\nc") = .done (bytes "a b\nc")
      ∧ Wrap NewStyle (bytes "a b\nc") = .done (bytes "a b c")
      ∧ unsplit 32 10 (bytes "a b c") = unsplit 32 10 (bytes "a b\nc") :=
  ⟨by decide, by decide,
   rewrap_same_text NewStyle (bytes "a\nb\nc") (bytes "a b\nc") (bytes "a b c")
    (by decide) (by decide) rfl (by decide) (by decide)⟩

/-! ## C7: text that already fits -/

/-- C7: `Wrap(u + SplitChar + v)` is not `u + WordSep + v`.  The replacement
template `"$1" + WordSep + "$2"` is expanded with `WordSep` unescaped: with
the underscore as `WordSep` it reads `${1_}$2`, and `Wrap("hello\nworld")` is
`hellworld`, not `hello_world`; with the dollar sign, `Wrap("a\nb")` is `a$2`,
not `a$b`.  `SplitChar` goes unescaped into the collapse expression: with `^`
the expression `([^^])^([^^])` matches nowhere and `Wrap("a^b")` is `a^b`, not
`a b`; with `\` the expression does not parse and the call panics, also for
an input of separators only, which is to give the empty string.  With the
default style the call comes out as the claim has it:
`Wrap("hello\nworld") = "hello world"`. -/
theorem wrap_joins_without_separator :
    ((0 : Int) ≤ (Style.mk 4 32 76 10 95 false).MaxWidth
      ∧ (((bytes "hello").length + 1 + (bytes "world").length : Nat) : Int)
          ≤ (Style.mk 4 32 76 10 95 false).MaxWidth
      ∧ Wrap (Style.mk 4 32 76 10 95 false) (bytes "hello" ++ 10 :: bytes "world")
          = .done (bytes "hellworld")
      ∧ bytes "hellworld" ≠ bytes "hello" ++ 95 :: bytes "world")
    ∧ (Wrap (Style.mk 4 32 76 10 36 false) (bytes "a" ++ 10 :: bytes "b") = .done (bytes "a$2")
      ∧ bytes "a$2" ≠ bytes "a" ++ 36 :: bytes "b")
    ∧ (Wrap (Style.mk 4 32 76 94 32 false) (bytes "a" ++ 94 :: bytes "b") = .done (bytes "a^b")
      ∧ bytes "a^b" ≠ bytes "a" ++ 32 :: bytes "b")
    ∧ Wrap (Style.mk 4 32 76 92 32 false) (bytes " ") = .panic
    ∧ Wrap NewStyle (bytes "hello" ++ 10 :: bytes "world")
        = .done (bytes "hello" ++ 32 :: bytes "world") := by
  decide

/-- Where the separators are taken as they are, text that fits is joined as
expected.  For a style with a `SplitChar` of one byte that stands for itself
in the collapse expression and a `WordSep` of one byte: an input whose
trimmed form `t` has length at most `MaxWidth` does not enter the scanning
loop, and `Wrap` returns `t` with the collapse pass applied; an input made up
only of `WordSep` and `SplitChar` bytes yields the empty string (`MaxWidth`
not negative); and, when the word separator is plain,
`Wrap(u + SplitChar + v) = u + WordSep + v` for non-empty words `u`, `v` with
`len(u) + 1 + len(v) <= MaxWidth`. -/
theorem wrap_fits_plain (s : Style) (hlit : literalSep s.SplitChar) (hws : s.WordSep < 128) :
    (∀ input : Str, ((trimmed s input).length : Int) ≤ s.MaxWidth →
        prepared s input = some (preparedByte s input)
          ∧ Wrap s input = .done (preparedByte s input))
      ∧ (0 ≤ s.MaxWidth → ∀ input : Str, (∀ b ∈ input, b = s.WordSep ∨ b = s.SplitChar) →
          Wrap s input = .done [])
      ∧ (plainSep s.WordSep → ∀ u v : Str, u ≠ [] → v ≠ [] →
          (∀ b ∈ u, b ≠ s.WordSep ∧ b ≠ s.SplitChar) →
          (∀ b ∈ v, b ≠ s.WordSep ∧ b ≠ s.SplitChar) →
          ((u.length + 1 + v.length : Nat) : Int) ≤ s.MaxWidth →
          Wrap s (u ++ s.SplitChar :: v) = .done (u ++ s.WordSep :: v)) := by
  refine ⟨fun input hfit => ⟨prepared_literal hlit hws input, Wrap_fits_literal hlit hws hfit⟩,
    ?_, ?_⟩
  · intro hW input hall
    have ht := trim_all_sep hall
    rw [Wrap_fits_literal hlit hws (by rw [trimmed_ascii hlit.1 hws, ht]; simpa using hW)]
    unfold preparedByte
    rw [ht]
    rfl
  · intro hplain u v hu hv hnu hnv hlen
    have ht := trim_words hu hv hnu hnv
    rw [Wrap_fits_literal hlit hws (by
      rw [trimmed_ascii hlit.1 hws, ht]
      simp only [List.length_append, List.length_cons]; omega)]
    unfold preparedByte collapseByte
    rw [ht, collapseAux_join hplain hlit.1 v hv (fun hm => (hnv _ hm).2 rfl) _ u hu
      (fun hm => (hnu _ hm).2 rfl) (by simp)]

/-! ## C8: the place of a break -/

/-- C8: the break is not greedy.  In `aaaaa bbbb cc` with `MaxWidth = 10` the
`WordSep` at index 10 ends a line of exactly ten bytes, but the window
`output[0:10]` stops before it: the last `WordSep` found is the one at index 5,
and the result is `aaaaa\nbbbb cc`, whose first line could have taken the word
`bbbb` (5 + 1 + 4 = 10).  The other two breaks of `Wrap` do fill a line to
`MaxWidth`: a long word is cut after `MaxWidth` bytes, and a word of exactly
`MaxWidth` bytes is a line of its own. -/
theorem wrap_break_not_greedy :
    Wrap (Style.mk 4 32 10 10 32 false) (bytes "aaaaa bbbb cc") = .done (bytes "aaaaa\nbbbb cc")
      ∧ lines 10 (bytes "aaaaa\nbbbb cc") = [bytes "aaaaa", bytes "bbbb cc"]
      ∧ (bytes "aaaaa").length + 1 + (bytes "bbbb").length ≤ 10
      ∧ (bytes "aaaaa bbbb cc")[10]? = some 32
      ∧ slice (bytes "aaaaa bbbb cc") 0 10 = some (bytes "aaaaa bbbb")
      ∧ lastIndex (bytes "aaaaa bbbb") (runeString 32) = some 5
      ∧ Wrap (Style.mk 4 32 3 10 32 true) (bytes "abcdefg") = .done (bytes "abc\nefg")
      ∧ Wrap (Style.mk 4 32 5 10 32 false) (bytes "aaaaa bb") = .done (bytes "aaaaa\nbb") := by
  decide

/-! ## C9, C10: `Indent` -/

/-- C9, as stated, fails in its last part: for `s = "a\n\n"` and `s' = "a\n"`
with a two space indent, `Indent(s)` is `"  a\n  \n"` (the first `SplitChar` is
not at the final position, so it gets an indent), while `Indent(s') + "\n"` is
`"  a\n\n"`.  The claim also needs its ordinary characters: with the dollar
sign as `IndentChar` the replacement template halves the indent after a
`SplitChar` (`Indent("a\nb")` is `"$$a\n$b"`), with `IndentChar` equal to
`SplitChar` the indent in front is itself indented (`Indent("a")` with one
`"\n"` as indent is `"\n\na"`), and with `.` as `SplitChar` the expression
matches every character (`Indent("ab")` is `".  .  .  b"`). -/
theorem indent_every_line_counterexample :
    (Indent (Style.mk 2 32 76 10 32 false) (bytes "a\n" ++ [10]) = .done (bytes "  a\n  \n")
      ∧ Indent (Style.mk 2 32 76 10 32 false) (bytes "a\n") = .done (bytes "  a\n")
      ∧ bytes "a\n" ≠ []
      ∧ bytes "  a\n  \n" ≠ bytes "  a\n" ++ [10])
    ∧ (Indent (Style.mk 2 36 76 10 32 false) (bytes "a\nb") = .done (bytes "$$a\n$b")
      ∧ bytes "$$a\n$b" ≠ bytes "$$" ++ bytes "a" ++ 10 :: bytes "$$" ++ bytes "b")
    ∧ (Indent (Style.mk 1 10 76 10 32 false) (bytes "a") = .done (bytes "\n\na")
      ∧ bytes "\n\na" ≠ bytes "\n" ++ bytes "a")
    ∧ (Indent (Style.mk 2 32 76 46 32 false) (bytes "ab") = .done (bytes ".  .  .  b")
      ∧ bytes ".  .  .  b" ≠ bytes "  " ++ bytes "ab") := by
  decide

/-- C9, amended.  For every style with `IndentWidth >= 0`, a `SplitChar` of one
byte that stands for itself in the expression (an ASCII character that is
none of `\ . + * ? ( ) | [ ] { } ^ $`) and an ASCII `IndentChar` that is
neither `SplitChar` nor the dollar sign, with `ind` the `IndentWidth` copies
of `IndentChar`: for every non-empty input `s`, `Indent(s)` is `ind` followed
by `s` in which every `SplitChar` except one at the final position is
followed by `ind`, the final byte being kept as it is; if `s` does not end in
`SplitChar`, `Indent(s)` is the `SplitChar`-join of `ind + l` over the lines
`l` of `s`; and if `s'` is non-empty and does not end in `SplitChar`, then
`Indent(s' + SplitChar) = Indent(s') + SplitChar`. -/
theorem indent_every_line (s : Style) (hw : 0 ≤ s.IndentWidth) (hlit : literalSep s.SplitChar)
    (hic : s.IndentChar < 128) (hne : s.IndentChar ≠ s.SplitChar) (hd : s.IndentChar ≠ 36) :
    (∀ (input : Str) (h : input ≠ []),
        Indent s input
          = .done (List.replicate s.IndentWidth.toNat s.IndentChar
              ++ input.dropLast.flatMap
                  (indentByte s.SplitChar (List.replicate s.IndentWidth.toNat s.IndentChar))
              ++ [input.getLast h]))
      ∧ (∀ (input : Str) (h : input ≠ []), input.getLast h ≠ s.SplitChar →
        Indent s input
          = .done (joinWith s.SplitChar ((lines s.SplitChar input).map
              (fun l => List.replicate s.IndentWidth.toNat s.IndentChar ++ l))))
      ∧ (∀ (input : Str) (h : input ≠ []) (r : Str), input.getLast h ≠ s.SplitChar →
        Indent s input = .done r → Indent s (input ++ [s.SplitChar]) = .done (r ++ [s.SplitChar])) := by
  simp only [Indent_literal hlit hic]
  exact indentByte_every_line s hw hlit.1 hne hd

/-- The amended C9 for a two space indent: `Indent("a\nbc")` is `"  a\n  bc"`. -/
theorem indent_every_line_witness :
    Indent (Style.mk 2 32 76 10 32 false) (bytes "a\nbc")
      = .done (joinWith 10 [bytes "  a", bytes "  bc"]) :=
  (indent_every_line (Style.mk 2 32 76 10 32 false) (by decide) (by decide) (by decide)
    (by decide) (by decide)).2.1 (bytes "a\nbc") (by decide) (by decide)

/-- C10, as stated, fails: `Indent("a\n")` with a two space indent is
`"  a\n"`, whose lines are `"  a"` and the empty line after the final
`SplitChar`, and the empty line does not begin with the indent.  With the
dollar sign as `IndentChar` the replacement template halves the indent after
a `SplitChar`: `Indent("a\nb")` is `"$$a\n$b"`, whose second line begins with
one `$` only.  With `.` as `SplitChar` the expression matches every
character: `Indent("ab")` is `".  .  .  b"`, whose first line is empty, and
with `*` the expression does not parse and the call panics. -/
theorem indent_round_trip_counterexample :
    ((0 : Int) ≤ (Style.mk 2 32 76 10 32 false).IndentWidth
      ∧ (Style.mk 2 32 76 10 32 false).IndentChar ≠ (Style.mk 2 32 76 10 32 false).SplitChar
      ∧ bytes "a\n" ≠ []
      ∧ Indent (Style.mk 2 32 76 10 32 false) (bytes "a\n") = .done (bytes "  a\n")
      ∧ lines 10 (bytes "  a\n") = [bytes "  a", []]
      ∧ ¬ (∀ l ∈ lines 10 (bytes "  a\n"), (List.replicate 2 32).isPrefixOf l = true))
    ∧ (Indent (Style.mk 2 36 76 10 32 false) (bytes "a\nb") = .done (bytes "$$a\n$b")
      ∧ lines 10 (bytes "$$a\n$b") = [bytes "$$a", bytes "$b"]
      ∧ ¬ (∀ l ∈ lines 10 (bytes "$$a\n$b"), (List.replicate 2 36).isPrefixOf l = true))
    ∧ (Indent (Style.mk 2 32 76 46 32 false) (bytes "ab") = .done (bytes ".  .  .  b")
      ∧ lines 46 (bytes ".  .  .  b") = [[], bytes "  ", bytes "  ", bytes "  b"]
      ∧ ¬ (∀ l ∈ lines 46 (bytes ".  .  .  b"), (List.replicate 2 32).isPrefixOf l = true))
    ∧ Indent (Style.mk 2 32 76 42 32 false) (bytes "ab") = .panic := by
  decide

/-- C10, amended.  For every style with `IndentWidth >= 0`, a `SplitChar` of
one byte that stands for itself in the expression (an ASCII character that
is none of `\ . + * ? ( ) | [ ] { } ^ $`) and an ASCII `IndentChar` that is
neither `SplitChar` nor the dollar sign, and every non-empty input `s`:
`Indent(s)` returns a result; every line of it except the last begins with
`IndentWidth` copies of `IndentChar`, and so does the last line unless `s`
ends in `SplitChar` (then the last line is empty); and removing the first
`IndentWidth` bytes from every line (nothing from an empty line) and
re-joining the lines with `SplitChar` recovers `s`. -/
theorem indent_round_trip (s : Style) (hw : 0 ≤ s.IndentWidth) (hlit : literalSep s.SplitChar)
    (hic : s.IndentChar < 128) (hne : s.IndentChar ≠ s.SplitChar) (hd : s.IndentChar ≠ 36)
    (input : Str) (hin : input ≠ []) :
    ∃ r, Indent s input = .done r
      ∧ (∀ l ∈ (lines s.SplitChar r).dropLast,
          List.replicate s.IndentWidth.toNat s.IndentChar <+: l)
      ∧ (input.getLast hin ≠ s.SplitChar →
          ∀ l ∈ lines s.SplitChar r, List.replicate s.IndentWidth.toNat s.IndentChar <+: l)
      ∧ joinWith s.SplitChar ((lines s.SplitChar r).map (List.drop s.IndentWidth.toNat)) = input := by
  simp only [Indent_literal hlit hic]
  exact indentByte_round_trip s hw hlit.1 hne hd input hin

/-- The amended C10 for a two space indent and the input `"a\nbc\n"`. -/
theorem indent_round_trip_witness :
    ∃ r, Indent (Style.mk 2 32 76 10 32 false) (bytes "a\nbc\n") = .done r
      ∧ (∀ l ∈ (lines 10 r).dropLast, List.replicate 2 32 <+: l)
      ∧ ((bytes "a\nbc\n").getLast (by decide) ≠ 10 →
          ∀ l ∈ lines 10 r, List.replicate 2 32 <+: l)
      ∧ joinWith 10 ((lines 10 r).map (List.drop 2)) = bytes "a\nbc\n" :=
  indent_round_trip (Style.mk 2 32 76 10 32 false) (by decide) (by decide) (by decide)
    (by decide) (by decide) (bytes "a\nbc\n") (by decide)

/-! ## C11: `Indent` on the empty string -/

/-- C11: `Indent("")` indexes out of bounds when `IndentWidth` is 0.  The
indent string and with it `output` are empty, and `output[:len(output)-1]` is
a slice with the bound `-1`: the call panics.  With an indent, as in the
default style, the same call returns the indent alone. -/
theorem indent_empty_panics :
    Indent (Style.mk 0 32 76 10 32 false) [] = .panic
      ∧ (0 : Int) ≤ (Style.mk 0 32 76 10 32 false).IndentWidth
      ∧ Indent NewStyle [] = .done (List.replicate 4 32) := by
  decide

/-! ## C12, C13, C14: `Underline` -/

/-- C12: for a format `f` without `%` and without operands, which
`fmt.Sprintf` returns as it is, and a fill string whose first byte `c` is
ASCII, `Underline(ulinechar, f)` is `f`, a line feed and `len(f)` copies of
`c`; the rest of `ulinechar` is not used. -/
theorem underline_shape {α : Type} (Sprintf : Str → List α → Str)
    (hS : ∀ g : Str, 37 ∉ g → Sprintf g [] = g) (f : Str) (hf : 37 ∉ f)
    (c : Nat) (rest : Str) (hc : c < 128) :
    Underline Sprintf (c :: rest) f [] = .done (f ++ [10] ++ List.replicate f.length c) := by
  unfold Underline byteAt
  simp only [List.getElem?_cons_zero, hS f hf, byteString, hc, if_true,
    flatten_replicate_singleton]

/-- C12 for `Underline("-", "Title")`, which is `"Title\n-----"`. -/
theorem underline_shape_witness :
    Underline (fun g (_ : List Unit) => g) (bytes "-") (bytes "Title") []
      = .done (bytes "Title\n-----") :=
  underline_shape (fun g (_ : List Unit) => g) (fun _ _ => rfl) (bytes "Title") (by decide)
    45 [] (by decide)

theorem decodeRune_two (b0 b1 : Nat) (rest : Str) (h0 : 194 ≤ b0) (h1 : b0 < 224)
    (h2 : 128 ≤ b1) (h3 : b1 ≤ 191) : (decodeRune (b0 :: b1 :: rest)).2 = 2 := by
  have n0 : ¬ b0 < 128 := by omega
  have n1 : ¬ (b0 < 194 ∨ 244 < b0) := by omega
  have e1 : ¬ b0 = 224 := by omega
  have e2 : ¬ b0 = 240 := by omega
  have e3 : ¬ b0 = 237 := by omega
  have e4 : ¬ b0 = 244 := by omega
  have n2 : ¬ (rest.length + 1 + 1 < 2) := by omega
  have n3 : ¬ (b1 < 128 ∨ 191 < b1) := by omega
  unfold decodeRune
  simp only [n0, n1, e1, e2, e3, e4, h1, n2, n3, if_false, if_true, List.length_cons,
    le_refl]

/-- The string of a byte is one rune. -/
theorem decodeRune_byteString {c : Nat} (hc : c < 256) (rest : Str) :
    (byteString c ++ rest).drop (decodeRune (byteString c ++ rest)).2 = rest
      ∧ byteString c ≠ [] := by
  unfold byteString
  by_cases h : c < 128
  · rw [if_pos h]
    simp [decodeRune_ascii rest h]
  · rw [if_neg h]
    have := decodeRune_two (192 + c / 64) (128 + c % 64) rest (by omega) (by omega)
      (by omega) (by omega)
    simp only [List.cons_append, List.nil_append, this]
    simp

theorem runeCountAux_flatten {bs : Str} (hne : bs ≠ [])
    (hbs : ∀ rest : Str, (bs ++ rest).drop (decodeRune (bs ++ rest)).2 = rest) :
    ∀ (n m : Nat), ((List.replicate n bs).flatten).length ≤ m →
      runeCountAux m (List.replicate n bs).flatten = n := by
  obtain ⟨b, t, rfl⟩ := List.exists_cons_of_ne_nil hne
  intro n
  induction n with
  | zero =>
    intro m _
    cases m <;> rfl
  | succ n ih =>
    intro m hm
    have hdrop := hbs (List.replicate n (b :: t)).flatten
    rw [List.replicate_succ, List.flatten_cons] at hm ⊢
    cases m with
    | zero => simp at hm
    | succ m =>
      rw [List.cons_append] at hdrop hm ⊢
      rw [runeCountAux, hdrop, ih m (by
        simp only [List.length_cons, List.length_append] at hm
        omega)]
      omega

theorem runeCountAux_repeat {c : Nat} (hc : c < 256) (n m : Nat)
    (h : ((List.replicate n (byteString c)).flatten).length ≤ m) :
    runeCountAux m (List.replicate n (byteString c)).flatten = n :=
  runeCountAux_flatten (decodeRune_byteString hc []).2
    (fun rest => (decodeRune_byteString hc rest).1) n m h

/-- C13, as stated, fails: the fill is as long as the formatted text has
bytes.  For the heading `Café` (five bytes, `é` being `0xC3 0xA9`, and four
characters) `Underline("-", "Café")` ends in five fill characters. -/
theorem underline_fill_count_counterexample :
    Underline (fun g (_ : List Unit) => g) (bytes "-") [67, 97, 102, 0xC3, 0xA9] []
        = .done ([67, 97, 102, 0xC3, 0xA9] ++ 10 :: bytes "-----")
      ∧ runeCount [67, 97, 102, 0xC3, 0xA9] = 4
      ∧ runeCount (bytes "-----") = 5 := by
  decide

/-- C13, amended: for every formatted heading text and every non-empty
`ulinechar` (its first byte `c` a byte value), the result of `Underline` is
the formatted text, a line feed and a fill, and the number of characters of
the fill is the number of bytes of the formatted text: `len(result)`, which is
the number of its characters only for ASCII text. -/
theorem underline_fill_count {α : Type} (Sprintf : Str → List α → Str) (c : Nat) (rest : Str)
    (format : Str) (v : List α) (hc : c < 256) :
    ∃ fill, Underline Sprintf (c :: rest) format v = .done (Sprintf format v ++ 10 :: fill)
      ∧ runeCount fill = (Sprintf format v).length := by
  refine ⟨(List.replicate (Sprintf format v).length (byteString c)).flatten, ?_, ?_⟩
  · simp [Underline, byteAt]
  · exact runeCountAux_repeat hc _ _ (le_refl _)

/-- The amended C13 for `Underline("é", "Café")`: the fill byte `0xC3` is
turned into the character `Ã`, five times for the five bytes of `Café`. -/
theorem underline_fill_count_witness :
    ∃ fill, Underline (fun g (_ : List Unit) => g) [0xC3, 0xA9] [67, 97, 102, 0xC3, 0xA9] []
        = .done ([67, 97, 102, 0xC3, 0xA9] ++ 10 :: fill)
      ∧ runeCount fill = 5 :=
  underline_fill_count (fun g (_ : List Unit) => g) 0xC3 [0xA9] [67, 97, 102, 0xC3, 0xA9] []
    (by decide)

/-- C14, as stated, fails: `Underline("", "Title")` evaluates the index
expression `ulinechar[0]` on the empty string and ends in its run-time panic;
no failure is reported to the caller, who gets no value at all. -/
theorem underline_empty_fill_counterexample :
    byteAt [] 0 = none
      ∧ Underline (fun g (_ : List Unit) => g) [] (bytes "Title") [] = .panic := by
  decide

/-- C14, amended: `Underline` with an empty `ulinechar` returns no string, for
every format and every argument list: the call ends in the run-time panic of
the index expression `ulinechar[0]`. -/
theorem underline_empty_fill {α : Type} (Sprintf : Str → List α → Str) (format : Str)
    (v : List α) : Underline Sprintf [] format v = .panic := by
  simp [Underline, byteAt]

/-! ## C15, C16: invalid styles and termination -/

theorem prepared_parses {s : Style} (h : s.SplitChar ∉ [92, 40, 41, 91]) (input : Str) :
    ∃ p, prepared s input = some p := by
  simp only [List.mem_cons, List.mem_singleton, List.not_mem_nil, or_false, not_or] at h
  obtain ⟨h92, h40, h41, h91⟩ := h
  unfold prepared collapseNL
  simp only [h92, h40, h41, h91, or_self, if_false]
  split_ifs <;> exact ⟨_, rfl⟩

theorem prepared_fails {s : Style} (h : s.SplitChar ∈ [92, 40, 41, 91]) (input : Str) :
    prepared s input = none := by
  simp only [List.mem_cons, List.mem_singleton, List.not_mem_nil, or_false] at h
  unfold prepared collapseNL
  rw [if_pos (by tauto)]

/-- C15, as stated, fails: `Wrap` checks nothing.  With `MaxWidth = 0` it
returns `a\nb` for `a b`, a result computed from that style, and with `WordSep`
equal to `SplitChar` (both a space) it returns `a b`. -/
theorem wrap_no_validation_counterexample :
    ((Style.mk 4 32 0 10 32 false).MaxWidth ≤ 0
      ∧ Wrap (Style.mk 4 32 0 10 32 false) (bytes "a b") = .done (bytes "a\nb"))
    ∧ ((Style.mk 4 32 76 32 32 false).WordSep = (Style.mk 4 32 76 32 32 false).SplitChar
      ∧ Wrap (Style.mk 4 32 76 32 32 false) (bytes "a b") = .done (bytes "a b")) := by
  decide

/-- C15, amended: `Wrap` does not check its style and has no failure result.
For every input, a style with `MaxWidth < 0` makes the call panic (its first
slice is `output[0:MaxWidth]`), and so does a `SplitChar` that is one of
`\ ( ) [` (the collapse expression does not parse), so that no formatted
text is returned.  A style with `MaxWidth = 0` is not rejected: with
separators of one byte (code points below `0x80`) and a `SplitChar` other
than `\ ( ) [`, the call returns a result. -/
theorem wrap_no_validation (s : Style) (input : Str) :
    (s.MaxWidth < 0 → Wrap s input = .panic)
      ∧ (s.SplitChar ∈ [92, 40, 41, 91] → Wrap s input = .panic)
      ∧ (s.MaxWidth = 0 → s.SplitChar < 128 → s.WordSep < 128 →
          s.SplitChar ∉ [92, 40, 41, 91] → ∃ r, Wrap s input = .done r) := by
  refine ⟨?_, ?_, ?_⟩
  · intro h
    unfold Wrap
    cases prepared s input with
    | none => rfl
    | some p => simp [h]
  · intro h
    unfold Wrap
    rw [prepared_fails h]
  · intro h hsc hws hparse
    obtain ⟨p, hp⟩ := prepared_parses hparse input
    rw [Wrap_ascii hsc hws, hp]
    simp only [h, lt_self_iff_false, if_false, Int.toNat_zero]
    have hfuel := (wrapLoopByte_start s.SplitChar s.WordSep s.BreakLongWords 0 p 0).2
    have hpanic := wrapLoop_no_panic s.SplitChar s.WordSep s.BreakLongWords 0 (fun _ => True)
      (fun r _ => by simp) (fun _ _ _ => trivial) (p.length + 1) [] p trivial
    simp only [List.nil_append, List.length_nil, Nat.zero_add] at hpanic
    cases hres : wrapLoopByte s.SplitChar s.WordSep s.BreakLongWords 0 (p.length + 1) p 0 0 with
    | done r => exact ⟨r, rfl⟩
    | panic => exact absurd hres hpanic
    | outOfFuel => exact absurd hres hfuel

/-- The amended C15 for `MaxWidth = -1`, for `\` as `SplitChar` and for
`MaxWidth = 0`. -/
theorem wrap_no_validation_witness :
    Wrap (Style.mk 4 32 (-1) 10 32 false) (bytes "a b") = .panic
      ∧ Wrap (Style.mk 4 32 76 92 32 false) (bytes "a b") = .panic
      ∧ ∃ r, Wrap (Style.mk 4 32 0 10 32 true) (bytes "a b\n\nc") = .done r :=
  ⟨(wrap_no_validation (Style.mk 4 32 (-1) 10 32 false) (bytes "a b")).1 (by decide),
   (wrap_no_validation (Style.mk 4 32 76 92 32 false) (bytes "a b")).2.1 (by decide),
   (wrap_no_validation (Style.mk 4 32 0 10 32 true) (bytes "a b\n\nc")).2.2 rfl (by decide)
    (by decide) (by decide)⟩

theorem replicate_snoc_two (j a b c : Nat) :
    List.replicate j a ++ [a, b] ++ [c] = List.replicate (j + 1) a ++ [b, c] := by
  rw [List.replicate_succ']
  simp

/-- The scanning loop with `MaxWidth = 0`, `BreakLongWords` and `é` as
`SplitChar`, on a text that is `j` bytes `0xC3`, a byte `y` and the byte `b`,
with `seek = end = j`: every iteration puts the two bytes of `é` in the place
of `y`, and the loop is in the same state with `j + 1`. -/
theorem wrapLoop_grows : ∀ (fuel j y : Nat),
    wrapLoop 0xE9 32 true 0 fuel (List.replicate j 0xC3 ++ [y, 98]) j j = .outOfFuel := by
  intro fuel
  induction fuel with
  | zero => intro j y; rfl
  | succ n ih =>
    intro j y
    have hsl : slice (List.replicate j 0xC3 ++ [y, 98]) j j = some [] := by
      unfold slice
      rw [if_pos ⟨le_refl _, by simp⟩]
      simp
    have hsp : split 0xE9 (List.replicate j 0xC3 ++ [y, 98]) j
        = some (List.replicate (j + 1) 0xC3 ++ [0xA9, 98]) := by
      unfold split
      rw [if_pos (by simp)]
      have h1 : List.take j (List.replicate j 0xC3 ++ [y, 98]) = List.replicate j 0xC3 := by
        rw [List.take_append_of_le_length (by simp)]
        simp
      have h2 : List.drop (j + 1) (List.replicate j 0xC3 ++ [y, 98]) = [98] := by
        rw [List.drop_append_eq_append_drop]
        simp
      rw [h1, h2, ← replicate_snoc_two]
      rfl
    have hbody : wrapBody 0xE9 32 true 0 (List.replicate j 0xC3 ++ [y, 98]) j j
        = .next (List.replicate (j + 1) 0xC3 ++ [0xA9, 98]) (j + 1) (j + 1 + 0) := by
      have hi : index [] (runeString 0xE9) = none := by decide
      have hl : lastIndex [] (runeString 32) = none := by decide
      unfold wrapBody
      simp only [hsl, hi]
      unfold breakLine
      simp only [hsl, hl, if_true, hsp]
    unfold wrapLoop
    rw [if_pos (by simp), hbody]
    exact ih (j + 1) 0xA9

/-- C16: `Wrap` does not terminate for every style with `MaxWidth >= 0`.  With
`MaxWidth = 0`, `BreakLongWords` and `é` (two bytes, `0xC3 0xA9`) as
`SplitChar`, the scanning loop on `ab` does not end, whatever the number of
iterations it is given: `split(loc)` puts the two bytes of `string(SplitChar)`
in the place of one byte, `seek` and `end` move on by one, and the text is
two bytes longer than `end` after every iteration.  With the line feed as
`SplitChar` the same call returns. -/
theorem wrap_loops_forever :
    (0 : Int) ≤ (Style.mk 4 32 0 0xE9 32 true).MaxWidth
      ∧ prepared (Style.mk 4 32 0 0xE9 32 true) (bytes "ab") = some (bytes "ab")
      ∧ (∀ fuel : Nat, wrapLoop 0xE9 32 true 0 fuel (bytes "ab") 0 0 = .outOfFuel)
      ∧ wrapBody 0xE9 32 true 0 (bytes "ab") 0 0 = .next [0xC3, 0xA9, 98] 1 1
      ∧ wrapBody 0xE9 32 true 0 [0xC3, 0xA9, 98] 1 1 = .next [0xC3, 0xC3, 0xA9, 98] 2 2
      ∧ Wrap (Style.mk 4 32 0 10 32 true) (bytes "ab") = .done (bytes "\n\n") := by
  refine ⟨by decide, by decide, ?_, by decide, by decide, by decide⟩
  intro fuel
  exact wrapLoop_grows fuel 0 97

/-! ## C17, C18: the collapse pass -/

/-- C17, as stated, fails for a neighbour that is a `WordSep`: the collapse
expression only asks for neighbours other than `SplitChar`.  In `a \nb` the
`SplitChar` at index 2 has a `WordSep` to its left and becomes a `WordSep`;
in `a\n b` it has one to its right and becomes a `WordSep` too.  With a
separator that has a meaning in the replacement template or in the collapse
expression the positions move: with the underscore as `WordSep`, `a\nb\n\nc`
becomes `b\n\nc`, and with `.` as `SplitChar`, `aéb..c` (`é` is `0xC3 0xA9`)
becomes `a b..c`; the `SplitChar` followed by another one is no longer at its
index. -/
theorem collapse_keeps_breaks_counterexample :
    (trimmed NewStyle (bytes "a \nb") = bytes "a \nb"
      ∧ (bytes "a \nb")[2]? = some 10 ∧ (bytes "a \nb")[1]? = some 32
      ∧ Wrap NewStyle (bytes "a \nb") = .done (bytes "a  b")
      ∧ (bytes "a  b")[2]? ≠ some 10)
    ∧ (trimmed NewStyle (bytes "a\n b") = bytes "a\n b"
      ∧ (bytes "a\n b")[1]? = some 10 ∧ (bytes "a\n b")[2]? = some 32
      ∧ Wrap NewStyle (bytes "a\n b") = .done (bytes "a  b")
      ∧ (bytes "a  b")[1]? ≠ some 10)
    ∧ (trimmed (Style.mk 4 32 76 10 95 false) (bytes "a\nb\n\nc") = bytes "a\nb\n\nc"
      ∧ (bytes "a\nb\n\nc")[3]? = some 10 ∧ (bytes "a\nb\n\nc")[4]? = some 10
      ∧ Wrap (Style.mk 4 32 76 10 95 false) (bytes "a\nb\n\nc") = .done (bytes "b\n\nc")
      ∧ (bytes "b\n\nc")[3]? ≠ some 10)
    ∧ (trimmed (Style.mk 4 32 76 46 32 false) [97, 0xC3, 0xA9, 98, 46, 46, 99]
          = [97, 0xC3, 0xA9, 98, 46, 46, 99]
      ∧ ([97, 0xC3, 0xA9, 98, 46, 46, 99] : Str)[5]? = some 46
      ∧ ([97, 0xC3, 0xA9, 98, 46, 46, 99] : Str)[4]? = some 46
      ∧ Wrap (Style.mk 4 32 76 46 32 false) [97, 0xC3, 0xA9, 98, 46, 46, 99]
          = .done (bytes "a b..c")
      ∧ (bytes "a b..c")[5]? ≠ some 46) := by
  decide

/-- C17, amended: the `SplitChar` is one byte and stands for itself in the
collapse expression (an ASCII character that is none of
`\ . + * ? ( ) | [ ] { } ^ $`) and the word separator is plain (an ASCII
character, not a letter, digit, underscore or dollar sign).  For every input
whose trimmed form `t` has length at most `MaxWidth`, `Wrap` returns a result,
and every `SplitChar` of `t` whose immediate left or right neighbour is a
`SplitChar` is still a `SplitChar` at the same position of the result. -/
theorem collapse_keeps_breaks (s : Style) (input : Str) (hlit : literalSep s.SplitChar)
    (hplain : plainSep s.WordSep)
    (hfit : ((trimmed s input).length : Int) ≤ s.MaxWidth) :
    ∃ r, Wrap s input = .done r
      ∧ ∀ p : Nat, (trimmed s input)[p]? = some s.SplitChar →
          ((∃ q, p = q + 1 ∧ (trimmed s input)[q]? = some s.SplitChar)
            ∨ (trimmed s input)[p + 1]? = some s.SplitChar) →
          r[p]? = some s.SplitChar := by
  rw [trimmed_ascii hlit.1 hplain.1] at hfit ⊢
  simp only [Wrap_literal hlit hplain.1]
  exact collapseByte_keeps_breaks s input hplain hlit.1 hfit

/-- The amended C17 for the default style and `a\n\nb`, a blank line between
two paragraphs: both `SplitChar` stay. -/
theorem collapse_keeps_breaks_witness :
    ∃ r, Wrap NewStyle (bytes "a\n\nb") = .done r
      ∧ ∀ p : Nat, (trimmed NewStyle (bytes "a\n\nb"))[p]? = some 10 →
          ((∃ q, p = q + 1 ∧ (trimmed NewStyle (bytes "a\n\nb"))[q]? = some 10)
            ∨ (trimmed NewStyle (bytes "a\n\nb"))[p + 1]? = some 10) →
          r[p]? = some 10 :=
  collapse_keeps_breaks NewStyle (bytes "a\n\nb") (by decide) (by decide) (by decide)

/-- C18, as stated, fails: the collapse pass is one pass from left to right
and its matches do not overlap.  In `a\nb\nc` the first match takes `a\nb`, so
the `b` is no longer there to be the left neighbour of the second `SplitChar`,
which stays: the result is `a b\nc`.  The same holds when the neighbour taken
is a character of two bytes: in `x\né\ny` (`é` being `0xC3 0xA9`) the second
`SplitChar`, at index 4, stays although the byte two places to its left is
not a `SplitChar`.  With a separator that has a meaning in the replacement
template or in the collapse expression, no `WordSep` is put in: with the
underscore as `WordSep`, `ab\ncd` becomes `acd`, and with `^` as `SplitChar`,
`a^b` stays `a^b`. -/
theorem collapse_unwraps_counterexample :
    (trimmed NewStyle (bytes "a\nb\nc") = bytes "a\nb\nc"
      ∧ (bytes "a\nb\nc")[2]? = some 98 ∧ (bytes "a\nb\nc")[3]? = some 10
      ∧ (bytes "a\nb\nc")[4]? = some 99
      ∧ Wrap NewStyle (bytes "a\nb\nc") = .done (bytes "a b\nc")
      ∧ (bytes "a b\nc")[3]? ≠ some 32)
    ∧ (trimmed NewStyle [120, 10, 0xC3, 0xA9, 10, 121] = [120, 10, 0xC3, 0xA9, 10, 121]
      ∧ Wrap NewStyle [120, 10, 0xC3, 0xA9, 10, 121] = .done [120, 32, 0xC3, 0xA9, 10, 121]
      ∧ ([120, 32, 0xC3, 0xA9, 10, 121] : Str)[4]? ≠ some 32)
    ∧ (trimmed (Style.mk 4 32 76 10 95 false) (bytes "ab\ncd") = bytes "ab\ncd"
      ∧ (bytes "ab\ncd")[2]? = some 10
      ∧ Wrap (Style.mk 4 32 76 10 95 false) (bytes "ab\ncd") = .done (bytes "acd")
      ∧ (bytes "acd")[2]? ≠ some 95)
    ∧ (trimmed (Style.mk 4 32 76 94 32 false) (bytes "a^b") = bytes "a^b"
      ∧ (bytes "a^b")[1]? = some 94
      ∧ Wrap (Style.mk 4 32 76 94 32 false) (bytes "a^b") = .done (bytes "a^b")
      ∧ (bytes "a^b")[1]? ≠ some 32) := by
  decide

/-- C18, amended: the `SplitChar` is one byte and stands for itself in the
collapse expression (an ASCII character that is none of
`\ . + * ? ( ) | [ ] { } ^ $`) and the word separator is plain (an ASCII
character, not a letter, digit, underscore or dollar sign).  For every input
whose trimmed form `t` is ASCII and has length at most `MaxWidth`, `Wrap`
returns a result, and a `SplitChar` of `t` (at index `p + 1`) whose immediate
left and right neighbours are not `SplitChar` and which is not two places
after another `SplitChar` is replaced by `WordSep` at the same position of the
result. -/
theorem collapse_unwraps (s : Style) (input : Str) (hlit : literalSep s.SplitChar)
    (hplain : plainSep s.WordSep)
    (hascii : ∀ x ∈ trimmed s input, x < 128)
    (hfit : ((trimmed s input).length : Int) ≤ s.MaxWidth) :
    ∃ r, Wrap s input = .done r
      ∧ ∀ p a b : Nat, (trimmed s input)[p]? = some a → a ≠ s.SplitChar →
          (trimmed s input)[p + 1]? = some s.SplitChar →
          (trimmed s input)[p + 2]? = some b → b ≠ s.SplitChar →
          (∀ q, p = q + 1 → (trimmed s input)[q]? ≠ some s.SplitChar) →
          r[p + 1]? = some s.WordSep := by
  rw [trimmed_ascii hlit.1 hplain.1] at hfit hascii ⊢
  simp only [Wrap_literal hlit hplain.1]
  exact collapseByte_unwraps s input hplain hascii hfit

/-- The amended C18 for the default style and `a\nb\nc`: the first `SplitChar`
is replaced (the result is `a b\nc`). -/
theorem collapse_unwraps_witness :
    ∃ r, Wrap NewStyle (bytes "a\nb\nc") = .done r ∧ r[1]? = some 32 := by
  obtain ⟨r, hr, h⟩ := collapse_unwraps NewStyle (bytes "a\nb\nc") (by decide) (by decide)
    (by decide) (by decide)
  exact ⟨r, hr, h 0 97 98 (by decide) (by decide) (by decide) (by decide) (by decide)
    (by intro q hq; omega)⟩

/-! ## C19, C20: lines that fit, and a long word -/

/-- C19: `Wrap` re-wraps lines that fit.  In `aaaa bbbbb\n\nx` with
`MaxWidth = 10` the first line has exactly ten bytes; the window `output[0:10]`
ends before the `SplitChar` at index 10, so the line is taken for too long and
broken at its `WordSep`: the result is `aaaa\nbbbbb\n\nx`.  In `x\n\nab\n\ncd ef`
with `MaxWidth = 8` the range is advanced past the first `SplitChar` only; the
new window `output[2:10]` spans three lines, and its last `WordSep` breaks the
line `cd ef` of five bytes: the result is `x\n\nab\n\ncd\nef`. -/
theorem wrap_rewraps_fitting_line :
    (prepared (Style.mk 4 32 10 10 32 false) (bytes "aaaa bbbbb\n\nx")
          = some (bytes "aaaa bbbbb\n\nx")
      ∧ lines 10 (bytes "aaaa bbbbb\n\nx") = [bytes "aaaa bbbbb", [], bytes "x"]
      ∧ (bytes "aaaa bbbbb").length ≤ 10
      ∧ Wrap (Style.mk 4 32 10 10 32 false) (bytes "aaaa bbbbb\n\nx")
          = .done (bytes "aaaa\nbbbbb\n\nx"))
    ∧ (prepared (Style.mk 4 32 8 10 32 false) (bytes "x\n\nab\n\ncd ef")
          = some (bytes "x\n\nab\n\ncd ef")
      ∧ lines 10 (bytes "x\n\nab\n\ncd ef") = [bytes "x", [], bytes "ab", [], bytes "cd ef"]
      ∧ Wrap (Style.mk 4 32 8 10 32 false) (bytes "x\n\nab\n\ncd ef")
          = .done (bytes "x\n\nab\n\ncd\nef")) := by
  decide

/-- C20: with `BreakLongWords` a long word is not broken as stated for every
style.  `SplitChar` goes unescaped into the collapse expression: with `.` as
`SplitChar` the expression `([^.]).([^.])` matches any three characters, the
collapse pass turns the word `abcdefghij` into `a cd fg ij`, and
`Wrap("abcdefghij")` at `MaxWidth = 3` is `a.cd.fg.ij`, where the claim has
`abc.efg.ij`.  And a break puts all of `string(SplitChar)` in the place of
one byte: with `é` (`0xC3 0xA9`) as `SplitChar` the result has thirteen
bytes where the word has ten.  With the default separators the call comes
out as the claim has it: `abc\nefg\nij`, and `abc\n` for `abcd`. -/
theorem wrap_long_word_other_separator :
    ((0 : Int) < (Style.mk 4 32 3 46 32 true).MaxWidth
      ∧ (∀ b ∈ bytes "abcdefghij", b ≠ 32 ∧ b ≠ 46)
      ∧ Wrap (Style.mk 4 32 3 46 32 true) (bytes "abcdefghij") = .done (bytes "a.cd.fg.ij")
      ∧ (bytes "abcdefghij")[1]? = some 98 ∧ (bytes "a.cd.fg.ij")[1]? = some 46
      ∧ (1 + 1) % (3 + 1) ≠ 0)
    ∧ (Wrap (Style.mk 4 32 3 0xE9 32 true) (bytes "abcdefghij")
          = .done [97, 98, 99, 0xC3, 0xA9, 101, 102, 0xC3, 0xA9, 104, 105, 0xC3, 0xA9]
      ∧ ([97, 98, 99, 0xC3, 0xA9, 101, 102, 0xC3, 0xA9, 104, 105, 0xC3, 0xA9] : Str).length
          ≠ (bytes "abcdefghij").length)
    ∧ Wrap (Style.mk 4 32 3 10 32 true) (bytes "abcdefghij") = .done (bytes "abc\nefg\nij")
    ∧ Wrap (Style.mk 4 32 3 10 32 true) (bytes "abcd") = .done (bytes "abc\n") := by
  decide

/-- Where the separators are taken as they are, a long word is broken every
`MaxWidth + 1` bytes: for every style with `MaxWidth = m > 0`,
`BreakLongWords = true`, a `SplitChar` of one byte that stands for itself in
the collapse expression and a `WordSep` of one byte, and every word `w`
without `WordSep` and `SplitChar`, `Wrap(w)` returns a string `r` of the
length of `w` with `r[i] = SplitChar` at every index `i` with
`(i + 1) mod (m + 1) = 0` and `r[i] = w[i]` at every other index: the byte at
a break position is overwritten. -/
theorem wrap_breaks_long_word_plain (s : Style) (w : Str) (hlit : literalSep s.SplitChar)
    (hws : s.WordSep < 128) (hm : 0 < s.MaxWidth)
    (hblw : s.BreakLongWords = true) (hw : ∀ b ∈ w, b ≠ s.WordSep ∧ b ≠ s.SplitChar) :
    ∃ r, Wrap s w = .done r ∧ r.length = w.length
      ∧ ∀ i b : Nat, w[i]? = some b →
          r[i]? = some (if (i + 1) % (s.MaxWidth.toNat + 1) = 0 then s.SplitChar else b) := by
  simp only [Wrap_literal hlit hws]
  exact wrapByte_breaks_long_word s w hm hblw hw

end Refmt
